import Mathlib

/-!
# tail-directory: a shallow embedding of `src/tailer/tailer.cpp`

The development models the file-tracking and incremental-tail engine of the
tailer: the per-file record (`LogFileInfo`), the directory scan
(`collectLogFiles`), the registry reconciliation (`updateLogFilesMap`), the
incremental read of one file (`tailOneFile`), the polling loop of the worker
thread (`workerThreadProc`), the signal shared by the two threads (`SignalOp`)
and the exit code of the program (`main`).

Modelling conventions.

* File sizes and offsets are `Nat` (the source stores them in `int64_t`, and
  every value comes from a file size reported by the operating system);
  timestamps are `Int`.
* A file is the sequence of its bytes, each a `Char`; a stream position is a
  byte offset.  `tailOneFile` opens its `std::ifstream` without
  `std::ios::binary`, and the program is a Windows program, so the stream is in
  text mode (`textMode`): a CR directly followed by LF is delivered as one LF,
  and the first Ctrl-Z ends the input.  On what is delivered the stream follows
  the C++ standard: `getline` stops at end of file, at the delimiter or at a
  full buffer, in this order, and `tellg` answers `-1` once a state bit is set.
* What a function reads from its environment is an argument of its model: the
  directory listing of a scan, the clock (`now`) of `startWatching`, the
  content of the file that `tailOneFile` opens.
* Console output and the calls of `startWatching`, `stopWatching` and `Beep`
  are recorded, in program order, as a list of `Event`s.
* A `std::regex` is represented by the function it computes.
* A `std::unordered_map` is an association list; the loops of the source that
  iterate over a map iterate over the list, and the theorems about them hold
  for every order of the list.
-/

namespace Tailer

/-! ## Constants -/

/-- Read line max buffer size (`const std::streamsize BUFLEN{ 4096 }`). -/
def BUFLEN : Nat := 4096

/-- Signal flag: the main thread saw a change of the directory. -/
def DIRECTORY_MODIFIED : Nat := 0x1000

/-- Signal flag: the worker thread has to stop. -/
def STOP_MONITORING : Nat := 0x4000

/-! ## The file record -/

/-- Information about a file being monitored: the path, date, file size and
last-tailed position (`class LogFileInfo`).  The field `pfx` is the member
called "prefix" in the source. -/
structure LogFileInfo where
  pfx : String
  path : String
  create_time : Int
  write_time : Int
  file_size : Nat
  last_tailed_pos : Nat
deriving DecidableEq

/-- What the program does that an observer can see: the calls of the lifecycle
operations (each prints one console line), the capacity notice, the emitted
lines and the beeps. -/
inductive Event where
  /-- `startWatching` was called on the record (given in its state at the
  call); `rewind` tells whether the rewind message was printed. -/
  | startWatching (info : LogFileInfo) (rewind : Bool)
  /-- `stopWatching` was called on the record. -/
  | stopWatching (info : LogFileInfo)
  /-- The "Maximum number of files are being monitored" notice. -/
  | limitReached (max_files : Nat) (info : LogFileInfo)
  /-- A tailed line: `std::cout << prefix << ": " << current_line`. -/
  | line (pfx : String) (text : List Char)
  /-- A call of `Beep(500, 500)`. -/
  | beep
  /-- The "Press CTRL-C to exit." line of `collectInitialLogFiles`. -/
  | pressCtrlC
  /-- The warning that no file matches the file name regular expression. -/
  | noFilesWarning
  /-- The table printed by `showTooManyFilesMessage`. -/
  | tooManyFiles (max_files : Nat) (matched : List (String × String))
  /-- The "Cannot get file time and/or size" line of `tailAllFiles`. -/
  | statFailed (pfx : String)
  /-- The "Unable to open file handle" line of `tailAllFiles`. -/
  | openFailed (pfx : String)
deriving DecidableEq

/-! ## Time stamps and file attributes -/

/-- The Win32 `FILETIME`: two 32-bit halves of a count of 100 ns ticks. -/
structure FILETIME where
  dwLowDateTime : Nat
  dwHighDateTime : Nat
deriving DecidableEq

/-- January 1, 1970 in ticks (`UNIX_TIME_START`). -/
def UNIX_TIME_START : Int := 0x019DB1DED53E8000

/-- The divisor of `filetime_to_unix_time` (`TICKS_PER_SECOND`): with ticks of
100 ns the quotient counts milliseconds. -/
def TICKS_PER_SECOND : Int := 10000

/-- The signed 64-bit `QuadPart` of a `LARGE_INTEGER` with the given halves. -/
def quadPart (lowPart highPart : Nat) : Int :=
  let u : Nat := (highPart % 2 ^ 32) * 2 ^ 32 + lowPart % 2 ^ 32
  if u < 2 ^ 63 then (u : Int) else (u : Int) - 2 ^ 64

/-- Reduction of an integer to the range of `int64_t`. -/
def wrap64 (x : Int) : Int := (x + 2 ^ 63) % 2 ^ 64 - 2 ^ 63

/-- Model of `filetime_to_unix_time`: `(li.QuadPart - UNIX_TIME_START) /
TICKS_PER_SECOND`, with the truncating division of C++. -/
def filetime_to_unix_time (fileTime : FILETIME) : Int :=
  Int.tdiv (wrap64 (quadPart fileTime.dwLowDateTime fileTime.dwHighDateTime - UNIX_TIME_START))
    TICKS_PER_SECOND

/-- The fields of `WIN32_FILE_ATTRIBUTE_DATA` that the constructor reads. -/
structure FileAttributeData where
  ftCreationTime : FILETIME
  ftLastWriteTime : FILETIME
  nFileSizeHigh : Nat
  nFileSizeLow : Nat
deriving DecidableEq

/-- Model of the constructor `LogFileInfo(prefixStr, filePath)`.  The argument
`fileData` is the result of `GetFileAttributesEx`, `none` when the call fails
(all numeric members then keep their initial value 0). -/
def LogFileInfo.construct (prefixStr filePath : String) (fileData : Option FileAttributeData) :
    LogFileInfo :=
  match fileData with
  | some d =>
    { pfx := prefixStr, path := filePath,
      create_time := filetime_to_unix_time d.ftCreationTime,
      write_time := filetime_to_unix_time d.ftLastWriteTime,
      file_size := (d.nFileSizeHigh % 2 ^ 32) * 2 ^ 32 + d.nFileSizeLow % 2 ^ 32,
      last_tailed_pos := (d.nFileSizeHigh % 2 ^ 32) * 2 ^ 32 + d.nFileSizeLow % 2 ^ 32 }
  | none =>
    { pfx := prefixStr, path := filePath, create_time := 0, write_time := 0,
      file_size := 0, last_tailed_pos := 0 }

/-- Model of `LogFileInfo::startWatching`.  The argument `now` is the value of
`std::time(nullptr)`.  Returns the record after the call and the console line
it prints. -/
def LogFileInfo.startWatching (info : LogFileInfo) (now : Int) : LogFileInfo × Event :=
  if 0 < info.file_size ∧ info.file_size < 1000 then
    -- create time is milliseconds, not seconds
    let create := Int.tdiv info.create_time 1000
    if now - create < 6 then
      ({ info with last_tailed_pos := 0 }, Event.startWatching info true)
    else (info, Event.startWatching info false)
  else (info, Event.startWatching info false)

/-- Model of `LogFileInfo::stopWatching`: it only prints a line. -/
def LogFileInfo.stopWatching (info : LogFileInfo) : Event := Event.stopWatching info

/-! ## The input stream -/

/-- The Ctrl-Z character: it ends the input of a file that is read in text
mode. -/
def CTRL_Z : Char := Char.ofNat 26

/-- What a stream in text mode delivers for the bytes of a file: the
characters, each with the number of bytes it stands for.  `tailOneFile` opens
the file with `std::ifstream ifs(path)`, that is without `std::ios::binary`, and
on Windows the runtime then translates what it reads: a CR directly followed by
LF is delivered as one LF (two bytes), the first Ctrl-Z ends the input, and
every other byte, a CR that no LF follows included, is delivered as it is. -/
def textMode : List Char → List (Char × Nat)
  | [] => []
  | [c] => if c = CTRL_Z then [] else [(c, 1)]
  | c :: d :: cs =>
    if c = CTRL_Z then []
    else if c = '\r' ∧ d = '\n' then ('\n', 2) :: textMode cs
    else (c, 1) :: textMode (d :: cs)

/-- The number of bytes that delivered characters stand for. -/
def widths (delivered : List (Char × Nat)) : Nat := (delivered.map Prod.snd).sum

/-- The state of the `std::ifstream` that `tailOneFile` reads from: the bytes
of the file, the get position (a byte offset) and the two state bits the loop
tests. -/
structure IfStream where
  content : List Char
  gpos : Nat
  failbit : Bool
  eofbit : Bool
deriving DecidableEq

/-- Model of `ifs.good()`: no state bit is set. -/
def IfStream.good (s : IfStream) : Bool := !s.failbit && !s.eofbit

/-- Model of `ifs.fail()`. -/
def IfStream.fail (s : IfStream) : Bool := s.failbit

/-- Model of `ifs.eof()`. -/
def IfStream.eof (s : IfStream) : Bool := s.eofbit

/-- Why the extraction loop of `getline` stopped. -/
inductive ScanStop where
  | eof
  | delim
  | full
deriving DecidableEq

/-- The outcome of the extraction loop of `getline`: the characters stored in
the buffer, the number of characters extracted, the number of bytes of the file
they stand for, and the stop reason. -/
structure Scan where
  stored : List Char
  chcount : Nat
  bytes : Nat
  stop : ScanStop
deriving DecidableEq

/-- The extraction loop of `std::istream::getline(s, count)` on the characters
that the stream still has to deliver.  The three stop conditions are tested in
the order of the C++ standard: end of file; the next character is the delimiter
(extracted and counted, not stored); `count - 1` characters have been
stored. -/
def scanLine : List (Char × Nat) → Nat → Scan
  | [], _ => ⟨[], 0, 0, ScanStop.eof⟩
  | (c, w) :: cs, count =>
    if c = '\n' then ⟨[], 1, w, ScanStop.delim⟩
    else if count ≤ 1 then ⟨[], 0, 0, ScanStop.full⟩
    else
      let r := scanLine cs (count - 1)
      ⟨c :: r.stored, r.chcount + 1, r.bytes + w, r.stop⟩

/-- Model of `ifs.getline(pbuf, count)`: the new stream state and the
characters stored in the buffer.  When the stream is not good the sentry fails:
nothing is extracted and `failbit` is set.  Otherwise the extraction loop runs
on what text mode delivers from the get position on, and the get position
advances by the bytes extracted.  End of file sets `eofbit` (and `failbit` when
nothing was extracted); a full buffer sets `failbit`. -/
def getline (s : IfStream) (count : Nat) : IfStream × List Char :=
  if s.good then
    let r := scanLine (textMode (s.content.drop s.gpos)) count
    let s1 : IfStream := { s with gpos := s.gpos + r.bytes }
    match r.stop with
    | ScanStop.eof => ({ s1 with eofbit := true, failbit := decide (r.chcount = 0) }, r.stored)
    | ScanStop.delim => (s1, r.stored)
    | ScanStop.full => ({ s1 with failbit := true }, r.stored)
  else ({ s with failbit := true }, [])

/-- Model of `ifs.tellg()`: the sentry sets `failbit` when the stream is not
good, and the result is `-1` when `fail()` holds; otherwise it is the byte
offset of the get position. -/
def tellg (s : IfStream) : IfStream × Int :=
  if s.good then (s, (s.gpos : Int)) else ({ s with failbit := true }, -1)

/-- Model of `std::string current_line(pbuf)`: the buffer was zero-filled
before the read, so the C string ends at the first NUL character. -/
def cString (buf : List Char) : List Char :=
  buf.takeWhile (fun c => decide (c ≠ Char.ofNat 0))

/-- Model of `std::ifstream ifs(path); ifs.seekg(last_tail_pos)`: the stream
stands at the byte offset `last_tail_pos` of the file; `none` is a file that
cannot be opened, which leaves `failbit` set. -/
def openAt (file : Option (List Char)) (last_tail_pos : Nat) : IfStream :=
  match file with
  | some content => { content := content, gpos := last_tail_pos, failbit := false, eofbit := false }
  | none => { content := [], gpos := 0, failbit := true, eofbit := false }

/-! ## Tailing one file -/

/-- The `while (pos < fileSize)` loop of `tailOneFile`.  Arguments: the loop
fuel, the stream, `pos` and `last_tail_pos`.  Result: the final
`last_tail_pos` and the events raised, in order.  Every iteration that does not
leave the loop increases `pos`, so `fileSize - pos` iterations are enough
(`tailLoop_fuel`). -/
def tailLoop (pfx : String) (pbeep_regex : Option (List Char → Bool)) (fileSize : Nat) :
    Nat → IfStream → Nat → Nat → Nat × List Event
  | 0, _, _, last_tail_pos => (last_tail_pos, [])
  | fuel + 1, ifs, pos, last_tail_pos =>
    if pos < fileSize then
      let g := getline ifs BUFLEN
      let t := tellg g.1
      if t.2 > (pos : Int) then
        if !t.1.fail && !t.1.eof then
          let current_line := cString g.2
          let beeps : List Event :=
            match pbeep_regex with
            | some rx => if rx current_line then [Event.beep] else []
            | none => []
          let r := tailLoop pfx pbeep_regex fileSize fuel t.1 t.2.toNat t.2.toNat
          (r.1, Event.line pfx current_line :: beeps ++ r.2)
        else
          tailLoop pfx pbeep_regex fileSize fuel t.1 t.2.toNat last_tail_pos
      else (last_tail_pos, [])
    else (last_tail_pos, [])

/-- Model of `tailOneFile(info, fileSize, writeTime, pbeep_regex)`.  The extra
argument `file` holds the bytes the stream finds when the function opens the
file; `fileSize` is the size the caller observed before, and the two need not
agree. -/
def tailOneFile (info : LogFileInfo) (fileSize : Nat) (writeTime : Int)
    (pbeep_regex : Option (List Char → Bool)) (file : Option (List Char)) :
    LogFileInfo × List Event :=
  let prevSize := info.file_size
  if writeTime ≠ info.write_time ∨ fileSize ≠ prevSize then
    if fileSize < prevSize then
      -- "file size has shrunk -- start tailing from new end of file":
      -- `info.setLastTailedPosition(info.getFileSize())`, before `setFileSize`
      ({ info with last_tailed_pos := info.file_size, file_size := fileSize,
                   write_time := writeTime }, [])
    else if fileSize > prevSize then
      -- data has been added to the file
      let ifs := openAt file info.last_tailed_pos
      let r : Nat × List Event :=
        if ifs.good then
          tailLoop info.pfx pbeep_regex fileSize (fileSize - info.last_tailed_pos) ifs
            info.last_tailed_pos info.last_tailed_pos
        else (info.last_tailed_pos, [])
      ({ info with last_tailed_pos := r.1, file_size := fileSize, write_time := writeTime }, r.2)
    else
      ({ info with file_size := fileSize, write_time := writeTime }, [])
  else (info, [])

/-! ## Lines of a text

The vocabulary in which the claims about the line reader are stated. -/

/-- A line of a file as the stream delivers it: the characters before the line
break, and the number of bytes that the line occupies in the file, its line
break (LF or CR LF) included. -/
structure Line where
  text : List Char
  bytes : Nat
deriving DecidableEq

/-- The complete lines of delivered characters, in order: a line ends at an
LF; the characters after the last LF belong to no line. -/
def completeLines : List (Char × Nat) → List Line
  | [] => []
  | (c, w) :: cs =>
    if c = '\n' then ⟨[], w⟩ :: completeLines cs
    else
      match completeLines cs with
      | [] => []
      | l :: ls => ⟨c :: l.text, l.bytes + w⟩ :: ls

/-- The number of bytes that the given lines occupy with their line breaks. -/
def consumed (lines : List Line) : Nat := (lines.map Line.bytes).sum

/-- The lines that one read can deliver: the complete lines up to the first one
that does not fit the buffer. -/
def readableLines (delivered : List (Char × Nat)) : List Line :=
  (completeLines delivered).takeWhile (fun l => decide (l.text.length < BUFLEN))

/-- The complete lines of a file from a byte offset on, as text mode delivers
them. -/
def linesFrom (content : List Char) (offset : Nat) : List Line :=
  completeLines (textMode (content.drop offset))

/-- The lines that start within the first `budget` bytes of the lines given:
the first line when the budget is positive, and then on with the budget
lowered by the bytes of that line. -/
def linesStartingBefore : Nat → List Line → List Line
  | _, [] => []
  | budget, l :: ls =>
    if 0 < budget then l :: linesStartingBefore (budget - l.bytes) ls else []

/-- The complete lines of a file from a byte offset on that start before the
byte offset `fileSize`. -/
def linesRead (content : List Char) (offset fileSize : Nat) : List Line :=
  linesStartingBefore (fileSize - offset) (linesFrom content offset)

/-- The offset is the start of a line of the file: the start of the file or
the position after an LF byte. -/
def AtLineStart (content : List Char) (offset : Nat) : Prop :=
  offset = 0 ∨ content[offset - 1]? = some '\n'

instance (content : List Char) (offset : Nat) : Decidable (AtLineStart content offset) := by
  unfold AtLineStart; infer_instance

/-- The events of one emitted line: the line itself, then a beep when the beep
pattern is present and matches. -/
def lineEvents (pfx : String) (pbeep_regex : Option (List Char → Bool)) (l : List Char) :
    List Event :=
  Event.line pfx (cString l) ::
    (match pbeep_regex with
     | some rx => if rx (cString l) then [Event.beep] else []
     | none => [])

/-! ## The prefix map -/

/-- Model of `PrefixLogFileInfoMap`, the `std::unordered_map` from prefix to
record, as an association list.  A map of the program has no key twice
(`KeysNodup`); the order of the list is the iteration order of the map, which
the C++ library leaves unspecified, so the results below are stated for every
order. -/
abbrev PrefixLogFileInfoMap := List (String × LogFileInfo)

/-- The keys of a map are pairwise different. -/
def KeysNodup {β : Type} (m : List (String × β)) : Prop := (m.map Prod.fst).Nodup

/-- Every record of the map is stored under its own prefix. -/
def KeysArePrefixes (m : PrefixLogFileInfoMap) : Prop := ∀ e ∈ m, e.2.pfx = e.1

instance {β : Type} (m : List (String × β)) : Decidable (KeysNodup m) := by
  unfold KeysNodup; infer_instance

instance (m : PrefixLogFileInfoMap) : Decidable (KeysArePrefixes m) := by
  unfold KeysArePrefixes; infer_instance

/-- Model of `map.find(key)`: the mapped value, `none` for `end()`. -/
def mapFind {β : Type} : List (String × β) → String → Option β
  | [], _ => none
  | e :: rest, key => if e.1 = key then some e.2 else mapFind rest key

/-- Model of `map.erase(key)`. -/
def mapErase {β : Type} (m : List (String × β)) (key : String) : List (String × β) :=
  m.filter (fun e => decide (e.1 ≠ key))

/-- Model of `map.emplace(key, value)`: no effect when the key is present. -/
def mapEmplace {β : Type} (m : List (String × β)) (key : String) (value : β) :
    List (String × β) :=
  match mapFind m key with
  | some _ => m
  | none => m ++ [(key, value)]

/-- Model of `map.insert_or_assign(key, value)`. -/
def mapInsertOrAssign {β : Type} : List (String × β) → String → β → List (String × β)
  | [], key, value => [(key, value)]
  | e :: rest, key, value =>
    if e.1 = key then (key, value) :: rest else e :: mapInsertOrAssign rest key value

/-- Model of a `std::set<std::string>` filled from the given keys: its elements
in iteration order, that is, without repetition and in ascending
(lexicographic) order. -/
def stdSet (keys : List String) : List String :=
  keys.dedup.insertionSort (fun a b => a.toList ≤ b.toList)

/-! ## Scanning the directory -/

/-- One entry of `fs::directory_iterator(logdir)` with what the scan learns
about it: the path, its file name, the answers of `fs::exists` and
`fs::is_directory`, and the result of `GetFileAttributesEx`. -/
structure DirEntry where
  path : String
  filename : String
  pathExists : Bool
  isDirectory : Bool
  fileData : Option FileAttributeData
deriving DecidableEq

/-- The loop body of the first loop of `collectLogFiles` for one entry whose
prefix was captured: append the record to the list of its prefix, creating the
list when the prefix is new. -/
def groupInsert : List (String × List LogFileInfo) → String → LogFileInfo →
    List (String × List LogFileInfo)
  | [], key, info => [(key, [info])]
  | e :: rest, key, info =>
    if e.1 = key then (e.1, e.2 ++ [info]) :: rest else e :: groupInsert rest key info

/-- The first loop of `collectLogFiles`.  The regular expression is given by
`filename_regex`: `none` when `std::regex_search` finds no match, else the text
of the first capture group (`match[1]`). -/
def collectGroups (filename_regex : String → Option String) :
    List DirEntry → List (String × List LogFileInfo) → List (String × List LogFileInfo)
  | [], groups => groups
  | entry :: rest, groups =>
    if entry.pathExists ∧ ¬ entry.isDirectory then
      match filename_regex entry.filename with
      | some key =>
        if key ≠ "" then
          collectGroups filename_regex rest
            (groupInsert groups key (LogFileInfo.construct key entry.path entry.fileData))
        else collectGroups filename_regex rest groups
      | none => collectGroups filename_regex rest groups
    else collectGroups filename_regex rest groups

/-- Insertion of one record into a list sorted by decreasing creation time,
before the first record that is not newer. -/
def insertByCreateTime (x : LogFileInfo) : List LogFileInfo → List LogFileInfo
  | [] => [x]
  | y :: ys =>
    if y.create_time > x.create_time then y :: insertByCreateTime x ys else x :: y :: ys

/-- Model of `value->sort(...)` with the comparison
`pList0->getCreateTime() > pList1->getCreateTime()`.  `std::list::sort` is
stable, which fixes its result; the stable insertion sort computes it. -/
def sortByCreateTime (l : List LogFileInfo) : List LogFileInfo :=
  l.foldr insertByCreateTime []

/-- The second loop of `collectLogFiles`: the front of every sorted non-empty
list becomes the candidate of its prefix. -/
def pickNewest :
    List (String × List LogFileInfo) → PrefixLogFileInfoMap → PrefixLogFileInfoMap
  | [], pmap => pmap
  | e :: rest, pmap =>
    match sortByCreateTime e.2 with
    | [] => pickNewest rest pmap
    | pinfo :: _ => pickNewest rest (mapEmplace pmap e.1 pinfo)

/-- Model of `collectLogFiles(logdir, filename_regex)`; `entries` is the
directory listing the call finds. -/
def collectLogFiles (filename_regex : String → Option String) (entries : List DirEntry) :
    PrefixLogFileInfoMap :=
  pickNewest (collectGroups filename_regex entries []) []

/-- Model of `collectInitialLogFiles`: `none` is the reset pointer returned
when more than `max_files` prefixes match. -/
def collectInitialLogFiles (filename_regex : String → Option String) (entries : List DirEntry)
    (max_files : Nat) (now : Int) : Option PrefixLogFileInfoMap × List Event :=
  let pmap := collectLogFiles filename_regex entries
  if pmap.length ≤ max_files then
    if pmap = [] then (some pmap, [Event.pressCtrlC, Event.noFilesWarning])
    else
      (some (pmap.map (fun e => (e.1, (e.2.startWatching now).1))),
       Event.pressCtrlC :: pmap.map (fun e => (e.2.startWatching now).2))
  else
    (none, [Event.tooManyFiles max_files (pmap.map (fun e => (e.1, e.2.path)))])

/-- The records of the listed files whose captured prefix is `key`, in the order
of the listing: the files among which the candidate of `key` is chosen. -/
def listedWithPrefix (filename_regex : String → Option String) (entries : List DirEntry)
    (key : String) : List LogFileInfo :=
  (entries.filter (fun e =>
      e.pathExists && !e.isDirectory && decide (filename_regex e.filename = some key))).map
    (fun e => LogFileInfo.construct key e.path e.fileData)

/-! ## Reconciling the registry with a scan -/

/-- The first loop of `updateLogFilesMap`, over the set `removed`: stop the
record of the key and erase the key. -/
def removeLoop : List String → PrefixLogFileInfoMap → PrefixLogFileInfoMap × List Event
  | [], oldMap => (oldMap, [])
  | oldKey :: rest, oldMap =>
    let stopped : List Event :=
      match mapFind oldMap oldKey with
      | some pOldValue => [pOldValue.stopWatching]
      | none => []
    let r := removeLoop rest (mapErase oldMap oldKey)
    (r.1, stopped ++ r.2)

/-- The body of the second loop of `updateLogFilesMap` for one entry of
`newMap`: a new prefix is added and started while the map is below
`max_files` and reported otherwise; a known prefix with another path is
rotated; a known prefix with the same path is left alone. -/
def addStep (max_files : Nat) (now : Int) (newEntry : String × LogFileInfo)
    (oldMap : PrefixLogFileInfoMap) : PrefixLogFileInfoMap × List Event :=
  match mapFind oldMap newEntry.1 with
  | none =>
    if oldMap.length < max_files then
      let s := newEntry.2.startWatching now
      (mapEmplace oldMap newEntry.1 s.1, [s.2])
    else
      (oldMap, [Event.limitReached max_files newEntry.2])
  | some oldValue =>
    if oldValue.path ≠ newEntry.2.path then
      let s := newEntry.2.startWatching now
      (mapInsertOrAssign oldMap newEntry.1 s.1, [oldValue.stopWatching, s.2])
    else (oldMap, [])

/-- The second loop of `updateLogFilesMap`, over the entries of `newMap`. -/
def addLoop (max_files : Nat) (now : Int) :
    List (String × LogFileInfo) → PrefixLogFileInfoMap → PrefixLogFileInfoMap × List Event
  | [], oldMap => (oldMap, [])
  | newEntry :: rest, oldMap =>
    let s := addStep max_files now newEntry oldMap
    let r := addLoop max_files now rest s.1
    (r.1, s.2 ++ r.2)

/-- The set `removed` of `updateLogFilesMap`: the keys of `oldMap` that are not
keys of `newMap`, in the iteration order of the `std::set`. -/
def removedKeys (oldMap newMap : PrefixLogFileInfoMap) : List String :=
  (stdSet (oldMap.map Prod.fst)).filter
    (fun k => decide (k ∉ stdSet (newMap.map Prod.fst)))

/-- Model of `updateLogFilesMap(oldMap, newMap, max_files)`: the registry after
the call and the events of the call.  The records are shared between the two
maps in the source, so the registry holds a new record in its state after
`startWatching`. -/
def updateLogFilesMap (oldMap newMap : PrefixLogFileInfoMap) (max_files : Nat) (now : Int) :
    PrefixLogFileInfoMap × List Event :=
  let r1 := removeLoop (removedKeys oldMap newMap) oldMap
  let r2 := addLoop max_files now newMap r1.1
  (r2.1, r1.2 ++ r2.2)

/-- The event is a "Maximum number of files are being monitored" notice. -/
def Event.isLimitReached : Event → Bool
  | Event.limitReached _ _ => true
  | _ => false

/-! ## The tail cycle and the worker loop -/

/-- What `tailAllFiles` finds when it probes one file: whether
`open_file_handle` returns a handle, the results of `GetFileTime` and
`GetFileSizeEx` (`none` when the call fails), and the content the stream of
`tailOneFile` reads (`none` when the file cannot be opened). -/
structure FileProbe where
  handle : Bool
  fileTime : Option FILETIME
  fileSize : Option Nat
  content : Option (List Char)

/-- Model of `tailAllFiles(pmap, pbeep_regex)`; `probe` gives, for each path,
what the file system answers during this pass.  Returns the map with the
updated records and the events of the pass. -/
def tailAllFiles (pbeep_regex : Option (List Char → Bool)) (probe : String → FileProbe) :
    PrefixLogFileInfoMap → PrefixLogFileInfoMap × List Event
  | [] => ([], [])
  | entry :: rest =>
    let r := tailAllFiles pbeep_regex probe rest
    let p := probe entry.2.path
    if p.handle then
      match p.fileTime, p.fileSize with
      | some fileTime, some fileSize =>
        let t := tailOneFile entry.2 fileSize (filetime_to_unix_time fileTime) pbeep_regex p.content
        ((entry.1, t.1) :: r.1, t.2 ++ r.2)
      | _, _ => (entry :: r.1, Event.statFailed entry.1 :: r.2)
    else (entry :: r.1, Event.openFailed entry.1 :: r.2)

/-- The members of `Options` that the worker thread uses (the directory is
represented by the listings of the environment). -/
structure Options where
  filename_regex : String → Option String
  beep_regex : List Char → Bool
  beepOnException : Bool
  max_files : Nat

/-- What the environment presents to one iteration of the worker loop: whether
`pGlobalData` is still set at the loop test, the value that
`signal.exchange(0)` returns, the directory listing a rescan finds, the clock,
the answers of the file system during the tail pass, and whether the test
after the pass finds the global data gone or the stop flag set. -/
structure IterationEnv where
  globalData : Bool
  signal : Nat
  entries : List DirEntry
  now : Int
  probe : String → FileProbe
  stopAfter : Bool

/-- The outcome of one iteration of the worker loop. -/
structure IterationResult where
  pmap : PrefixLogFileInfoMap
  events : List Event
  /-- The number of calls of `collectLogFiles` in the iteration. -/
  rescans : Nat
  /-- The number of calls of `updateLogFilesMap` in the iteration. -/
  reconciliations : Nat
  /-- The number of calls of `tailAllFiles` in the iteration. -/
  tailPasses : Nat
  /-- The loop sleeps and starts another iteration. -/
  continues : Bool

/-- One iteration of the `while` loop of `workerThreadProc`, from the loop test
to the `Sleep`. -/
def workerIteration (opts : Options) (env : IterationEnv) (pmap : PrefixLogFileInfoMap) :
    IterationResult :=
  if env.globalData then
    let signal := env.signal
    if signal &&& STOP_MONITORING ≠ 0 then
      { pmap := pmap, events := [], rescans := 0, reconciliations := 0, tailPasses := 0,
        continues := false }
    else
      let pbeep_regex := if opts.beepOnException then some opts.beep_regex else none
      if signal &&& DIRECTORY_MODIFIED ≠ 0 then
        let pNewMap := collectLogFiles opts.filename_regex env.entries
        let u := updateLogFilesMap pmap pNewMap opts.max_files env.now
        let t := tailAllFiles pbeep_regex env.probe u.1
        { pmap := t.1, events := u.2 ++ t.2, rescans := 1, reconciliations := 1, tailPasses := 1,
          continues := !env.stopAfter }
      else
        let t := tailAllFiles pbeep_regex env.probe pmap
        { pmap := t.1, events := t.2, rescans := 0, reconciliations := 0, tailPasses := 1,
          continues := !env.stopAfter }
  else
    { pmap := pmap, events := [], rescans := 0, reconciliations := 0, tailPasses := 0,
      continues := false }

/-- The `while` loop of `workerThreadProc` against the given environments, one
per iteration: the outcomes of the iterations that run. -/
def workerLoop (opts : Options) :
    List IterationEnv → PrefixLogFileInfoMap → List IterationResult
  | [], _ => []
  | env :: rest, pmap =>
    let r := workerIteration opts env pmap
    if r.continues then r :: workerLoop opts rest r.pmap else [r]

/-- Model of `workerThreadProc`: the events of the initial scan and the
outcomes of the loop iterations.  `entries` and `now` are the listing and the
clock of the initial scan.  The loop is entered only when
`collectInitialLogFiles` returns a map. -/
def workerThreadProc (opts : Options) (entries : List DirEntry) (now : Int)
    (envs : List IterationEnv) : List Event × List IterationResult :=
  let r := collectInitialLogFiles opts.filename_regex entries opts.max_files now
  match r.1 with
  | some pmap => (r.2, workerLoop opts envs pmap)
  | none => (r.2, [])

/-! ## Alerts -/

/-- The event is a call of `Beep`. -/
def Event.isBeep : Event → Bool
  | Event.beep => true
  | _ => false

/-- The event is an emitted line that the beep pattern matches. -/
def Event.isMatchingLine (beep_regex : List Char → Bool) : Event → Bool
  | Event.line _ text => beep_regex text
  | _ => false

/-! ## The shared signal

The worker thread and the main thread communicate through the atomic integer
`GlobalData::signal`.  Every access in the source is one atomic operation with
the default (sequentially consistent) memory order, so an execution of the two
threads is an interleaving of these operations. -/

/-- The atomic operations on `signal`: the `signal.exchange(0)` at the top of a
worker iteration, the `p->signal.load()` of the worker after the tail pass, the
`signal |= DIRECTORY_MODIFIED` of the main thread, and the
`signal.store(STOP_MONITORING)` of the main thread and of the exit handlers. -/
inductive SignalOp where
  | exchange
  | load
  | notify
  | stop
deriving DecidableEq

/-- The operation belongs to the worker thread. -/
def SignalOp.byWorker : SignalOp → Bool
  | SignalOp.exchange => true
  | SignalOp.load => true
  | SignalOp.notify => false
  | SignalOp.stop => false

/-- The value of `signal` after the operation. -/
def SignalOp.apply : SignalOp → Nat → Nat
  | SignalOp.exchange, _ => 0
  | SignalOp.load, signal => signal
  | SignalOp.notify, signal => signal ||| DIRECTORY_MODIFIED
  | SignalOp.stop, _ => STOP_MONITORING

/-- The value that the operation hands to the worker: the old value for
`exchange`, the current one for `load`. -/
def SignalOp.observed : SignalOp → Nat → Option Nat
  | SignalOp.exchange, signal => some signal
  | SignalOp.load, signal => some signal
  | SignalOp.notify, _ => none
  | SignalOp.stop, _ => none

/-- The value of `signal` after a sequence of operations. -/
def runOps : Nat → List SignalOp → Nat
  | signal, [] => signal
  | signal, op :: rest => runOps (op.apply signal) rest

/-- The operations on `signal` that the worker performs after the
read-and-clear of an iteration and before the read-and-clear of the next one:
the `load` after the tail pass. -/
def workerOpsBetweenExchanges : List SignalOp := [SignalOp.load]

/-! ## The main thread and the exit code -/

/-- What `WaitForMultipleObjects` reports to the main thread: the directory
handle is signalled (`WAIT_OBJECT_0`; `findNext` is the result of the
`FindNextChangeNotification` call that follows), the worker thread has exited
(`WAIT_OBJECT_0 + 1`), or any other value. -/
inductive WaitResult where
  | directoryChanged (findNext : Bool)
  | workerExited
  | other (code : Int)
deriving DecidableEq

/-- The `while (true)` loop of `mainThreadProc` against the given wait results.
The loop body declares its own variable `int stat = WaitForMultipleObjects(...)`
and the assignments `stat = 5` and `stat = 6` are to that variable; the result
is its value when the loop breaks, `none` when the wait results end before the
loop does. -/
def waitLoop : List WaitResult → Option Int
  | [] => none
  | WaitResult.directoryChanged true :: rest => waitLoop rest
  | WaitResult.directoryChanged false :: _ => some 5
  | WaitResult.workerExited :: _ => some 1
  | WaitResult.other _ :: _ => some 6

/-- What `mainThreadProc` finds: whether `FindFirstChangeNotification` returns
a valid handle, whether `_beginthreadex` starts the worker, and the wait
results. -/
structure MainThreadEnv where
  dirMonitorValid : Bool
  threadStarted : Bool
  waits : List WaitResult

/-- Model of `mainThreadProc`: the returned value of the function's variable
`stat`, `none` when the wait loop does not end.  The variable is initialised
with 0 and assigned only when the directory handle is invalid. -/
def mainThreadProc (env : MainThreadEnv) : Option Int :=
  let stat : Int := 0
  if env.dirMonitorValid then
    if env.threadStarted then
      match waitLoop env.waits with
      | some _ => some stat
      | none => none
    else some stat
  else some 4

/-- What `main` learns from its arguments and its environment: the status of
the argument parser, the help flag, whether the directory argument is empty,
`fs::is_directory(logdir)`, whether the two `std::regex` constructors accept
their pattern, the result of `installExitHandlers`, and the environment of
`mainThreadProc`. -/
structure MainEnv where
  argsStat : Int
  help : Bool
  logdirEmpty : Bool
  isDirectory : Bool
  filePatternValid : Bool
  beepPatternValid : Bool
  exitHandlers : Bool
  mainThread : MainThreadEnv

/-- Model of `main`: the exit code, `none` when the wait loop does not end. -/
def main (env : MainEnv) : Option Int :=
  if env.argsStat ≠ 0 then some env.argsStat
  else if env.help then some 0
  else if env.logdirEmpty then some 0
  else if !env.isDirectory then some 1
  else if env.filePatternValid && env.beepPatternValid then
    if env.exitHandlers then mainThreadProc env.mainThread
    else some 3
  else some 2

/-! # Theorems -/

/-! ## The line reader -/

/-! ## Text mode -/

theorem textMode_ctrlz (cs : List Char) : textMode (CTRL_Z :: cs) = [] := by
  cases cs <;> simp [textMode]

theorem textMode_crlf (cs : List Char) :
    textMode ('\r' :: '\n' :: cs) = ('\n', 2) :: textMode cs := by
  have h : ('\r' : Char) ≠ CTRL_Z := by decide
  simp [textMode, h]

/-- A byte that is neither Ctrl-Z nor a CR before an LF is delivered as it
is. -/
theorem textMode_plain (c : Char) (cs : List Char) (hz : c ≠ CTRL_Z)
    (hcr : ¬ (c = '\r' ∧ cs.head? = some '\n')) :
    textMode (c :: cs) = (c, 1) :: textMode cs := by
  cases cs with
  | nil => simp [textMode, hz]
  | cons d cs =>
    have h : ¬ (c = '\r' ∧ d = '\n') := by simpa using hcr
    simp only [textMode, hz, h, if_false]

/-- Induction along the translation of text mode: the empty text, a text that
starts with Ctrl-Z, one that starts with CR LF, and one that starts with a byte
delivered as it is. -/
theorem textMode_induction (P : List Char → Prop) (hnil : P [])
    (hz : ∀ cs, P (CTRL_Z :: cs))
    (hcrlf : ∀ cs, P cs → P ('\r' :: '\n' :: cs))
    (hplain : ∀ c cs, c ≠ CTRL_Z → ¬ (c = '\r' ∧ cs.head? = some '\n') → P cs → P (c :: cs)) :
    ∀ text, P text := by
  have key : ∀ (n : Nat) (text : List Char), text.length ≤ n → P text := by
    intro n
    induction n with
    | zero =>
      intro text h
      have : text = [] := List.length_eq_zero.1 (by omega)
      rw [this]; exact hnil
    | succ n ih =>
      intro text h
      cases text with
      | nil => exact hnil
      | cons c cs =>
        by_cases hc : c = CTRL_Z
        · rw [hc]; exact hz cs
        · by_cases hcr : c = '\r' ∧ cs.head? = some '\n'
          · cases cs with
            | nil => simp at hcr
            | cons d ds =>
              have h1 : c = '\r' := hcr.1
              have h2 : d = '\n' := by simpa using hcr.2
              rw [h1, h2]
              apply hcrlf
              apply ih
              simp at h; omega
          · apply hplain c cs hc hcr
            apply ih
            simp at h; omega
  intro text
  exact key text.length text (Nat.le_refl _)

theorem widths_nil : widths [] = 0 := rfl

theorem widths_cons (x : Char × Nat) (d : List (Char × Nat)) :
    widths (x :: d) = x.2 + widths d := by
  simp [widths]

theorem widths_append (d e : List (Char × Nat)) : widths (d ++ e) = widths d + widths e := by
  simp [widths]

/-- Every delivered character stands for at least one byte. -/
theorem textMode_width_pos : ∀ (text : List Char) (x : Char × Nat), x ∈ textMode text → 1 ≤ x.2 := by
  refine textMode_induction _ ?_ ?_ ?_ ?_
  · intro x hx; simp [textMode] at hx
  · intro cs x hx; simp [textMode_ctrlz] at hx
  · intro cs ih x hx
    rw [textMode_crlf] at hx
    rcases List.mem_cons.1 hx with e | e
    · rw [e]; decide
    · exact ih x e
  · intro c cs hz hcr ih x hx
    rw [textMode_plain c cs hz hcr] at hx
    rcases List.mem_cons.1 hx with e | e
    · rw [e]
    · exact ih x e

/-- The delivered characters stand for bytes of the text. -/
theorem widths_textMode_le : ∀ (text : List Char), widths (textMode text) ≤ text.length := by
  refine textMode_induction _ ?_ ?_ ?_ ?_
  · simp [textMode, widths]
  · intro cs; simp [textMode_ctrlz, widths]
  · intro cs ih
    rw [textMode_crlf, widths_cons]
    simp only [List.length_cons]; omega
  · intro c cs hz hcr ih
    rw [textMode_plain c cs hz hcr, widths_cons]
    simp only [List.length_cons]; omega

/-- Reading on after some delivered characters: what text mode delivers from
the byte behind them is the rest. -/
theorem textMode_drop : ∀ (text : List Char) (pre rest : List (Char × Nat)),
    textMode text = pre ++ rest → textMode (text.drop (widths pre)) = rest := by
  refine textMode_induction _ ?_ ?_ ?_ ?_
  · intro pre rest h
    simp only [textMode] at h
    have := List.append_eq_nil.1 h.symm
    simp [this.1, this.2, textMode, widths]
  · intro cs pre rest h
    rw [textMode_ctrlz] at h
    have := List.append_eq_nil.1 h.symm
    rw [this.1, this.2, widths_nil, List.drop_zero, textMode_ctrlz]
  · intro cs ih pre rest h
    rw [textMode_crlf] at h
    cases pre with
    | nil =>
      rw [widths_nil, List.drop_zero, textMode_crlf]
      simpa using h
    | cons x pre2 =>
      rw [List.cons_append] at h
      injection h with h1 h2
      rw [widths_cons, ← h1]
      show textMode (List.drop (2 + widths pre2) ('\r' :: '\n' :: cs)) = rest
      have : 2 + widths pre2 = widths pre2 + 1 + 1 := by omega
      rw [this, List.drop_succ_cons, List.drop_succ_cons]
      exact ih pre2 rest h2
  · intro c cs hz hcr ih pre rest h
    rw [textMode_plain c cs hz hcr] at h
    cases pre with
    | nil =>
      rw [widths_nil, List.drop_zero, textMode_plain c cs hz hcr]
      simpa using h
    | cons x pre2 =>
      rw [List.cons_append] at h
      injection h with h1 h2
      rw [widths_cons, ← h1]
      show textMode (List.drop (1 + widths pre2) (c :: cs)) = rest
      have : 1 + widths pre2 = widths pre2 + 1 := by omega
      rw [this, List.drop_succ_cons]
      exact ih pre2 rest h2

/-- Appending bytes to a text does not change what was delivered up to an LF:
the longer text delivers the same characters up to there, and then what it
holds from the byte behind them on. -/
theorem textMode_append : ∀ (text : List Char) (pre rest : List (Char × Nat)) (more : List Char),
    textMode text = pre ++ rest → (pre = [] ∨ ∃ p w, pre = p ++ [('\n', w)]) →
    textMode (text ++ more) = pre ++ textMode (text.drop (widths pre) ++ more) := by
  refine textMode_induction _ ?_ ?_ ?_ ?_
  · intro pre rest more h _
    simp only [textMode] at h
    have := List.append_eq_nil.1 h.symm
    simp [this.1, widths]
  · intro cs pre rest more h _
    rw [textMode_ctrlz] at h
    have := List.append_eq_nil.1 h.symm
    simp [this.1, widths]
  · intro cs ih pre rest more h hend
    rw [textMode_crlf] at h
    cases pre with
    | nil => simp [widths]
    | cons x pre2 =>
      rw [List.cons_append] at h
      injection h with h1 h2
      have hend2 : pre2 = [] ∨ ∃ p w, pre2 = p ++ [('\n', w)] := by
        rcases hend with e | ⟨p, w, e⟩
        · cases e
        · cases p with
          | nil =>
            left
            simp at e
            exact e.2
          | cons y p2 =>
            right
            rw [List.cons_append] at e
            injection e with e1 e2
            exact ⟨p2, w, e2⟩
      have hi := ih pre2 rest more h2 hend2
      rw [widths_cons, ← h1]
      show textMode ('\r' :: '\n' :: (cs ++ more)) =
        ('\n', 2) :: pre2 ++ textMode (List.drop (2 + widths pre2) ('\r' :: '\n' :: cs) ++ more)
      have : 2 + widths pre2 = widths pre2 + 1 + 1 := by omega
      rw [this, List.drop_succ_cons, List.drop_succ_cons, textMode_crlf, hi]
      rfl
  · intro c cs hz hcr ih pre rest more h hend
    rw [textMode_plain c cs hz hcr] at h
    cases pre with
    | nil => simp [widths]
    | cons x pre2 =>
      rw [List.cons_append] at h
      injection h with h1 h2
      have hi : pre2 ≠ [] → textMode (cs ++ more) =
          pre2 ++ textMode (List.drop (widths pre2) cs ++ more) := by
        intro hne
        apply ih pre2 rest more h2
        rcases hend with e | ⟨p, w, e⟩
        · cases e
        · cases p with
          | nil =>
            simp at e
            exact absurd e.2 hne
          | cons y p2 =>
            right
            rw [List.cons_append] at e
            injection e with e1 e2
            exact ⟨p2, w, e2⟩
      rw [widths_cons, ← h1]
      show textMode (c :: cs ++ more) =
        (c, 1) :: pre2 ++ textMode (List.drop (1 + widths pre2) (c :: cs) ++ more)
      have : 1 + widths pre2 = widths pre2 + 1 := by omega
      rw [this, List.drop_succ_cons]
      by_cases hne : pre2 = []
      · -- the byte is the LF that ends `pre`
        have hc : c = '\n' := by
          rcases hend with e | ⟨p, w, e⟩
          · cases e
          · rw [hne] at e
            cases p with
            | nil =>
              simp at e
              rw [← h1] at e
              exact (Prod.mk.inj e).1
            | cons y p2 =>
              rw [List.cons_append] at e
              injection e with e1 e2
              have := congrArg List.length e2
              simp at this
        have hcr2 : ¬ (c = '\r' ∧ (cs ++ more).head? = some '\n') := by
          rw [hc]; simp
        rw [List.cons_append, textMode_plain c (cs ++ more) hz hcr2, hne, widths_nil,
          List.drop_zero]
        rfl
      · have hcr2 : ¬ (c = '\r' ∧ (cs ++ more).head? = some '\n') := by
          intro hh
          apply hcr
          refine ⟨hh.1, ?_⟩
          cases cs with
          | nil =>
            simp [textMode] at h2
            exact absurd h2.1 hne
          | cons d ds => simpa using hh.2
        rw [List.cons_append, textMode_plain c (cs ++ more) hz hcr2, hi hne]
        rfl

/-- The byte at the end of a delivered LF is an LF. -/
theorem textMode_newline_byte : ∀ (text : List Char) (p rest : List (Char × Nat)) (w : Nat),
    textMode text = p ++ ('\n', w) :: rest → text[widths p + w - 1]? = some '\n' := by
  refine textMode_induction _ ?_ ?_ ?_ ?_
  · intro p rest w h
    simp [textMode] at h
  · intro cs p rest w h
    rw [textMode_ctrlz] at h
    simp at h
  · intro cs ih p rest w h
    rw [textMode_crlf] at h
    cases p with
    | nil =>
      simp at h
      rw [← h.1, widths_nil]
      simp
    | cons x p2 =>
      rw [List.cons_append] at h
      injection h with h1 h2
      have hw : 1 ≤ w := textMode_width_pos cs ('\n', w) (by rw [h2]; simp)
      have hi := ih p2 rest w h2
      rw [widths_cons, ← h1]
      show ('\r' :: '\n' :: cs)[2 + widths p2 + w - 1]? = some '\n'
      have : 2 + widths p2 + w - 1 = (widths p2 + w - 1) + 1 + 1 := by omega
      rw [this, List.getElem?_cons_succ, List.getElem?_cons_succ]
      exact hi
  · intro c cs hz hcr ih p rest w h
    rw [textMode_plain c cs hz hcr] at h
    cases p with
    | nil =>
      simp at h
      rw [← h.1.2, widths_nil, h.1.1]
      simp
    | cons x p2 =>
      rw [List.cons_append] at h
      injection h with h1 h2
      have hw : 1 ≤ w := textMode_width_pos cs ('\n', w) (by rw [h2]; simp)
      have hi := ih p2 rest w h2
      rw [widths_cons, ← h1]
      show (c :: cs)[1 + widths p2 + w - 1]? = some '\n'
      have : 1 + widths p2 + w - 1 = (widths p2 + w - 1) + 1 := by omega
      rw [this, List.getElem?_cons_succ]
      exact hi

/-! ## The extraction loop -/

theorem completeLines_of_not_mem : ∀ (d : List (Char × Nat)), (∀ x ∈ d, x.1 ≠ '\n') →
    completeLines d = []
  | [], _ => rfl
  | (c, w) :: cs, h => by
    have hc : c ≠ '\n' := h (c, w) (by simp)
    have hcs : ∀ x ∈ cs, x.1 ≠ '\n' := fun x hx => h x (by simp [hx])
    simp [completeLines, hc, completeLines_of_not_mem cs hcs]

theorem completeLines_append_newline : ∀ (l rest : List (Char × Nat)) (w : Nat),
    (∀ x ∈ l, x.1 ≠ '\n') →
    completeLines (l ++ ('\n', w) :: rest) =
      (⟨l.map Prod.fst, widths l + w⟩ : Line) :: completeLines rest
  | [], rest, w, _ => by simp [completeLines, widths]
  | (c, v) :: cs, rest, w, h => by
    have hc : c ≠ '\n' := h (c, v) (by simp)
    have hcs : ∀ x ∈ cs, x.1 ≠ '\n' := fun x hx => h x (by simp [hx])
    rw [List.cons_append, completeLines, if_neg hc, completeLines_append_newline cs rest w hcs,
      widths_cons]
    simp only [List.map_cons, Line.mk.injEq, List.cons.injEq, true_and, and_true]
    omega

theorem split_at_newline : ∀ (d : List (Char × Nat)),
    (∀ x ∈ d, x.1 ≠ '\n') ∨
      ∃ l w rest, d = l ++ ('\n', w) :: rest ∧ ∀ x ∈ l, x.1 ≠ '\n'
  | [] => Or.inl (by simp)
  | (c, v) :: cs => by
    by_cases hc : c = '\n'
    · exact Or.inr ⟨[], v, cs, by simp [hc], by simp⟩
    · rcases split_at_newline cs with h | ⟨l, w, rest, h1, h2⟩
      · left
        intro x hx
        rcases List.mem_cons.1 hx with e | e
        · rw [e]; exact hc
        · exact h x e
      · right
        refine ⟨(c, v) :: l, w, rest, by simp [h1], ?_⟩
        intro x hx
        rcases List.mem_cons.1 hx with e | e
        · rw [e]; exact hc
        · exact h2 x e

theorem scanLine_delim : ∀ (l rest : List (Char × Nat)) (w count : Nat),
    (∀ x ∈ l, x.1 ≠ '\n') → l.length < count →
    scanLine (l ++ ('\n', w) :: rest) count =
      ⟨l.map Prod.fst, l.length + 1, widths l + w, ScanStop.delim⟩
  | [], rest, w, count, _, _ => by simp [scanLine, widths]
  | (c, v) :: cs, rest, w, count, h, hlen => by
    have hc : c ≠ '\n' := h (c, v) (by simp)
    have hcs : ∀ x ∈ cs, x.1 ≠ '\n' := fun x hx => h x (by simp [hx])
    have hlen2 : cs.length < count - 1 := by simp at hlen; omega
    have hcount : ¬ count ≤ 1 := by simp at hlen; omega
    rw [List.cons_append, scanLine, if_neg hc, if_neg hcount,
      scanLine_delim cs rest w (count - 1) hcs hlen2, widths_cons]
    simp only [List.map_cons, List.length_cons, Scan.mk.injEq, true_and, and_true]
    omega

theorem scanLine_not_delim : ∀ (l more : List (Char × Nat)) (count : Nat),
    (∀ x ∈ l, x.1 ≠ '\n') →
    ((1 ≤ count ∧ count ≤ l.length) ∨ more = []) →
    (scanLine (l ++ more) count).stop ≠ ScanStop.delim
  | [], more, count, _, hor => by
    rcases hor with h | h
    · simp at h; omega
    · simp [h, scanLine]
  | (c, v) :: cs, more, count, h, hor => by
    have hc : c ≠ '\n' := h (c, v) (by simp)
    have hcs : ∀ x ∈ cs, x.1 ≠ '\n' := fun x hx => h x (by simp [hx])
    by_cases hcount : count ≤ 1
    · simp [scanLine, hc, hcount]
    · have hor2 : (1 ≤ count - 1 ∧ count - 1 ≤ cs.length) ∨ more = [] := by
        rcases hor with h | h
        · left; simp at h; omega
        · right; exact h
      rw [List.cons_append, scanLine, if_neg hc, if_neg hcount]
      exact scanLine_not_delim cs more (count - 1) hcs hor2

/-- The bytes extracted are bytes of the characters to be delivered. -/
theorem scanLine_bytes_le : ∀ (d : List (Char × Nat)) (count : Nat),
    (scanLine d count).bytes ≤ widths d
  | [], count => by simp [scanLine]
  | (c, w) :: cs, count => by
    rw [widths_cons]
    by_cases hc : c = '\n'
    · simp [scanLine, hc]
    · by_cases hcount : count ≤ 1
      · simp [scanLine, hc, hcount]
      · rw [scanLine, if_neg hc, if_neg hcount]
        have := scanLine_bytes_le cs (count - 1)
        simp only []
        omega

/-- A scan that ends at the delimiter has extracted at least one byte. -/
theorem scanLine_delim_pos : ∀ (d : List (Char × Nat)) (count : Nat),
    (∀ x ∈ d, 1 ≤ x.2) →
    (scanLine d count).stop = ScanStop.delim → 1 ≤ (scanLine d count).bytes
  | [], count, _ => by simp [scanLine]
  | (c, w) :: cs, count, hw => by
    have h1 : 1 ≤ w := hw (c, w) (by simp)
    by_cases hc : c = '\n'
    · simp [scanLine, hc, h1]
    · by_cases hcount : count ≤ 1
      · simp [scanLine, hc, hcount]
      · rw [scanLine, if_neg hc, if_neg hcount]
        intro _
        simp only []
        omega

/-! ## The stream and the loop -/

/-- A stream that is not good stays so through `getline`. -/
theorem getline_of_not_good (s : IfStream) (count : Nat) (h : s.good = false) :
    (getline s count).1.good = false := by
  unfold getline
  simp only [h, Bool.false_eq_true, if_false]
  simp [IfStream.good]

/-- When the scan does not end at a delimiter, `getline` leaves a state bit
set. -/
theorem getline_not_good (s : IfStream) (count : Nat)
    (h : (scanLine (textMode (s.content.drop s.gpos)) count).stop ≠ ScanStop.delim) :
    (getline s count).1.good = false := by
  unfold getline
  by_cases hg : s.good
  · simp only [hg, if_true]
    cases hstop : (scanLine (textMode (s.content.drop s.gpos)) count).stop with
    | eof =>
      simp only [IfStream.good]
      cases hd : decide ((scanLine (textMode (List.drop s.gpos s.content)) count).chcount = 0) <;>
        simp
    | delim => exact absurd hstop h
    | full => simp [IfStream.good]
  · simp only [hg, if_false]
    simp [IfStream.good]

/-- A good stream after `getline`: the line ended at a delimiter, the stream
advanced and stayed inside the file. -/
theorem getline_good (s : IfStream) (count : Nat) (h : (getline s count).1.good = true) :
    (getline s count).1.gpos ≤ s.content.length ∧ s.gpos < (getline s count).1.gpos := by
  by_cases hg : s.good
  · by_cases hstop : (scanLine (textMode (s.content.drop s.gpos)) count).stop = ScanStop.delim
    · have h1 := scanLine_bytes_le (textMode (s.content.drop s.gpos)) count
      have h2 := scanLine_delim_pos (textMode (s.content.drop s.gpos)) count
        (textMode_width_pos _) hstop
      have h3 := widths_textMode_le (s.content.drop s.gpos)
      simp only [List.length_drop] at h3
      simp only [getline, hg, if_true, hstop]
      constructor <;> omega
    · rw [getline_not_good s count hstop] at h
      cases h
  · have : s.good = false := by simpa using hg
    rw [getline_of_not_good s count this] at h
    cases h

theorem getline_content (s : IfStream) (count : Nat) :
    (getline s count).1.content = s.content := by
  unfold getline
  by_cases hg : s.good
  · simp only [hg, if_true]
    cases (scanLine (textMode (s.content.drop s.gpos)) count).stop <;> rfl
  · simp [hg]

theorem tellg_content (s : IfStream) : (tellg s).1.content = s.content := by
  unfold tellg
  by_cases hg : s.good <;> simp [hg]

theorem tellg_of_good (s : IfStream) (h : s.good = true) : tellg s = (s, (s.gpos : Int)) := by
  simp [tellg, h]

theorem tellg_of_not_good (s : IfStream) (h : s.good = false) : (tellg s).2 = -1 := by
  simp [tellg, h]


/-- Enough fuel: once the fuel covers `fileSize - pos`, more fuel does not
change the result of the loop. -/
theorem tailLoop_fuel (pfx : String) (pbeep_regex : Option (List Char → Bool)) (fileSize : Nat) :
    ∀ (fuel : Nat) (ifs : IfStream) (pos last : Nat), fileSize - pos ≤ fuel →
      tailLoop pfx pbeep_regex fileSize (fuel + 1) ifs pos last =
        tailLoop pfx pbeep_regex fileSize fuel ifs pos last := by
  intro fuel
  induction fuel with
  | zero =>
    intro ifs pos last h
    have hp : ¬ pos < fileSize := by omega
    simp [tailLoop, hp]
  | succ n ih =>
    intro ifs pos last h
    rw [tailLoop]
    conv_rhs => rw [tailLoop]
    by_cases hp : pos < fileSize
    · simp only [hp, if_true]
      by_cases ht : (tellg (getline ifs BUFLEN).1).2 > (pos : Int)
      · have hfuel : fileSize - (tellg (getline ifs BUFLEN).1).2.toNat ≤ n := by omega
        simp only [ht, if_true]
        rw [ih _ _ _ hfuel, ih _ _ _ hfuel]
      · simp only [ht, if_false]
    · simp only [hp, if_false]

/-- The fuel that `tailOneFile` passes is enough: any larger amount gives the
same result. -/
theorem tailLoop_fuel_add (pfx : String) (pbeep_regex : Option (List Char → Bool))
    (fileSize : Nat) (fuel : Nat) (ifs : IfStream) (pos last : Nat)
    (h : fileSize - pos ≤ fuel) :
    ∀ (extra : Nat), tailLoop pfx pbeep_regex fileSize (fuel + extra) ifs pos last =
      tailLoop pfx pbeep_regex fileSize fuel ifs pos last
  | 0 => rfl
  | extra + 1 => by
    rw [← Nat.add_assoc, tailLoop_fuel pfx pbeep_regex fileSize (fuel + extra) ifs pos last
      (by omega)]
    exact tailLoop_fuel_add pfx pbeep_regex fileSize fuel ifs pos last h extra

/-- The loop ends at once when `pos` has reached `fileSize`. -/
theorem tailLoop_done (pfx : String) (pbeep_regex : Option (List Char → Bool)) (fileSize : Nat)
    (fuel : Nat) (ifs : IfStream) (pos last : Nat) (h : ¬ pos < fileSize) :
    tailLoop pfx pbeep_regex fileSize fuel ifs pos last = (last, []) := by
  cases fuel with
  | zero => rfl
  | succ n => rw [tailLoop]; simp only [h, if_false]

/-- The loop ends without emitting when the read leaves a state bit set. -/
theorem tailLoop_break (pfx : String) (pbeep_regex : Option (List Char → Bool)) (fileSize : Nat)
    (fuel : Nat) (ifs : IfStream) (pos last : Nat)
    (h : (getline ifs BUFLEN).1.good = false) :
    tailLoop pfx pbeep_regex fileSize fuel ifs pos last = (last, []) := by
  cases fuel with
  | zero => rfl
  | succ n =>
    rw [tailLoop]
    have ht : ¬ (tellg (getline ifs BUFLEN).1).2 > (pos : Int) := by
      rw [tellg_of_not_good _ h]; omega
    by_cases hp : pos < fileSize
    · simp only [hp, if_true, ht, if_false]
    · simp only [hp, if_false]

/-- One iteration that reads a line: the line is emitted and the loop goes on
from the new position. -/
theorem tailLoop_line (pfx : String) (pbeep_regex : Option (List Char → Bool)) (fileSize : Nat)
    (fuel : Nat) (ifs : IfStream) (pos last : Nat) (hp : pos < fileSize)
    (hg : (getline ifs BUFLEN).1.good = true) (hpos : pos < (getline ifs BUFLEN).1.gpos) :
    tailLoop pfx pbeep_regex fileSize (fuel + 1) ifs pos last =
      ((tailLoop pfx pbeep_regex fileSize fuel (getline ifs BUFLEN).1
          (getline ifs BUFLEN).1.gpos (getline ifs BUFLEN).1.gpos).1,
        lineEvents pfx pbeep_regex (getline ifs BUFLEN).2 ++
          (tailLoop pfx pbeep_regex fileSize fuel (getline ifs BUFLEN).1
            (getline ifs BUFLEN).1.gpos (getline ifs BUFLEN).1.gpos).2) := by
  rw [tailLoop]
  have hbits : (getline ifs BUFLEN).1.fail = false ∧ (getline ifs BUFLEN).1.eof = false := by
    simpa [IfStream.good, IfStream.fail, IfStream.eof] using hg
  have ht : ((getline ifs BUFLEN).1.gpos : Int) > (pos : Int) := by omega
  simp only [hp, if_true, tellg_of_good _ hg, ht, hbits.1, hbits.2, Int.toNat_ofNat,
    Bool.not_false, Bool.and_self, lineEvents, List.cons_append]

/-- The offset after the loop is the old one or lies inside the file that was
read. -/
theorem tailLoop_bound (pfx : String) (pbeep_regex : Option (List Char → Bool)) (fileSize : Nat) :
    ∀ (fuel : Nat) (ifs : IfStream) (pos last : Nat),
      (tailLoop pfx pbeep_regex fileSize fuel ifs pos last).1 = last ∨
      (tailLoop pfx pbeep_regex fileSize fuel ifs pos last).1 ≤ ifs.content.length := by
  intro fuel
  induction fuel with
  | zero => intro ifs pos last; left; rfl
  | succ n ih =>
    intro ifs pos last
    by_cases hp : pos < fileSize
    · by_cases hg : (getline ifs BUFLEN).1.good = true
      · by_cases hpos : pos < (getline ifs BUFLEN).1.gpos
        · rw [tailLoop_line pfx pbeep_regex fileSize n ifs pos last hp hg hpos]
          right
          have hb := getline_good ifs BUFLEN hg
          rcases ih (getline ifs BUFLEN).1 (getline ifs BUFLEN).1.gpos
            (getline ifs BUFLEN).1.gpos with h | h
          · simp only [h]; exact hb.1
          · simpa [getline_content] using h
        · left
          rw [tailLoop]
          have ht : ¬ (tellg (getline ifs BUFLEN).1).2 > (pos : Int) := by
            rw [tellg_of_good _ hg]; simp; omega
          simp only [hp, if_true, ht, if_false]
      · left
        rw [tailLoop_break]
        simpa using hg
    · left
      rw [tailLoop_done _ _ _ _ _ _ _ hp]

/-! ## Lines -/

theorem consumed_nil : consumed [] = 0 := rfl

theorem consumed_cons (l : Line) (ls : List Line) :
    consumed (l :: ls) = l.bytes + consumed ls := by
  simp [consumed]

theorem consumed_append (ls ms : List Line) :
    consumed (ls ++ ms) = consumed ls + consumed ms := by
  simp [consumed]

theorem readableLines_nil_of_not_mem (d : List (Char × Nat)) (h : ∀ x ∈ d, x.1 ≠ '\n') :
    readableLines d = [] := by
  simp [readableLines, completeLines_of_not_mem d h]

theorem linesStartingBefore_zero (ls : List Line) : linesStartingBefore 0 ls = [] := by
  cases ls <;> simp [linesStartingBefore]

theorem linesStartingBefore_nil (b : Nat) : linesStartingBefore b [] = [] := by
  simp [linesStartingBefore]

theorem linesStartingBefore_cons (b : Nat) (l : Line) (ls : List Line) (hb : 0 < b) :
    linesStartingBefore b (l :: ls) = l :: linesStartingBefore (b - l.bytes) ls := by
  simp [linesStartingBefore, hb]

/-- The loop of `tailOneFile` on a stream that stands inside the file: it emits
the readable lines that start before `fileSize`, and ends behind the last of
them. -/
theorem tailLoop_spec (pfx : String) (pbeep_regex : Option (List Char → Bool))
    (fileSize : Nat) (content : List Char) :
    ∀ (fuel : Nat) (pos : Nat), pos ≤ content.length → fileSize - pos ≤ fuel →
      tailLoop pfx pbeep_regex fileSize fuel
          (⟨content, pos, false, false⟩ : IfStream) pos pos =
        (pos + consumed (linesStartingBefore (fileSize - pos)
            (readableLines (textMode (content.drop pos)))),
          (linesStartingBefore (fileSize - pos)
            (readableLines (textMode (content.drop pos)))).flatMap
            (fun l => lineEvents pfx pbeep_regex l.text)) := by
  intro fuel
  induction fuel with
  | zero =>
    intro pos _ hfuel
    have : fileSize - pos = 0 := by omega
    rw [this, linesStartingBefore_zero]
    simp [tailLoop, consumed]
  | succ n ih =>
    intro pos hpos hfuel
    by_cases hp : pos < fileSize
    · -- a read that does not end at a delimiter leaves the loop
      have hbreak : (scanLine (textMode (content.drop pos)) BUFLEN).stop ≠ ScanStop.delim →
          readableLines (textMode (content.drop pos)) = [] →
          tailLoop pfx pbeep_regex fileSize (n + 1)
            (⟨content, pos, false, false⟩ : IfStream) pos pos =
          (pos + consumed (linesStartingBefore (fileSize - pos)
              (readableLines (textMode (content.drop pos)))),
            (linesStartingBefore (fileSize - pos)
              (readableLines (textMode (content.drop pos)))).flatMap
              (fun l => lineEvents pfx pbeep_regex l.text)) := by
        intro hstop hre
        rw [tailLoop_break, hre, linesStartingBefore_nil]
        · simp [consumed]
        · apply getline_not_good
          exact hstop
      rcases split_at_newline (textMode (content.drop pos)) with hno | ⟨l, w, rest2, hd, hl⟩
      · apply hbreak
        · have := scanLine_not_delim (textMode (content.drop pos)) [] BUFLEN hno (Or.inr rfl)
          simpa using this
        · exact readableLines_nil_of_not_mem _ hno
      · by_cases hfit : l.length < BUFLEN
        · have hscan := scanLine_delim l rest2 w BUFLEN hl hfit
          have hw : 1 ≤ w := textMode_width_pos (content.drop pos) ('\n', w) (by rw [hd]; simp)
          have hget : getline (⟨content, pos, false, false⟩ : IfStream) BUFLEN =
              ((⟨content, pos + (widths l + w), false, false⟩ : IfStream), l.map Prod.fst) := by
            simp only [getline, IfStream.good, Bool.not_false, Bool.and_self, if_true, hd, hscan]
          have hwd := widths_textMode_le (content.drop pos)
          rw [hd, widths_append, widths_cons, List.length_drop] at hwd
          simp only [] at hwd
          have hrest : textMode (content.drop (pos + (widths l + w))) = rest2 := by
            have h1 := textMode_drop (content.drop pos) (l ++ [('\n', w)]) rest2
              (by rw [hd]; simp)
            rw [List.drop_drop, widths_append, widths_cons, widths_nil] at h1
            simp only [Nat.add_zero] at h1
            exact h1
          rw [tailLoop_line pfx pbeep_regex fileSize n _ pos pos hp
            (by rw [hget]; rfl) (by rw [hget]; simp only []; omega)]
          rw [hget]
          simp only []
          rw [ih (pos + (widths l + w)) (by omega) (by omega), hrest]
          have hre : readableLines (textMode (content.drop pos)) =
              (⟨l.map Prod.fst, widths l + w⟩ : Line) :: readableLines rest2 := by
            simp [readableLines, hd, completeLines_append_newline l rest2 w hl, hfit]
          rw [hre, linesStartingBefore_cons _ _ _ (by omega), consumed_cons]
          have hb : fileSize - pos - (widths l + w) = fileSize - (pos + (widths l + w)) := by
            omega
          simp only [hb, List.flatMap_cons, Nat.add_assoc]
        · apply hbreak
          · rw [hd]
            exact scanLine_not_delim l (('\n', w) :: rest2) BUFLEN hl
              (Or.inl ⟨by simp [BUFLEN], by omega⟩)
          · simp [readableLines, hd, completeLines_append_newline l rest2 w hl, hfit]
    · have : fileSize - pos = 0 := by omega
      rw [this, linesStartingBefore_zero, tailLoop_done _ _ _ _ _ _ _ hp]
      simp [consumed]

/-- The growth branch of `tailOneFile`: the record and the events in terms of
the readable lines that start before the observed size. -/
theorem tailOneFile_growth (info : LogFileInfo) (fileSize : Nat) (content : List Char)
    (writeTime : Int) (pbeep_regex : Option (List Char → Bool))
    (hgrow : info.file_size < fileSize)
    (hoff : info.last_tailed_pos ≤ content.length) :
    tailOneFile info fileSize writeTime pbeep_regex (some content) =
      ({ info with
          last_tailed_pos := info.last_tailed_pos +
            consumed (linesStartingBefore (fileSize - info.last_tailed_pos)
              (readableLines (textMode (content.drop info.last_tailed_pos)))),
          file_size := fileSize, write_time := writeTime },
        (linesStartingBefore (fileSize - info.last_tailed_pos)
          (readableLines (textMode (content.drop info.last_tailed_pos)))).flatMap
          (fun l => lineEvents info.pfx pbeep_regex l.text)) := by
  have h1 : ¬ fileSize < info.file_size := by omega
  have h2 : fileSize ≠ info.file_size := by omega
  have hspec := tailLoop_spec info.pfx pbeep_regex fileSize content
    (fileSize - info.last_tailed_pos) info.last_tailed_pos hoff (Nat.le_refl _)
  simp only [tailOneFile, h1, h2, hgrow, openAt, IfStream.good, ne_eq, not_false_eq_true,
    or_true, if_true, if_false, gt_iff_lt, Bool.not_false, Bool.and_self, hspec]

/-- The delivered characters that make up the first lines of a text: they end
at an LF, stand for the bytes of these lines, and what follows them holds the
other lines. -/
theorem lines_split : ∀ (P M : List Line) (d : List (Char × Nat)), completeLines d = P ++ M →
    ∃ pre rest, d = pre ++ rest ∧ widths pre = consumed P ∧ completeLines rest = M ∧
      (∀ y, completeLines (pre ++ y) = P ++ completeLines y) ∧
      (pre = [] ∨ ∃ p w, pre = p ++ [('\n', w)]) ∧ (P ≠ [] → pre ≠ [])
  | [], M, d, h =>
    ⟨[], d, rfl, rfl, by simpa using h, fun _ => rfl, Or.inl rfl, fun h => absurd rfl h⟩
  | l :: P, M, d, h => by
    rcases split_at_newline d with hno | ⟨a, w, d2, hd, ha⟩
    · rw [completeLines_of_not_mem d hno] at h
      cases h
    · rw [hd, completeLines_append_newline a d2 w ha, List.cons_append] at h
      injection h with h1 h2
      obtain ⟨pre2, rest, e1, e2, e3, e4, e5, _⟩ := lines_split P M d2 h2
      refine ⟨a ++ ('\n', w) :: pre2, rest, ?_, ?_, e3, ?_, ?_, ?_⟩
      · rw [hd, e1]; simp
      · rw [widths_append, widths_cons, consumed_cons, e2, ← h1]
        simp only []
        omega
      · intro y
        rw [List.append_assoc, List.cons_append, completeLines_append_newline a _ w ha, e4 y,
          h1, List.cons_append]
      · right
        rcases e5 with e | ⟨p, v, e⟩
        · exact ⟨a, w, by rw [e]⟩
        · exact ⟨a ++ ('\n', w) :: p, v, by rw [e]; simp⟩
      · intro _ hnil
        have := congrArg List.length hnil
        simp at this

/-- A line of a text in text mode occupies at least one byte. -/
theorem completeLines_bytes_pos : ∀ (d : List (Char × Nat)), (∀ x ∈ d, 1 ≤ x.2) →
    ∀ l ∈ completeLines d, 1 ≤ l.bytes
  | [], _, l, hl => by simp [completeLines] at hl
  | (c, w) :: cs, hw, l, hl => by
    have h1 : 1 ≤ w := hw (c, w) (by simp)
    have ih := completeLines_bytes_pos cs (fun x hx => hw x (by simp [hx]))
    by_cases hc : c = '\n'
    · rw [completeLines, if_pos hc] at hl
      rcases List.mem_cons.1 hl with e | e
      · rw [e]; exact h1
      · exact ih l e
    · rw [completeLines, if_neg hc] at hl
      cases hcs : completeLines cs with
      | nil => rw [hcs] at hl; simp at hl
      | cons m ms =>
        rw [hcs] at hl ih
        rcases List.mem_cons.1 hl with e | e
        · rw [e]
          simp only []
          omega
        · exact ih l (by simp [e])

theorem linesStartingBefore_split : ∀ (ls : List Line) (b : Nat),
    ∃ M, ls = linesStartingBefore b ls ++ M
  | [], b => ⟨[], by simp [linesStartingBefore]⟩
  | l :: ls, b => by
    by_cases hb : 0 < b
    · obtain ⟨M, hM⟩ := linesStartingBefore_split ls (b - l.bytes)
      refine ⟨M, ?_⟩
      rw [linesStartingBefore_cons b l ls hb, List.cons_append, ← hM]
    · have : b = 0 := by omega
      rw [this, linesStartingBefore_zero]
      exact ⟨l :: ls, rfl⟩

/-- Lines that end before the budget all start before it. -/
theorem linesStartingBefore_of_lt : ∀ (ls : List Line) (b : Nat), consumed ls < b →
    linesStartingBefore b ls = ls
  | [], b, _ => by simp [linesStartingBefore]
  | l :: ls, b, h => by
    rw [consumed_cons] at h
    rw [linesStartingBefore_cons b l ls (by omega),
      linesStartingBefore_of_lt ls (b - l.bytes) (by omega)]

/-- Lines of at least one byte each that end within the budget all start
before it. -/
theorem linesStartingBefore_of_le : ∀ (ls : List Line) (b : Nat), (∀ l ∈ ls, 1 ≤ l.bytes) →
    consumed ls ≤ b → linesStartingBefore b ls = ls
  | [], b, _, _ => by simp [linesStartingBefore]
  | l :: ls, b, hpos, h => by
    rw [consumed_cons] at h
    have h1 : 1 ≤ l.bytes := hpos l (by simp)
    rw [linesStartingBefore_cons b l ls (by omega),
      linesStartingBefore_of_le ls (b - l.bytes) (fun m hm => hpos m (by simp [hm])) (by omega)]

/-- A larger budget reads on where the smaller one stopped. -/
theorem linesStartingBefore_append : ∀ (P M R : List Line) (b1 b2 : Nat),
    linesStartingBefore b1 (P ++ M) = P → b1 ≤ b2 →
    linesStartingBefore b2 (P ++ R) = P ++ linesStartingBefore (b2 - consumed P) R
  | [], M, R, b1, b2, _, _ => by simp [consumed]
  | l :: P, M, R, b1, b2, h, hle => by
    have hb1 : 0 < b1 := by
      by_contra hb
      have : b1 = 0 := by omega
      rw [this, linesStartingBefore_zero] at h
      cases h
    rw [List.cons_append, linesStartingBefore_cons b1 l _ hb1] at h
    injection h with _ h2
    rw [List.cons_append, linesStartingBefore_cons b2 l _ (by omega),
      linesStartingBefore_append P M R (b1 - l.bytes) (b2 - l.bytes) h2 (by omega),
      consumed_cons, Nat.sub_sub, List.cons_append]

theorem consumed_linesStartingBefore_le (ls : List Line) (b : Nat) :
    consumed (linesStartingBefore b ls) ≤ consumed ls := by
  obtain ⟨M, hM⟩ := linesStartingBefore_split ls b
  have := congrArg consumed hM
  rw [consumed_append] at this
  omega

/-! ## Lines of a file -/

/-- The first lines of a text occupy bytes of the text. -/
theorem lines_consumed_le (text : List Char) (P M : List Line)
    (h : completeLines (textMode text) = P ++ M) : consumed P ≤ text.length := by
  obtain ⟨pre, rest, e1, e2, _, _, _, _⟩ := lines_split P M (textMode text) h
  have h1 := widths_textMode_le text
  rw [e1, widths_append] at h1
  omega

/-- Behind the first lines of a text start the other lines. -/
theorem lines_drop (text : List Char) (P M : List Line)
    (h : completeLines (textMode text) = P ++ M) :
    completeLines (textMode (text.drop (consumed P))) = M := by
  obtain ⟨pre, rest, e1, e2, e3, _, _, _⟩ := lines_split P M (textMode text) h
  rw [← e2, textMode_drop text pre rest e1, e3]

/-- Appended bytes leave the complete lines of a text in place. -/
theorem lines_append (text more : List Char) :
    completeLines (textMode (text ++ more)) =
      completeLines (textMode text) ++
        completeLines (textMode
          (text.drop (consumed (completeLines (textMode text))) ++ more)) := by
  obtain ⟨pre, rest, e1, e2, _, e4, e5, _⟩ :=
    lines_split (completeLines (textMode text)) [] (textMode text) (by simp)
  rw [textMode_append text pre rest more e1 e5, e4, e2]

/-- The byte before the end of the first lines of a text is an LF. -/
theorem lines_newline_byte (text : List Char) (P M : List Line)
    (h : completeLines (textMode text) = P ++ M) (hP : P ≠ []) :
    text[consumed P - 1]? = some '\n' := by
  obtain ⟨pre, rest, e1, e2, _, _, e5, e6⟩ := lines_split P M (textMode text) h
  rcases e5 with e | ⟨p, w, e⟩
  · exact absurd e (e6 hP)
  · have hb := textMode_newline_byte text p rest w (by rw [e1, e]; simp)
    rw [← e2, e, widths_append, widths_cons, widths_nil]
    exact hb

theorem readableLines_of_fit (d : List (Char × Nat))
    (hfit : ∀ l ∈ completeLines d, l.text.length ≤ BUFLEN - 1) :
    readableLines d = completeLines d := by
  unfold readableLines
  rw [List.takeWhile_eq_self_iff]
  intro l hl
  have := hfit l hl
  simp [BUFLEN] at this ⊢
  omega

/-- A line start lies inside the file. -/
theorem AtLineStart_le (content : List Char) (offset : Nat) (h : AtLineStart content offset) :
    offset ≤ content.length := by
  rcases h with h | h
  · omega
  · have := (List.getElem?_eq_some_iff.1 h).1
    omega

/-! ## Lines of plain characters -/

/-- Bytes that are neither Ctrl-Z nor CR are delivered as they are. -/
theorem textMode_plain_run : ∀ (l rest : List Char), (∀ c ∈ l, c ≠ CTRL_Z ∧ c ≠ '\r') →
    textMode (l ++ rest) = l.map (fun c => (c, 1)) ++ textMode rest
  | [], rest, _ => rfl
  | c :: cs, rest, h => by
    have hc := h c (by simp)
    rw [List.cons_append, textMode_plain c _ hc.1 (fun hh => hc.2 hh.1),
      textMode_plain_run cs rest (fun x hx => h x (by simp [hx]))]
    rfl

theorem widths_map_one (l : List Char) : widths (l.map (fun c => (c, 1))) = l.length := by
  induction l with
  | nil => rfl
  | cons c cs ih => rw [List.map_cons, widths_cons, ih, List.length_cons]; omega

theorem map_fst_map_one (l : List Char) : (l.map (fun c => ((c, 1) : Char × Nat))).map Prod.fst = l := by
  induction l with
  | nil => rfl
  | cons c cs ih => rw [List.map_cons, List.map_cons, ih]

/-- A line of plain characters that ends with LF. -/
theorem lines_line_lf (l rest : List Char) (h : ∀ c ∈ l, c ≠ CTRL_Z ∧ c ≠ '\r' ∧ c ≠ '\n') :
    completeLines (textMode (l ++ '\n' :: rest)) =
      (⟨l, l.length + 1⟩ : Line) :: completeLines (textMode rest) := by
  rw [textMode_plain_run l _ (fun c hc => ⟨(h c hc).1, (h c hc).2.1⟩),
    textMode_plain '\n' rest (by decide) (fun hh => absurd hh.1 (by decide)),
    completeLines_append_newline _ _ _ (by
      intro x hx
      obtain ⟨c, hc, e⟩ := List.mem_map.1 hx
      rw [← e]; exact (h c hc).2.2),
    widths_map_one, map_fst_map_one]

/-- A line of plain characters that ends with CR LF. -/
theorem lines_line_crlf (l rest : List Char) (h : ∀ c ∈ l, c ≠ CTRL_Z ∧ c ≠ '\r' ∧ c ≠ '\n') :
    completeLines (textMode (l ++ '\r' :: '\n' :: rest)) =
      (⟨l, l.length + 2⟩ : Line) :: completeLines (textMode rest) := by
  rw [textMode_plain_run l _ (fun c hc => ⟨(h c hc).1, (h c hc).2.1⟩),
    textMode_crlf,
    completeLines_append_newline _ _ _ (by
      intro x hx
      obtain ⟨c, hc, e⟩ := List.mem_map.1 hx
      rw [← e]; exact (h c hc).2.2),
    widths_map_one, map_fst_map_one]

/-! ## What a read emits -/

/-- C2: at the record with size 100 and offset 100, a call that observes the
size 10 takes the shrink branch, emits nothing, stores the size 10, and sets
the offset to the old size 100, not to the observed size 10. -/
theorem tailOneFile_shrink_keeps_old_size :
    tailOneFile ⟨"p", "f", 0, 0, 100, 100⟩ 10 1 none (some "0123456789".toList) =
      (⟨"p", "f", 0, 1, 10, 100⟩, []) := by
  decide

/-- The shrink branch in general: the offset becomes the size stored before the
call, whatever it was. -/
theorem tailOneFile_shrink (info : LogFileInfo) (fileSize : Nat) (writeTime : Int)
    (pbeep_regex : Option (List Char → Bool)) (file : Option (List Char))
    (h : fileSize < info.file_size) :
    tailOneFile info fileSize writeTime pbeep_regex file =
      ({ info with last_tailed_pos := info.file_size, file_size := fileSize,
                   write_time := writeTime }, []) := by
  have h2 : fileSize ≠ info.file_size := by omega
  simp [tailOneFile, h, h2]

theorem construct_offset_eq_size (prefixStr filePath : String)
    (fileData : Option FileAttributeData) :
    (LogFileInfo.construct prefixStr filePath fileData).last_tailed_pos =
      (LogFileInfo.construct prefixStr filePath fileData).file_size := by
  cases fileData <;> rfl

/-- The rewinding case of `startWatching`. -/
theorem startWatching_rewind (info : LogFileInfo) (now : Int)
    (hsize : 0 < info.file_size ∧ info.file_size < 1000)
    (hnew : now - Int.tdiv info.create_time 1000 < 6) :
    info.startWatching now =
      ({ info with last_tailed_pos := 0 }, Event.startWatching info true) := by
  simp [LogFileInfo.startWatching, hsize, hnew]

/-- The other case of `startWatching`: the record is left as it is. -/
theorem startWatching_keep (info : LogFileInfo) (now : Int)
    (h : ¬ ((0 < info.file_size ∧ info.file_size < 1000) ∧
      now - Int.tdiv info.create_time 1000 < 6)) :
    info.startWatching now = (info, Event.startWatching info false) := by
  unfold LogFileInfo.startWatching
  by_cases hsize : 0 < info.file_size ∧ info.file_size < 1000
  · have hnew : ¬ now - Int.tdiv info.create_time 1000 < 6 := fun e => h ⟨hsize, e⟩
    simp only [hsize, and_self, if_true, hnew, if_false]
  · simp only [hsize, if_false]

theorem startWatching_offset_le (info : LogFileInfo) (now : Int) :
    (info.startWatching now).1.last_tailed_pos ≤ info.last_tailed_pos ∧
    (info.startWatching now).1.file_size = info.file_size := by
  by_cases h : (0 < info.file_size ∧ info.file_size < 1000) ∧
      now - Int.tdiv info.create_time 1000 < 6
  · rw [startWatching_rewind info now h.1 h.2]; simp
  · rw [startWatching_keep info now h]; simp

/-- C10: on a record with `last_tailed_pos ≤ file_size` whose size is below
1000 bytes, `startWatching` sets the offset to 0 when the creation time
(milliseconds, divided by 1000) is less than 6 seconds before `now`, and leaves
the offset as it is when the file is 6 or more seconds old; the other members
are unchanged in both cases. -/
theorem startWatching_rewinds_recent_small_file (info : LogFileInfo) (now : Int)
    (hinv : info.last_tailed_pos ≤ info.file_size) (hsmall : info.file_size < 1000) :
    (now - Int.tdiv info.create_time 1000 < 6 →
      (info.startWatching now).1.last_tailed_pos = 0) ∧
    (6 ≤ now - Int.tdiv info.create_time 1000 →
      (info.startWatching now).1.last_tailed_pos = info.last_tailed_pos) ∧
    (info.startWatching now).1.pfx = info.pfx ∧
    (info.startWatching now).1.path = info.path ∧
    (info.startWatching now).1.file_size = info.file_size ∧
    (info.startWatching now).1.create_time = info.create_time ∧
    (info.startWatching now).1.write_time = info.write_time := by
  by_cases h : (0 < info.file_size ∧ info.file_size < 1000) ∧
      now - Int.tdiv info.create_time 1000 < 6
  · rw [startWatching_rewind info now h.1 h.2]
    refine ⟨fun _ => rfl, fun h6 => ?_, rfl, rfl, rfl, rfl, rfl⟩
    omega
  · rw [startWatching_keep info now h]
    refine ⟨fun hnew => ?_, fun _ => rfl, rfl, rfl, rfl, rfl, rfl⟩
    have : info.file_size = 0 := by
      by_contra hz
      exact h ⟨⟨by omega, hsmall⟩, hnew⟩
    show info.last_tailed_pos = 0
    omega

/-- C10, witness: a file of 500 bytes created at second 10 of the epoch, as
the constructor records it, started at second 15 and at second 1000. -/
theorem startWatching_rewinds_recent_small_file_witness :
    (LogFileInfo.construct "p" "f"
        (some ⟨⟨3577643008 + 100000000, 27111902⟩, ⟨3577643008, 27111902⟩, 0, 500⟩)) =
      ⟨"p", "f", 10000, 0, 500, 500⟩ ∧
    ((⟨"p", "f", 10000, 0, 500, 500⟩ : LogFileInfo).startWatching 15).1.last_tailed_pos = 0 ∧
    ((⟨"p", "f", 10000, 0, 500, 500⟩ : LogFileInfo).startWatching 1000).1.last_tailed_pos = 500 :=
  ⟨by decide,
   (startWatching_rewinds_recent_small_file ⟨"p", "f", 10000, 0, 500, 500⟩ 15
      (by decide) (by decide)).1 (by decide),
   (startWatching_rewinds_recent_small_file ⟨"p", "f", 10000, 0, 500, 500⟩ 1000
      (by decide) (by decide)).2.1 (by decide)⟩

/-! ## Association maps -/

theorem mapFind_eq_none_iff {β : Type} (m : List (String × β)) (key : String) :
    mapFind m key = none ↔ key ∉ m.map Prod.fst := by
  induction m with
  | nil => simp [mapFind]
  | cons e rest ih =>
    by_cases h : e.1 = key
    · simp [mapFind, h]
    · have h2 : ¬ key = e.1 := fun x => h x.symm
      simp [mapFind, h, h2, ih]

theorem mapFind_some_mem {β : Type} (m : List (String × β)) (key : String) (v : β)
    (h : mapFind m key = some v) : (key, v) ∈ m := by
  induction m with
  | nil => simp [mapFind] at h
  | cons e rest ih =>
    by_cases hk : e.1 = key
    · simp [mapFind, hk] at h
      rw [← h, ← hk]; simp
    · simp [mapFind, hk] at h
      exact List.mem_cons_of_mem _ (ih h)

theorem mapFind_mem_keys {β : Type} (m : List (String × β)) (key : String) (v : β)
    (h : mapFind m key = some v) : key ∈ m.map Prod.fst :=
  List.mem_map.2 ⟨(key, v), mapFind_some_mem m key v h, rfl⟩

theorem mapFind_of_mem {β : Type} (m : List (String × β)) (key : String) (v : β)
    (hnd : KeysNodup m) (h : (key, v) ∈ m) : mapFind m key = some v := by
  induction m with
  | nil => simp at h
  | cons e rest ih =>
    have hnd2 : (e.1 ∉ rest.map Prod.fst) ∧ KeysNodup rest := by
      simpa [KeysNodup] using hnd
    rcases List.mem_cons.1 h with h1 | h1
    · subst h1; simp [mapFind]
    · have hne : e.1 ≠ key := by
        intro he
        exact hnd2.1 (by rw [he]; exact List.mem_map.2 ⟨(key, v), h1, rfl⟩)
      simp [mapFind, hne, ih hnd2.2 h1]

theorem mapFind_append {β : Type} (m n : List (String × β)) (key : String) :
    mapFind (m ++ n) key =
      match mapFind m key with
      | some v => some v
      | none => mapFind n key := by
  induction m with
  | nil => simp [mapFind]
  | cons e rest ih =>
    by_cases hk : e.1 = key
    · simp [mapFind, hk]
    · simp [mapFind, hk, ih]

/-- A map without repeated keys holds exactly one entry for a key it maps. -/
theorem filter_key_of_mapFind {β : Type} (m : List (String × β)) (key : String) (v : β)
    (hnd : KeysNodup m) (h : mapFind m key = some v) :
    m.filter (fun e => decide (e.1 = key)) = [(key, v)] := by
  induction m with
  | nil => simp [mapFind] at h
  | cons e rest ih =>
    have hnd2 : (e.1 ∉ rest.map Prod.fst) ∧ KeysNodup rest := by
      simpa [KeysNodup] using hnd
    by_cases hk : e.1 = key
    · simp [mapFind, hk] at h
      have hrest : rest.filter (fun e => decide (e.1 = key)) = [] := by
        rw [List.filter_eq_nil_iff]
        intro x hx hx2
        have hx3 : x.1 = key := by simpa using hx2
        exact hnd2.1 (by rw [hk, ← hx3]; exact List.mem_map.2 ⟨x, hx, rfl⟩)
      rw [List.filter_cons_of_pos (by simp [hk]), hrest]
      cases e
      simp at hk h ⊢
      exact ⟨hk, h⟩
    · simp [mapFind, hk] at h
      rw [List.filter_cons_of_neg (by simp [hk])]
      exact ih hnd2.2 h

theorem mapEmplace_of_none {β : Type} (m : List (String × β)) (key : String) (value : β)
    (h : mapFind m key = none) : mapEmplace m key value = m ++ [(key, value)] := by
  simp [mapEmplace, h]

theorem mapEmplace_of_some {β : Type} (m : List (String × β)) (key : String) (value v : β)
    (h : mapFind m key = some v) : mapEmplace m key value = m := by
  simp [mapEmplace, h]

theorem keys_mapInsertOrAssign {β : Type} (m : List (String × β)) (key : String) (value : β)
    (h : key ∈ m.map Prod.fst) :
    (mapInsertOrAssign m key value).map Prod.fst = m.map Prod.fst := by
  induction m with
  | nil => simp at h
  | cons e rest ih =>
    by_cases hk : e.1 = key
    · simp [mapInsertOrAssign, hk]
    · have : key ∈ rest.map Prod.fst := by
        rw [List.map_cons] at h
        rcases List.mem_cons.1 h with h1 | h1
        · exact absurd h1.symm hk
        · exact h1
      simp [mapInsertOrAssign, hk, ih this]

theorem mapFind_mapInsertOrAssign {β : Type} (m : List (String × β)) (key k : String)
    (value : β) :
    mapFind (mapInsertOrAssign m key value) k = if key = k then some value else mapFind m k := by
  induction m with
  | nil => simp [mapInsertOrAssign, mapFind]
  | cons e rest ih =>
    by_cases hk : e.1 = key
    · by_cases hk2 : key = k
      · simp [mapInsertOrAssign, mapFind, hk, hk2]
      · simp [mapInsertOrAssign, mapFind, hk, hk2]
    · by_cases hk2 : key = k
      · subst hk2
        simp only [if_true] at ih
        simp [mapInsertOrAssign, mapFind, hk, ih]
      · simp [mapInsertOrAssign, mapFind, hk, hk2, ih]

theorem mem_mapInsertOrAssign {β : Type} (m : List (String × β)) (key : String) (value : β)
    (x : String × β) (h : x ∈ mapInsertOrAssign m key value) : x = (key, value) ∨ x ∈ m := by
  induction m with
  | nil => simpa [mapInsertOrAssign] using h
  | cons e rest ih =>
    by_cases hk : e.1 = key
    · simp [mapInsertOrAssign, hk] at h
      rcases h with h | h
      · left; exact h
      · right; exact List.mem_cons_of_mem _ h
    · simp [mapInsertOrAssign, hk] at h
      rcases h with h | h
      · right; rw [h]; simp
      · rcases ih h with h2 | h2
        · left; exact h2
        · right; exact List.mem_cons_of_mem _ h2

/-! ## The directory scan -/

theorem insertByCreateTime_ne_nil (x : LogFileInfo) (l : List LogFileInfo) :
    insertByCreateTime x l ≠ [] := by
  cases l with
  | nil => simp [insertByCreateTime]
  | cons y ys =>
    by_cases h : y.create_time > x.create_time <;> simp [insertByCreateTime, h]

/-- The front of the sorted list is the first of the records with the largest
creation time. -/
theorem sortByCreateTime_front : ∀ (l : List LogFileInfo), l ≠ [] →
    ∃ cand tl before after, sortByCreateTime l = cand :: tl ∧ l = before ++ cand :: after ∧
      (∀ x ∈ before, x.create_time < cand.create_time) ∧
      (∀ x ∈ after, x.create_time ≤ cand.create_time)
  | [], h => absurd rfl h
  | a :: rest, _ => by
    by_cases hrest : rest = []
    · subst hrest
      exact ⟨a, [], [], [], by simp [sortByCreateTime, insertByCreateTime], by simp,
        by simp, by simp⟩
    · obtain ⟨c, tl, before, after, hs, hl, hb, ha⟩ := sortByCreateTime_front rest hrest
      have hsort : sortByCreateTime (a :: rest) = insertByCreateTime a (c :: tl) := by
        rw [← hs]; rfl
      by_cases hgt : c.create_time > a.create_time
      · refine ⟨c, insertByCreateTime a tl, a :: before, after, ?_, ?_, ?_, ha⟩
        · rw [hsort]; simp [insertByCreateTime, hgt]
        · rw [hl]; simp
        · intro x hx
          rcases List.mem_cons.1 hx with h | h
          · rw [h]; exact hgt
          · exact hb x h
      · refine ⟨a, c :: tl, [], rest, ?_, by simp, by simp, ?_⟩
        · rw [hsort]; simp [insertByCreateTime, hgt]
        · intro x hx
          rw [hl] at hx
          have hca : c.create_time ≤ a.create_time := by omega
          rcases List.mem_append.1 hx with h | h
          · have := hb x h; omega
          · rcases List.mem_cons.1 h with h2 | h2
            · rw [h2]; exact hca
            · have := ha x h2; omega

theorem mapFind_groupInsert (g : List (String × List LogFileInfo)) (key : String)
    (info : LogFileInfo) (k : String) :
    mapFind (groupInsert g key info) k =
      if key = k then some ((mapFind g k).getD [] ++ [info]) else mapFind g k := by
  induction g with
  | nil =>
    by_cases hk : key = k <;> simp [groupInsert, mapFind, hk]
  | cons e rest ih =>
    by_cases he : e.1 = key
    · have hgi : groupInsert (e :: rest) key info = (e.1, e.2 ++ [info]) :: rest := by
        simp [groupInsert, he]
      rw [hgi]
      by_cases hk : key = k
      · have hek : e.1 = k := he.trans hk
        simp [mapFind, hk, hek]
      · have hek : ¬ e.1 = k := by rw [he]; exact hk
        simp [mapFind, hk, hek]
    · have hgi : groupInsert (e :: rest) key info = e :: groupInsert rest key info := by
        simp [groupInsert, he]
      rw [hgi]
      by_cases hek : e.1 = k
      · have hk : ¬ key = k := by rw [← hek]; exact fun h => he h.symm
        simp [mapFind, hk, hek]
      · simp only [mapFind, hek, if_false]
        exact ih

theorem keys_groupInsert (g : List (String × List LogFileInfo)) (key : String)
    (info : LogFileInfo) :
    (groupInsert g key info).map Prod.fst =
      if key ∈ g.map Prod.fst then g.map Prod.fst else g.map Prod.fst ++ [key] := by
  induction g with
  | nil => simp [groupInsert]
  | cons e rest ih =>
    by_cases he : e.1 = key
    · simp [groupInsert, he]
    · have hne : ¬ key = e.1 := fun h => he h.symm
      by_cases hmem : key ∈ rest.map Prod.fst
      · rw [if_pos hmem] at ih
        have : key ∈ (e :: rest).map Prod.fst := by
          rw [List.map_cons]; exact List.mem_cons_of_mem _ hmem
        rw [if_pos this]
        simp only [groupInsert, he, if_false, List.map_cons, ih]
      · rw [if_neg hmem] at ih
        have : ¬ key ∈ (e :: rest).map Prod.fst := by
          rw [List.map_cons]
          intro h
          rcases List.mem_cons.1 h with h | h
          · exact hne h
          · exact hmem h
        rw [if_neg this]
        simp only [groupInsert, he, if_false, List.map_cons, ih, List.cons_append]

theorem groupInsert_nodup (g : List (String × List LogFileInfo)) (key : String)
    (info : LogFileInfo) (h : KeysNodup g) : KeysNodup (groupInsert g key info) := by
  unfold KeysNodup at h ⊢
  rw [keys_groupInsert]
  by_cases hmem : key ∈ g.map Prod.fst
  · rw [if_pos hmem]; exact h
  · rw [if_neg hmem]
    rw [List.nodup_append]
    refine ⟨h, by simp, ?_⟩
    intro a ha hb
    have : a = key := by simpa using hb
    exact hmem (this ▸ ha)

theorem groupInsert_nonempty (g : List (String × List LogFileInfo)) (key : String)
    (info : LogFileInfo) (h : ∀ e ∈ g, e.2 ≠ []) : ∀ e ∈ groupInsert g key info, e.2 ≠ [] := by
  induction g with
  | nil =>
    intro e he
    simp [groupInsert] at he
    rw [he]; simp
  | cons x rest ih =>
    intro e he
    by_cases hx : x.1 = key
    · simp only [groupInsert, hx, if_true] at he
      rcases List.mem_cons.1 he with h1 | h1
      · rw [h1]; simp
      · exact h e (List.mem_cons_of_mem _ h1)
    · simp only [groupInsert, hx, if_false] at he
      rcases List.mem_cons.1 he with h1 | h1
      · rw [h1]; exact h x (List.mem_cons_self _ _)
      · exact ih (fun e he => h e (List.mem_cons_of_mem _ he)) e h1

/-- The groups built by the first loop of `collectLogFiles` have pairwise
different keys and are not empty. -/
theorem collectGroups_inv (filename_regex : String → Option String) :
    ∀ (entries : List DirEntry) (g : List (String × List LogFileInfo)),
      KeysNodup g → (∀ e ∈ g, e.2 ≠ []) →
      KeysNodup (collectGroups filename_regex entries g) ∧
        ∀ e ∈ collectGroups filename_regex entries g, e.2 ≠ []
  | [], g, h1, h2 => ⟨h1, h2⟩
  | entry :: rest, g, h1, h2 => by
    unfold collectGroups
    split
    · split
      · split
        · exact collectGroups_inv filename_regex rest _ (groupInsert_nodup g _ _ h1)
            (groupInsert_nonempty g _ _ h2)
        · exact collectGroups_inv filename_regex rest g h1 h2
      · exact collectGroups_inv filename_regex rest g h1 h2
    · exact collectGroups_inv filename_regex rest g h1 h2

/-- The group of a non-empty prefix after the first loop: what it held before,
followed by the records of the listed files with that prefix, in order. -/
theorem collectGroups_find (filename_regex : String → Option String) (key : String)
    (hkey : key ≠ "") :
    ∀ (entries : List DirEntry) (g : List (String × List LogFileInfo)),
      (mapFind (collectGroups filename_regex entries g) key).getD [] =
        (mapFind g key).getD [] ++ listedWithPrefix filename_regex entries key
  | [], g => by simp [collectGroups, listedWithPrefix]
  | entry :: rest, g => by
    unfold collectGroups
    by_cases hel : entry.pathExists = true ∧ ¬ entry.isDirectory = true
    · rw [if_pos hel]
      cases hrx : filename_regex entry.filename with
      | none =>
        simp only []
        rw [collectGroups_find filename_regex key hkey rest g]
        simp [listedWithPrefix, hrx]
      | some k =>
        simp only []
        by_cases hk : k ≠ ""
        · rw [if_pos hk, collectGroups_find filename_regex key hkey rest _, mapFind_groupInsert]
          by_cases hkk : k = key
          · subst hkk
            simp [listedWithPrefix, hrx, hel.1, hel.2]
          · have : ¬ some k = some key := by simpa using hkk
            simp [listedWithPrefix, hrx, hkk]
        · rw [if_neg hk, collectGroups_find filename_regex key hkey rest g]
          have hk2 : k = "" := by simpa using hk
          have : ¬ k = key := by rw [hk2]; exact fun h => hkey h.symm
          simp [listedWithPrefix, hrx, this]
    · rw [if_neg hel, collectGroups_find filename_regex key hkey rest g]
      have : (entry.pathExists && !entry.isDirectory) = false := by
        cases h1 : entry.pathExists <;> cases h2 : entry.isDirectory <;> simp [h1, h2] at hel ⊢
      simp [listedWithPrefix, this]

/-- The second loop of `collectLogFiles`: the candidate of a key is the front of
its sorted group. -/
theorem pickNewest_spec :
    ∀ (g : List (String × List LogFileInfo)) (pmap : PrefixLogFileInfoMap),
      KeysNodup g → (∀ e ∈ g, e.2 ≠ []) → KeysNodup pmap →
      (∀ k ∈ pmap.map Prod.fst, k ∉ g.map Prod.fst) →
      KeysNodup (pickNewest g pmap) ∧
      ∀ key, mapFind (pickNewest g pmap) key =
        match mapFind pmap key with
        | some v => some v
        | none => (mapFind g key).bind (fun l => (sortByCreateTime l).head?)
  | [], pmap, _, _, h3, _ => by
    refine ⟨h3, fun key => ?_⟩
    cases hp : mapFind pmap key <;> simp [pickNewest, mapFind, hp]
  | e :: rest, pmap, h1, h2, h3, h4 => by
    have hnd : (e.1 ∉ rest.map Prod.fst) ∧ KeysNodup rest := by
      simpa [KeysNodup] using h1
    obtain ⟨cand, tl, _, _, hs, _, _, _⟩ := sortByCreateTime_front e.2
      (h2 e (List.mem_cons_self _ _))
    have hnone : mapFind pmap e.1 = none := by
      rw [mapFind_eq_none_iff]
      intro hm
      exact h4 e.1 hm (by simp)
    have hstep : pickNewest (e :: rest) pmap = pickNewest rest (pmap ++ [(e.1, cand)]) := by
      rw [pickNewest, hs]
      simp only []
      rw [mapEmplace_of_none pmap e.1 cand hnone]
    have hnd2 : KeysNodup (pmap ++ [(e.1, cand)]) := by
      unfold KeysNodup at h3 ⊢
      rw [List.map_append, List.nodup_append]
      refine ⟨h3, by simp, ?_⟩
      intro a ha hb
      have : a = e.1 := by simpa using hb
      subst this
      exact h4 _ ha (by simp)
    have hdisj : ∀ k ∈ (pmap ++ [(e.1, cand)]).map Prod.fst, k ∉ rest.map Prod.fst := by
      intro k hk
      rw [List.map_append, List.mem_append] at hk
      rcases hk with hk | hk
      · intro hr
        exact h4 k hk (by rw [List.map_cons]; exact List.mem_cons_of_mem _ hr)
      · have : k = e.1 := by simpa using hk
        rw [this]; exact hnd.1
    obtain ⟨ih1, ih2⟩ := pickNewest_spec rest (pmap ++ [(e.1, cand)]) hnd.2
      (fun x hx => h2 x (List.mem_cons_of_mem _ hx)) hnd2 hdisj
    rw [hstep]
    refine ⟨ih1, fun key => ?_⟩
    rw [ih2 key, mapFind_append]
    cases hp : mapFind pmap key with
    | some v => simp
    | none =>
      by_cases hk : e.1 = key
      · simp [mapFind, hk, hs]
      · simp [mapFind, hk]

/-- C5: for every directory listing and every non-empty prefix captured from at
least one listed file that exists and is not a directory, `collectLogFiles`
returns exactly one candidate for the prefix; the candidate is one of the
listed files with that prefix, no listed file with the prefix has a larger
creation time, and every such file listed before the candidate has a smaller
one, so the first of the newest files is chosen. -/
theorem collectLogFiles_selects_newest (filename_regex : String → Option String)
    (entries : List DirEntry) (key : String) (hkey : key ≠ "")
    (hlisted : ∃ e ∈ entries, e.pathExists = true ∧ e.isDirectory = false ∧
      filename_regex e.filename = some key) :
    ∃ cand before after,
      (collectLogFiles filename_regex entries).filter (fun e => decide (e.1 = key)) =
        [(key, cand)] ∧
      listedWithPrefix filename_regex entries key = before ++ cand :: after ∧
      (∀ x ∈ before, x.create_time < cand.create_time) ∧
      (∀ x ∈ after, x.create_time ≤ cand.create_time) := by
  have hne : listedWithPrefix filename_regex entries key ≠ [] := by
    obtain ⟨e, he, h1, h2, h3⟩ := hlisted
    intro hnil
    have hmem : LogFileInfo.construct key e.path e.fileData ∈
        listedWithPrefix filename_regex entries key := by
      unfold listedWithPrefix
      exact List.mem_map.2 ⟨e, List.mem_filter.2 ⟨he, by simp [h1, h2, h3]⟩, rfl⟩
    rw [hnil] at hmem
    simp at hmem
  obtain ⟨hg1, hg2⟩ := collectGroups_inv filename_regex entries []
    (by simp [KeysNodup]) (by simp)
  have hfind := collectGroups_find filename_regex key hkey entries []
  simp only [mapFind, Option.getD_none, List.nil_append] at hfind
  obtain ⟨hp1, hp2⟩ := pickNewest_spec (collectGroups filename_regex entries []) [] hg1 hg2
    (by simp [KeysNodup]) (by simp)
  obtain ⟨cand, tl, before, after, hs, hl, hb, ha⟩ :=
    sortByCreateTime_front (listedWithPrefix filename_regex entries key) hne
  have hgroup : mapFind (collectGroups filename_regex entries []) key =
      some (listedWithPrefix filename_regex entries key) := by
    cases hm : mapFind (collectGroups filename_regex entries []) key with
    | none => rw [hm] at hfind; exact absurd hfind.symm hne
    | some l => rw [hm] at hfind; simp at hfind; rw [hfind]
  have hcand : mapFind (collectLogFiles filename_regex entries) key = some cand := by
    unfold collectLogFiles
    rw [hp2 key]
    simp [mapFind, hgroup, hs]
  exact ⟨cand, before, after,
    filter_key_of_mapFind _ key cand hp1 hcand, hl, hb, ha⟩

/-- C5, witness: the listing a1 (created 5), a2 (created 7), b1, a3 (created 7)
and a directory, with the first character of the name as prefix: the candidate
of "a" is a2, the first of the two newest. -/
theorem collectLogFiles_selects_newest_witness :
    ∃ cand before after,
      (collectLogFiles (fun s => some (s.take 1))
        [⟨"d/a1", "a1", true, false, some ⟨⟨3577693008, 27111902⟩, ⟨0, 0⟩, 0, 10⟩⟩,
         ⟨"d/a2", "a2", true, false, some ⟨⟨3577713008, 27111902⟩, ⟨0, 0⟩, 0, 10⟩⟩,
         ⟨"d/b1", "b1", true, false, none⟩,
         ⟨"d/a3", "a3", true, false, some ⟨⟨3577713008, 27111902⟩, ⟨0, 0⟩, 0, 10⟩⟩,
         ⟨"d/ad", "ad", true, true, none⟩]).filter (fun e => decide (e.1 = "a")) =
        [("a", cand)] ∧
      listedWithPrefix (fun s => some (s.take 1))
        [⟨"d/a1", "a1", true, false, some ⟨⟨3577693008, 27111902⟩, ⟨0, 0⟩, 0, 10⟩⟩,
         ⟨"d/a2", "a2", true, false, some ⟨⟨3577713008, 27111902⟩, ⟨0, 0⟩, 0, 10⟩⟩,
         ⟨"d/b1", "b1", true, false, none⟩,
         ⟨"d/a3", "a3", true, false, some ⟨⟨3577713008, 27111902⟩, ⟨0, 0⟩, 0, 10⟩⟩,
         ⟨"d/ad", "ad", true, true, none⟩] "a" = before ++ cand :: after ∧
      (∀ x ∈ before, x.create_time < cand.create_time) ∧
      (∀ x ∈ after, x.create_time ≤ cand.create_time) ∧
      cand.path = "d/a2" ∧ cand.create_time = 7 :=
  (collectLogFiles_selects_newest (fun s => some (s.take 1)) _ "a" (by decide)
    ⟨⟨"d/a1", "a1", true, false, some ⟨⟨3577693008, 27111902⟩, ⟨0, 0⟩, 0, 10⟩⟩,
      by simp, rfl, rfl, by decide⟩).elim
    (fun cand h => h.elim (fun before h => h.elim (fun after h =>
      ⟨cand, before, after, h.1, h.2.1, h.2.2.1, h.2.2.2,
        by
          have h1 := h.1
          have h2 : (collectLogFiles (fun s => some (s.take 1))
            [⟨"d/a1", "a1", true, false, some ⟨⟨3577693008, 27111902⟩, ⟨0, 0⟩, 0, 10⟩⟩,
             ⟨"d/a2", "a2", true, false, some ⟨⟨3577713008, 27111902⟩, ⟨0, 0⟩, 0, 10⟩⟩,
             ⟨"d/b1", "b1", true, false, none⟩,
             ⟨"d/a3", "a3", true, false, some ⟨⟨3577713008, 27111902⟩, ⟨0, 0⟩, 0, 10⟩⟩,
             ⟨"d/ad", "ad", true, true, none⟩]).filter (fun e => decide (e.1 = "a")) =
            [("a", ⟨"a", "d/a2", 7, -11644473600000, 10, 10⟩)] := by decide
          rw [h2] at h1
          have h3 : cand = ⟨"a", "d/a2", 7, -11644473600000, 10, 10⟩ := by
            simpa using h1.symm
          rw [h3]
          exact ⟨rfl, rfl⟩⟩)))

/-! ## Reconciliation -/

theorem mem_stdSet (keys : List String) (k : String) : k ∈ stdSet keys ↔ k ∈ keys := by
  unfold stdSet
  rw [(List.perm_insertionSort _ _).mem_iff, List.mem_dedup]

theorem nodup_stdSet (keys : List String) : (stdSet keys).Nodup := by
  unfold stdSet
  rw [(List.perm_insertionSort _ _).nodup_iff]
  exact List.nodup_dedup keys

theorem mem_removedKeys (oldMap newMap : PrefixLogFileInfoMap) (k : String) :
    k ∈ removedKeys oldMap newMap ↔ k ∈ oldMap.map Prod.fst ∧ k ∉ newMap.map Prod.fst := by
  unfold removedKeys
  rw [List.mem_filter, mem_stdSet]
  simp [mem_stdSet]

theorem nodup_removedKeys (oldMap newMap : PrefixLogFileInfoMap) :
    (removedKeys oldMap newMap).Nodup :=
  (nodup_stdSet _).filter _

theorem mapFind_filter {β : Type} (m : List (String × β)) (p : String → Bool) (k : String) :
    mapFind (m.filter (fun e => p e.1)) k = if p k then mapFind m k else none := by
  induction m with
  | nil => simp [mapFind]
  | cons e rest ih =>
    by_cases hp : p e.1 = true
    · rw [List.filter_cons_of_pos (by simpa using hp)]
      by_cases hk : e.1 = k
      · rw [hk] at hp
        simp [mapFind, hk, hp]
      · simp only [mapFind, hk, if_false]
        exact ih
    · rw [List.filter_cons_of_neg (by simpa using hp)]
      by_cases hk : e.1 = k
      · rw [hk] at hp
        rw [ih]
        simp [mapFind, hk, hp]
      · simp only [mapFind, hk, if_false]
        exact ih

theorem mapFind_mapErase {β : Type} (m : List (String × β)) (key k : String) :
    mapFind (mapErase m key) k = if k = key then none else mapFind m k := by
  unfold mapErase
  rw [mapFind_filter m (fun x => decide (x ≠ key)) k]
  by_cases h : k = key <;> simp [h]

/-- The map after the first loop: the entries whose key is not removed. -/
theorem removeLoop_map : ∀ (ks : List String) (m : PrefixLogFileInfoMap),
    (removeLoop ks m).1 = m.filter (fun e => decide (e.1 ∉ ks))
  | [], m => by simp [removeLoop]
  | k :: ks, m => by
    rw [removeLoop]
    simp only []
    rw [removeLoop_map ks (mapErase m k)]
    unfold mapErase
    rw [List.filter_filter]
    apply List.filter_congr
    intro x _
    by_cases h1 : x.1 = k <;> by_cases h2 : x.1 ∈ ks <;> simp [h1, h2]

/-- The events of the first loop: one `stopWatching` for every removed key, on
the record that the map holds for it. -/
theorem removeLoop_events : ∀ (ks : List String) (m : PrefixLogFileInfoMap), ks.Nodup →
    (removeLoop ks m).2 = ks.filterMap (fun k => (mapFind m k).map LogFileInfo.stopWatching)
  | [], m, _ => by simp [removeLoop]
  | k :: ks, m, hnd => by
    have hnd2 : k ∉ ks ∧ ks.Nodup := by simpa using hnd
    rw [removeLoop]
    simp only []
    rw [removeLoop_events ks (mapErase m k) hnd2.2]
    have hcongr : ks.filterMap (fun k' => (mapFind (mapErase m k) k').map
        LogFileInfo.stopWatching) =
        ks.filterMap (fun k' => (mapFind m k').map LogFileInfo.stopWatching) := by
      apply List.filterMap_congr
      intro k' hk'
      have : ¬ k' = k := fun h => hnd2.1 (h ▸ hk')
      rw [mapFind_mapErase, if_neg this]
    rw [hcongr]
    cases hf : mapFind m k <;> simp [hf]

theorem startWatching_event (info : LogFileInfo) (now : Int) :
    ∃ rewind, (info.startWatching now).2 = Event.startWatching info rewind := by
  by_cases h : (0 < info.file_size ∧ info.file_size < 1000) ∧
      now - Int.tdiv info.create_time 1000 < 6
  · exact ⟨true, by rw [startWatching_rewind info now h.1 h.2]⟩
  · exact ⟨false, by rw [startWatching_keep info now h]⟩

theorem startWatching_pfx_path (info : LogFileInfo) (now : Int) :
    (info.startWatching now).1.pfx = info.pfx ∧ (info.startWatching now).1.path = info.path := by
  by_cases h : (0 < info.file_size ∧ info.file_size < 1000) ∧
      now - Int.tdiv info.create_time 1000 < 6
  · rw [startWatching_rewind info now h.1 h.2]; exact ⟨rfl, rfl⟩
  · rw [startWatching_keep info now h]; exact ⟨rfl, rfl⟩

/-- The loop body on a new prefix while the map has room. -/
theorem addStep_add (max_files : Nat) (now : Int) (e : String × LogFileInfo)
    (m : PrefixLogFileInfoMap) (h1 : mapFind m e.1 = none) (h2 : m.length < max_files) :
    addStep max_files now e m =
      (m ++ [(e.1, (e.2.startWatching now).1)], [(e.2.startWatching now).2]) := by
  simp [addStep, h1, h2, mapEmplace]

/-- The loop body on a new prefix when the map is full. -/
theorem addStep_full (max_files : Nat) (now : Int) (e : String × LogFileInfo)
    (m : PrefixLogFileInfoMap) (h1 : mapFind m e.1 = none) (h2 : ¬ m.length < max_files) :
    addStep max_files now e m = (m, [Event.limitReached max_files e.2]) := by
  simp [addStep, h1, h2]

/-- The loop body on a known prefix whose path changed. -/
theorem addStep_rotate (max_files : Nat) (now : Int) (e : String × LogFileInfo)
    (m : PrefixLogFileInfoMap) (old : LogFileInfo) (h1 : mapFind m e.1 = some old)
    (h2 : old.path ≠ e.2.path) :
    addStep max_files now e m =
      (mapInsertOrAssign m e.1 (e.2.startWatching now).1,
        [old.stopWatching, (e.2.startWatching now).2]) := by
  simp [addStep, h1, h2]

/-- The loop body on a known prefix with the same path. -/
theorem addStep_same (max_files : Nat) (now : Int) (e : String × LogFileInfo)
    (m : PrefixLogFileInfoMap) (old : LogFileInfo) (h1 : mapFind m e.1 = some old)
    (h2 : old.path = e.2.path) :
    addStep max_files now e m = (m, []) := by
  simp [addStep, h1, h2]

/-- The four cases of the loop body. -/
theorem addStep_cases (max_files : Nat) (now : Int) (e : String × LogFileInfo)
    (m : PrefixLogFileInfoMap) :
    (mapFind m e.1 = none ∧ m.length < max_files ∧
      addStep max_files now e m =
        (m ++ [(e.1, (e.2.startWatching now).1)], [(e.2.startWatching now).2])) ∨
    (mapFind m e.1 = none ∧ ¬ m.length < max_files ∧
      addStep max_files now e m = (m, [Event.limitReached max_files e.2])) ∨
    (∃ old, mapFind m e.1 = some old ∧ old.path ≠ e.2.path ∧
      addStep max_files now e m =
        (mapInsertOrAssign m e.1 (e.2.startWatching now).1,
          [old.stopWatching, (e.2.startWatching now).2])) ∨
    (∃ old, mapFind m e.1 = some old ∧ old.path = e.2.path ∧
      addStep max_files now e m = (m, [])) := by
  cases hf : mapFind m e.1 with
  | none =>
    by_cases hl : m.length < max_files
    · exact Or.inl ⟨rfl, hl, addStep_add max_files now e m hf hl⟩
    · exact Or.inr (Or.inl ⟨rfl, hl, addStep_full max_files now e m hf hl⟩)
  | some old =>
    by_cases hp : old.path = e.2.path
    · exact Or.inr (Or.inr (Or.inr ⟨old, rfl, hp, addStep_same max_files now e m old hf hp⟩))
    · exact Or.inr (Or.inr (Or.inl ⟨old, rfl, hp, addStep_rotate max_files now e m old hf hp⟩))

/-- The loop body never lets the map grow beyond `max_files`. -/
theorem addStep_length_le (max_files : Nat) (now : Int) (e : String × LogFileInfo)
    (m : PrefixLogFileInfoMap) (h : m.length ≤ max_files) :
    (addStep max_files now e m).1.length ≤ max_files := by
  rcases addStep_cases max_files now e m with ⟨_, h2, h3⟩ | ⟨_, _, h3⟩ | ⟨old, h1, _, h3⟩ |
    ⟨old, _, _, h3⟩
  · rw [h3]; simp; omega
  · rw [h3]; exact h
  · rw [h3]
    have := congrArg List.length (keys_mapInsertOrAssign m e.1 (e.2.startWatching now).1
      (mapFind_mem_keys m e.1 old h1))
    simp only [List.length_map] at this
    simp only []
    omega
  · rw [h3]; exact h

/-- The keys after the loop body: those before, and the key of the entry when it
was added. -/
theorem addStep_keys (max_files : Nat) (now : Int) (e : String × LogFileInfo)
    (m : PrefixLogFileInfoMap) :
    (addStep max_files now e m).1.map Prod.fst = m.map Prod.fst ∨
    (mapFind m e.1 = none ∧ m.length < max_files ∧
      (addStep max_files now e m).1.map Prod.fst = m.map Prod.fst ++ [e.1]) := by
  rcases addStep_cases max_files now e m with ⟨h1, h2, h3⟩ | ⟨_, _, h3⟩ | ⟨old, h1, _, h3⟩ |
    ⟨old, _, _, h3⟩
  · right; exact ⟨h1, h2, by rw [h3]; simp⟩
  · left; rw [h3]
  · left; rw [h3]
    exact keys_mapInsertOrAssign m e.1 _ (mapFind_mem_keys m e.1 old h1)
  · left; rw [h3]

/-- The loop body leaves the records of the other keys alone. -/
theorem addStep_find_other (max_files : Nat) (now : Int) (e : String × LogFileInfo)
    (m : PrefixLogFileInfoMap) (k : String) (hk : e.1 ≠ k) :
    mapFind (addStep max_files now e m).1 k = mapFind m k := by
  rcases addStep_cases max_files now e m with ⟨_, _, h3⟩ | ⟨_, _, h3⟩ | ⟨old, _, _, h3⟩ |
    ⟨old, _, _, h3⟩
  · rw [h3, mapFind_append]
    cases mapFind m k <;> simp [mapFind, hk]
  · rw [h3]
  · rw [h3, mapFind_mapInsertOrAssign, if_neg hk]
  · rw [h3]

/-- The loop body keeps every record under its own prefix. -/
theorem addStep_prefixes (max_files : Nat) (now : Int) (e : String × LogFileInfo)
    (m : PrefixLogFileInfoMap) (hm : KeysArePrefixes m) (he : e.2.pfx = e.1) :
    KeysArePrefixes (addStep max_files now e m).1 := by
  have hs := (startWatching_pfx_path e.2 now).1
  rcases addStep_cases max_files now e m with ⟨_, _, h3⟩ | ⟨_, _, h3⟩ | ⟨old, _, _, h3⟩ |
    ⟨old, _, _, h3⟩
  · rw [h3]
    intro x hx
    rcases List.mem_append.1 hx with h | h
    · exact hm x h
    · have : x = (e.1, (e.2.startWatching now).1) := by simpa using h
      rw [this]; simp only []; rw [hs, he]
  · rw [h3]; exact hm
  · rw [h3]
    intro x hx
    rcases mem_mapInsertOrAssign m e.1 _ x hx with h | h
    · rw [h]; simp only []; rw [hs, he]
    · exact hm x h
  · rw [h3]; exact hm

/-- A `stopWatching` of the loop body is on the record that the map held for
the key of the entry. -/
theorem addStep_stop (max_files : Nat) (now : Int) (e : String × LogFileInfo)
    (m : PrefixLogFileInfoMap) (x : LogFileInfo)
    (h : Event.stopWatching x ∈ (addStep max_files now e m).2) : mapFind m e.1 = some x := by
  obtain ⟨rw, hrw⟩ := startWatching_event e.2 now
  rcases addStep_cases max_files now e m with ⟨_, _, h3⟩ | ⟨_, _, h3⟩ | ⟨old, h1, _, h3⟩ |
    ⟨old, _, _, h3⟩
  · rw [h3, hrw] at h; simp at h
  · rw [h3] at h; simp at h
  · rw [h3, hrw] at h
    simp [LogFileInfo.stopWatching] at h
    rw [h1, h]
  · rw [h3] at h; simp at h

theorem addLoop_cons (max_files : Nat) (now : Int) (e : String × LogFileInfo)
    (rest : List (String × LogFileInfo)) (m : PrefixLogFileInfoMap) :
    addLoop max_files now (e :: rest) m =
      ((addLoop max_files now rest (addStep max_files now e m).1).1,
        (addStep max_files now e m).2 ++
          (addLoop max_files now rest (addStep max_files now e m).1).2) := rfl

/-- The second loop never lets the map grow beyond `max_files`. -/
theorem addLoop_length_le (max_files : Nat) (now : Int) :
    ∀ (rest : List (String × LogFileInfo)) (m : PrefixLogFileInfoMap),
      m.length ≤ max_files → (addLoop max_files now rest m).1.length ≤ max_files
  | [], m, h => h
  | e :: rest, m, h => by
    rw [addLoop_cons]
    exact addLoop_length_le max_files now rest _ (addStep_length_le max_files now e m h)

/-- The second loop evicts no key. -/
theorem addLoop_keys_mono (max_files : Nat) (now : Int) :
    ∀ (rest : List (String × LogFileInfo)) (m : PrefixLogFileInfoMap) (k : String),
      k ∈ m.map Prod.fst → k ∈ (addLoop max_files now rest m).1.map Prod.fst
  | [], m, k, h => h
  | e :: rest, m, k, h => by
    rw [addLoop_cons]
    apply addLoop_keys_mono max_files now rest
    rcases addStep_keys max_files now e m with h1 | ⟨_, _, h1⟩
    · rw [h1]; exact h
    · rw [h1]; exact List.mem_append_left _ h

/-- A key of the map after the second loop was a key before or is a key of the
scan result. -/
theorem addLoop_keys_from (max_files : Nat) (now : Int) :
    ∀ (rest : List (String × LogFileInfo)) (m : PrefixLogFileInfoMap) (k : String),
      k ∈ (addLoop max_files now rest m).1.map Prod.fst →
      k ∈ m.map Prod.fst ∨ k ∈ rest.map Prod.fst
  | [], m, k, h => Or.inl h
  | e :: rest, m, k, h => by
    rw [addLoop_cons] at h
    rcases addLoop_keys_from max_files now rest _ k h with h1 | h1
    · rcases addStep_keys max_files now e m with h2 | ⟨_, _, h2⟩
      · left; rw [h2] at h1; exact h1
      · rw [h2] at h1
        rcases List.mem_append.1 h1 with h3 | h3
        · left; exact h3
        · right
          have : k = e.1 := by simpa using h3
          rw [this]; simp
    · right; rw [List.map_cons]; exact List.mem_cons_of_mem _ h1

/-- The second loop leaves alone the record of a key that the scan result does
not hold. -/
theorem addLoop_find_other (max_files : Nat) (now : Int) (k : String) :
    ∀ (rest : List (String × LogFileInfo)) (m : PrefixLogFileInfoMap),
      k ∉ rest.map Prod.fst → mapFind (addLoop max_files now rest m).1 k = mapFind m k
  | [], m, _ => rfl
  | e :: rest, m, h => by
    have h1 : e.1 ≠ k := fun he => h (by rw [List.map_cons, he]; exact List.mem_cons_self _ _)
    have h2 : k ∉ rest.map Prod.fst := fun hr =>
      h (by rw [List.map_cons]; exact List.mem_cons_of_mem _ hr)
    rw [addLoop_cons]
    simp only []
    rw [addLoop_find_other max_files now k rest _ h2, addStep_find_other max_files now e m k h1]

/-- Every `stopWatching` of the second loop is on a record whose prefix is a
key of the scan result. -/
theorem addLoop_stop_pfx (max_files : Nat) (now : Int) (x : LogFileInfo) :
    ∀ (rest : List (String × LogFileInfo)) (m : PrefixLogFileInfoMap),
      KeysArePrefixes m → KeysArePrefixes rest →
      Event.stopWatching x ∈ (addLoop max_files now rest m).2 → x.pfx ∈ rest.map Prod.fst
  | [], m, _, _, h => by simp [addLoop] at h
  | e :: rest, m, hm, hr, h => by
    rw [addLoop_cons] at h
    have he : e.2.pfx = e.1 := hr e (List.mem_cons_self _ _)
    have hr2 : KeysArePrefixes rest := fun y hy => hr y (List.mem_cons_of_mem _ hy)
    rcases List.mem_append.1 h with h1 | h1
    · have hf := addStep_stop max_files now e m x h1
      have := hm (e.1, x) (mapFind_some_mem m e.1 x hf)
      simp only [] at this
      rw [this]; simp
    · have := addLoop_stop_pfx max_files now x rest _
        (addStep_prefixes max_files now e m hm he) hr2 h1
      rw [List.map_cons]; exact List.mem_cons_of_mem _ this

/-- The number of `stopWatching` events of the first loop on the record of a
key: one when the key is removed, none otherwise. -/
theorem count_stop_removeLoop (m : PrefixLogFileInfoMap) (hm : KeysArePrefixes m)
    (k : String) (v : LogFileInfo) (hv : mapFind m k = some v) :
    ∀ (ks : List String), ks.Nodup →
      List.count (Event.stopWatching v)
        (ks.filterMap (fun k2 => (mapFind m k2).map LogFileInfo.stopWatching)) =
      if k ∈ ks then 1 else 0
  | [], _ => by simp
  | a :: ks, hnd => by
    have hnd2 : a ∉ ks ∧ ks.Nodup := by simpa using hnd
    have ih := count_stop_removeLoop m hm k v hv ks hnd2.2
    have hvp : v.pfx = k := hm (k, v) (mapFind_some_mem m k v hv)
    by_cases hak : a = k
    · subst hak
      rw [if_neg hnd2.1] at ih
      simp [List.filterMap_cons, hv, LogFileInfo.stopWatching] at ih ⊢
      exact ih
    · have hiff : k ∈ a :: ks ↔ k ∈ ks := by
        constructor
        · intro h
          rcases List.mem_cons.1 h with h | h
          · exact absurd h.symm hak
          · exact h
        · intro h; exact List.mem_cons_of_mem _ h
      have hrhs : (if k ∈ a :: ks then 1 else 0) = (if k ∈ ks then (1 : Nat) else 0) :=
        if_congr hiff rfl rfl
      rw [hrhs, ← ih]
      cases ha : mapFind m a with
      | none => simp [List.filterMap_cons, ha]
      | some w =>
        have hwp : w.pfx = a := hm (a, w) (mapFind_some_mem m a w ha)
        have hne : ¬ w = v := by
          intro h; rw [h, hvp] at hwp; exact hak hwp.symm
        simp [List.filterMap_cons, ha, LogFileInfo.stopWatching, List.count_cons, hne]

/-- The second loop on a scan result that maps `A` to a record with another
path than the record of `A` in the map: the old record is stopped, the new one
is started right after, and the map holds the new record for `A`. -/
theorem addLoop_rotates (max_files : Nat) (now : Int) (A : String) (f1 f2 : LogFileInfo)
    (hp : f1.path ≠ f2.path) :
    ∀ (rest : List (String × LogFileInfo)) (m : PrefixLogFileInfoMap),
      KeysNodup rest → mapFind rest A = some f2 → mapFind m A = some f1 →
      (∃ pre post rewind, (addLoop max_files now rest m).2 =
        pre ++ Event.stopWatching f1 :: Event.startWatching f2 rewind :: post) ∧
      mapFind (addLoop max_files now rest m).1 A = some (f2.startWatching now).1
  | [], m, _, h2, _ => by simp [mapFind] at h2
  | e :: rest, m, hnd, h2, h1 => by
    have hnd2 : (e.1 ∉ rest.map Prod.fst) ∧ KeysNodup rest := by
      simpa [KeysNodup] using hnd
    rw [addLoop_cons]
    by_cases he : e.1 = A
    · have he2 : e.2 = f2 := by simpa [mapFind, he] using h2
      have hA : A ∉ rest.map Prod.fst := by rw [← he]; exact hnd2.1
      have h1e : mapFind m e.1 = some f1 := by rw [he]; exact h1
      obtain ⟨rewind, hrw⟩ := startWatching_event f2 now
      rw [addStep_rotate max_files now e m f1 h1e (by rw [he2]; exact hp)]
      simp only []
      constructor
      · refine ⟨[], (addLoop max_files now rest
          (mapInsertOrAssign m e.1 (e.2.startWatching now).1)).2, rewind, ?_⟩
        rw [he2, hrw]; rfl
      · rw [addLoop_find_other max_files now A rest _ hA, mapFind_mapInsertOrAssign,
          if_pos he, he2]
    · have h2r : mapFind rest A = some f2 := by simpa [mapFind, he] using h2
      have h1s : mapFind (addStep max_files now e m).1 A = some f1 := by
        rw [addStep_find_other max_files now e m A he]; exact h1
      obtain ⟨⟨pre, post, rewind, hev⟩, hfind⟩ :=
        addLoop_rotates max_files now A f1 f2 hp rest _ hnd2.2 h2r h1s
      refine ⟨⟨(addStep max_files now e m).2 ++ pre, post, rewind, ?_⟩, hfind⟩
      simp only []
      rw [hev, List.append_assoc]

/-- C6: when the registry maps `A` to `f1` and the scan result maps `A` to `f2`
with another path, `updateLogFilesMap` calls `stopWatching` on `f1` and then
`startWatching` on `f2`; afterwards the registry maps `A` to `f2` (in its state
after `startWatching`, with the path of `f2`), and the rotation step leaves
the keys and the number of entries of the registry as they were. -/
theorem updateLogFilesMap_rotates (oldMap newMap : PrefixLogFileInfoMap) (max_files : Nat)
    (now : Int) (A : String) (f1 f2 : LogFileInfo)
    (hnew : KeysNodup newMap)
    (h1 : mapFind oldMap A = some f1) (h2 : mapFind newMap A = some f2)
    (hp : f1.path ≠ f2.path) :
    (∃ pre post rewind, (updateLogFilesMap oldMap newMap max_files now).2 =
      pre ++ Event.stopWatching f1 :: Event.startWatching f2 rewind :: post) ∧
    mapFind (updateLogFilesMap oldMap newMap max_files now).1 A =
      some (f2.startWatching now).1 ∧
    (f2.startWatching now).1.path = f2.path ∧
    (∀ m : PrefixLogFileInfoMap, mapFind m A = some f1 →
      (addStep max_files now (A, f2) m).1.length = m.length ∧
      (addStep max_files now (A, f2) m).1.map Prod.fst = m.map Prod.fst) := by
  have hA : A ∈ newMap.map Prod.fst := mapFind_mem_keys newMap A f2 h2
  have hkeep : mapFind (removeLoop (removedKeys oldMap newMap) oldMap).1 A = some f1 := by
    rw [removeLoop_map, mapFind_filter oldMap (fun k => decide (k ∉ removedKeys oldMap newMap)) A]
    have : A ∉ removedKeys oldMap newMap := by
      rw [mem_removedKeys]; exact fun h => h.2 hA
    simp [this, h1]
  obtain ⟨⟨pre, post, rewind, hev⟩, hfind⟩ :=
    addLoop_rotates max_files now A f1 f2 hp newMap _ hnew h2 hkeep
  refine ⟨⟨(removeLoop (removedKeys oldMap newMap) oldMap).2 ++ pre, post, rewind, ?_⟩, hfind,
    (startWatching_pfx_path f2 now).2, ?_⟩
  · unfold updateLogFilesMap
    simp only []
    rw [hev, List.append_assoc]
  · intro m hm
    have hk := keys_mapInsertOrAssign m A (f2.startWatching now).1 (mapFind_mem_keys m A f1 hm)
    rw [addStep_rotate max_files now (A, f2) m f1 hm hp]
    exact ⟨by simpa using congrArg List.length hk, hk⟩

/-- C6, witness: the registry maps "a" to the file f1 and "b" to g, the scan
maps "a" to f2. -/
theorem updateLogFilesMap_rotates_witness :
    updateLogFilesMap [("a", ⟨"a", "f1", 0, 0, 10, 10⟩), ("b", ⟨"b", "g", 0, 0, 10, 10⟩)]
        [("a", ⟨"a", "f2", 0, 0, 10, 10⟩)] 2 100 =
      ([("a", ⟨"a", "f2", 0, 0, 10, 10⟩)],
        [Event.stopWatching ⟨"b", "g", 0, 0, 10, 10⟩,
         Event.stopWatching ⟨"a", "f1", 0, 0, 10, 10⟩,
         Event.startWatching ⟨"a", "f2", 0, 0, 10, 10⟩ false]) ∧
    mapFind (updateLogFilesMap
        [("a", ⟨"a", "f1", 0, 0, 10, 10⟩), ("b", ⟨"b", "g", 0, 0, 10, 10⟩)]
        [("a", ⟨"a", "f2", 0, 0, 10, 10⟩)] 2 100).1 "a" =
      some ((⟨"a", "f2", 0, 0, 10, 10⟩ : LogFileInfo).startWatching 100).1 :=
  ⟨by decide,
   (updateLogFilesMap_rotates
      [("a", ⟨"a", "f1", 0, 0, 10, 10⟩), ("b", ⟨"b", "g", 0, 0, 10, 10⟩)]
      [("a", ⟨"a", "f2", 0, 0, 10, 10⟩)] 2 100 "a" ⟨"a", "f1", 0, 0, 10, 10⟩
      ⟨"a", "f2", 0, 0, 10, 10⟩ (by decide) (by decide) (by decide) (by decide)).2.1⟩

/-- C7: after `updateLogFilesMap`, for every prefix of the registry that the
scan result does not hold, `stopWatching` was called on its record exactly once
and the prefix is no longer a key; no prefix that the scan result holds is
evicted. -/
theorem updateLogFilesMap_removes_vanished (oldMap newMap : PrefixLogFileInfoMap)
    (max_files : Nat) (now : Int)
    (hold : KeysNodup oldMap) (hpo : KeysArePrefixes oldMap) (hpn : KeysArePrefixes newMap) :
    (∀ (k : String) (v : LogFileInfo), (k, v) ∈ oldMap → k ∉ newMap.map Prod.fst →
      List.count (Event.stopWatching v) (updateLogFilesMap oldMap newMap max_files now).2 = 1 ∧
      k ∉ (updateLogFilesMap oldMap newMap max_files now).1.map Prod.fst) ∧
    (∀ k : String, k ∈ oldMap.map Prod.fst → k ∈ newMap.map Prod.fst →
      k ∈ (updateLogFilesMap oldMap newMap max_files now).1.map Prod.fst) := by
  have hmap := removeLoop_map (removedKeys oldMap newMap) oldMap
  have hevs := removeLoop_events (removedKeys oldMap newMap) oldMap
    (nodup_removedKeys oldMap newMap)
  have hp1 : KeysArePrefixes (removeLoop (removedKeys oldMap newMap) oldMap).1 := by
    rw [hmap]
    intro e he
    exact hpo e (List.mem_filter.1 he).1
  constructor
  · intro k v hkv hk
    have hkold : k ∈ oldMap.map Prod.fst := List.mem_map.2 ⟨(k, v), hkv, rfl⟩
    have hrem : k ∈ removedKeys oldMap newMap := (mem_removedKeys oldMap newMap k).2 ⟨hkold, hk⟩
    have hfind : mapFind oldMap k = some v := mapFind_of_mem oldMap k v hold hkv
    have hvp : v.pfx = k := hpo (k, v) hkv
    constructor
    · unfold updateLogFilesMap
      simp only []
      rw [List.count_append, hevs,
        count_stop_removeLoop oldMap hpo k v hfind _ (nodup_removedKeys oldMap newMap),
        if_pos hrem]
      have : List.count (Event.stopWatching v)
          (addLoop max_files now newMap (removeLoop (removedKeys oldMap newMap) oldMap).1).2
          = 0 := by
        rw [List.count_eq_zero]
        intro hmem
        have := addLoop_stop_pfx max_files now v newMap _ hp1 hpn hmem
        rw [hvp] at this
        exact hk this
      rw [this]
    · intro hmem
      unfold updateLogFilesMap at hmem
      simp only [] at hmem
      rcases addLoop_keys_from max_files now newMap _ k hmem with h | h
      · rw [hmap] at h
        obtain ⟨e, he, hek⟩ := List.mem_map.1 h
        have := (List.mem_filter.1 he).2
        rw [hek] at this
        simp [hrem] at this
      · exact hk h
  · intro k hkold hknew
    unfold updateLogFilesMap
    simp only []
    apply addLoop_keys_mono
    rw [hmap]
    obtain ⟨e, he, hek⟩ := List.mem_map.1 hkold
    refine List.mem_map.2 ⟨e, List.mem_filter.2 ⟨he, ?_⟩, hek⟩
    have : e.1 ∉ removedKeys oldMap newMap := by
      rw [mem_removedKeys, hek]; exact fun h => h.2 hknew
    simp [this]

/-- C7, witness: the registry holds "a", "b" and "c", the scan result holds
"b" only. -/
theorem updateLogFilesMap_removes_vanished_witness :
    List.count (Event.stopWatching ⟨"c", "h", 0, 0, 10, 10⟩)
      (updateLogFilesMap
        [("c", ⟨"c", "h", 0, 0, 10, 10⟩), ("b", ⟨"b", "g", 0, 0, 10, 10⟩),
         ("a", ⟨"a", "f", 0, 0, 10, 10⟩)]
        [("b", ⟨"b", "g", 0, 0, 10, 10⟩)] 3 100).2 = 1 ∧
    "c" ∉ (updateLogFilesMap
        [("c", ⟨"c", "h", 0, 0, 10, 10⟩), ("b", ⟨"b", "g", 0, 0, 10, 10⟩),
         ("a", ⟨"a", "f", 0, 0, 10, 10⟩)]
        [("b", ⟨"b", "g", 0, 0, 10, 10⟩)] 3 100).1.map Prod.fst ∧
    updateLogFilesMap
        [("c", ⟨"c", "h", 0, 0, 10, 10⟩), ("b", ⟨"b", "g", 0, 0, 10, 10⟩),
         ("a", ⟨"a", "f", 0, 0, 10, 10⟩)]
        [("b", ⟨"b", "g", 0, 0, 10, 10⟩)] 3 100 =
      ([("b", ⟨"b", "g", 0, 0, 10, 10⟩)],
        [Event.stopWatching ⟨"a", "f", 0, 0, 10, 10⟩,
         Event.stopWatching ⟨"c", "h", 0, 0, 10, 10⟩]) :=
  ⟨((updateLogFilesMap_removes_vanished
      [("c", ⟨"c", "h", 0, 0, 10, 10⟩), ("b", ⟨"b", "g", 0, 0, 10, 10⟩),
       ("a", ⟨"a", "f", 0, 0, 10, 10⟩)]
      [("b", ⟨"b", "g", 0, 0, 10, 10⟩)] 3 100 (by decide)
      (by decide) (by decide)).1 "c" ⟨"c", "h", 0, 0, 10, 10⟩
      (by simp) (by decide)).1,
   ((updateLogFilesMap_removes_vanished
      [("c", ⟨"c", "h", 0, 0, 10, 10⟩), ("b", ⟨"b", "g", 0, 0, 10, 10⟩),
       ("a", ⟨"a", "f", 0, 0, 10, 10⟩)]
      [("b", ⟨"b", "g", 0, 0, 10, 10⟩)] 3 100 (by decide)
      (by decide) (by decide)).1 "c" ⟨"c", "h", 0, 0, 10, 10⟩
      (by simp) (by decide)).2,
   by decide⟩

theorem updateLogFilesMap_length_le (oldMap newMap : PrefixLogFileInfoMap) (max_files : Nat)
    (now : Int) (h : oldMap.length ≤ max_files) :
    (updateLogFilesMap oldMap newMap max_files now).1.length ≤ max_files := by
  unfold updateLogFilesMap
  simp only []
  apply addLoop_length_le
  rw [removeLoop_map]
  exact le_trans (List.length_filter_le _ _) h

theorem tailAllFiles_length (pbeep_regex : Option (List Char → Bool))
    (probe : String → FileProbe) :
    ∀ (m : PrefixLogFileInfoMap), (tailAllFiles pbeep_regex probe m).1.length = m.length
  | [] => rfl
  | entry :: rest => by
    have ih := tailAllFiles_length pbeep_regex probe rest
    unfold tailAllFiles
    simp only []
    split
    · split <;> simp [ih]
    · simp [ih]

theorem workerIteration_length_le (opts : Options) (env : IterationEnv)
    (pmap : PrefixLogFileInfoMap) (h : pmap.length ≤ opts.max_files) :
    (workerIteration opts env pmap).pmap.length ≤ opts.max_files := by
  unfold workerIteration
  split
  · simp only []
    split
    · exact h
    · split
      · simp only [tailAllFiles_length]
        exact updateLogFilesMap_length_le _ _ _ _ h
      · simp only [tailAllFiles_length]
        exact h
  · exact h

theorem workerLoop_length_le (opts : Options) :
    ∀ (envs : List IterationEnv) (pmap : PrefixLogFileInfoMap),
      pmap.length ≤ opts.max_files →
      ∀ r ∈ workerLoop opts envs pmap, r.pmap.length ≤ opts.max_files
  | [], _, _, r, hr => by simp [workerLoop] at hr
  | env :: rest, pmap, h, r, hr => by
    have hstep := workerIteration_length_le opts env pmap h
    unfold workerLoop at hr
    simp only [] at hr
    split at hr
    · rcases List.mem_cons.1 hr with h1 | h1
      · rw [h1]; exact hstep
      · exact workerLoop_length_le opts rest _ hstep r h1
    · have : r = workerIteration opts env pmap := by simpa using hr
      rw [this]; exact hstep

theorem collectInitialLogFiles_some (filename_regex : String → Option String)
    (entries : List DirEntry) (max_files : Nat) (now : Int) (reg : PrefixLogFileInfoMap)
    (h : (collectInitialLogFiles filename_regex entries max_files now).1 = some reg) :
    reg.length = (collectLogFiles filename_regex entries).length ∧
    reg.length ≤ max_files := by
  unfold collectInitialLogFiles at h
  simp only [] at h
  by_cases hle : (collectLogFiles filename_regex entries).length ≤ max_files
  · rw [if_pos hle] at h
    by_cases hnil : collectLogFiles filename_regex entries = []
    · rw [if_pos hnil] at h
      have : reg = collectLogFiles filename_regex entries := by simpa using h.symm
      rw [this]; exact ⟨rfl, hle⟩
    · rw [if_neg hnil] at h
      have : reg = (collectLogFiles filename_regex entries).map
          (fun e => (e.1, (e.2.startWatching now).1)) := by simpa using h.symm
      rw [this, List.length_map]; exact ⟨rfl, hle⟩
  · rw [if_neg hle] at h
    simp at h

theorem collectInitialLogFiles_none (filename_regex : String → Option String)
    (entries : List DirEntry) (max_files : Nat) (now : Int)
    (h : max_files < (collectLogFiles filename_regex entries).length) :
    (collectInitialLogFiles filename_regex entries max_files now).1 = none := by
  unfold collectInitialLogFiles
  have : ¬ (collectLogFiles filename_regex entries).length ≤ max_files := by omega
  simp only [this, if_false]

/-- C8: the registry never holds more than `max_files` entries.  A registry
returned by `collectInitialLogFiles` has at most `max_files` entries; a scan
with more prefixes yields no registry and the worker runs no loop iteration;
`updateLogFilesMap` keeps the bound for every scan result; and so the registry
of every iteration of the worker loop is within the bound. -/
theorem registry_size_le_max_files :
    (∀ (filename_regex : String → Option String) (entries : List DirEntry) (max_files : Nat)
      (now : Int) (reg : PrefixLogFileInfoMap),
      (collectInitialLogFiles filename_regex entries max_files now).1 = some reg →
      reg.length ≤ max_files) ∧
    (∀ (opts : Options) (entries : List DirEntry) (now : Int) (envs : List IterationEnv),
      opts.max_files < (collectLogFiles opts.filename_regex entries).length →
      (collectInitialLogFiles opts.filename_regex entries opts.max_files now).1 = none ∧
      (workerThreadProc opts entries now envs).2 = []) ∧
    (∀ (oldMap newMap : PrefixLogFileInfoMap) (max_files : Nat) (now : Int),
      oldMap.length ≤ max_files →
      (updateLogFilesMap oldMap newMap max_files now).1.length ≤ max_files) ∧
    (∀ (opts : Options) (entries : List DirEntry) (now : Int) (envs : List IterationEnv),
      ∀ r ∈ (workerThreadProc opts entries now envs).2, r.pmap.length ≤ opts.max_files) := by
  refine ⟨?_, ?_, ?_, ?_⟩
  · intro rx entries max_files now reg h
    exact (collectInitialLogFiles_some rx entries max_files now reg h).2
  · intro opts entries now envs h
    have hn := collectInitialLogFiles_none opts.filename_regex entries opts.max_files now h
    refine ⟨hn, ?_⟩
    unfold workerThreadProc
    simp only [hn]
  · intro oldMap newMap max_files now h
    exact updateLogFilesMap_length_le oldMap newMap max_files now h
  · intro opts entries now envs r hr
    unfold workerThreadProc at hr
    simp only [] at hr
    cases hc : (collectInitialLogFiles opts.filename_regex entries opts.max_files now).1 with
    | none => rw [hc] at hr; simp at hr
    | some reg =>
      rw [hc] at hr
      exact workerLoop_length_le opts envs reg
        (collectInitialLogFiles_some _ _ _ _ reg hc).2 r hr

/-- C8, witness: a registry of two entries at `max_files = 2`, reconciled with
a scan result that holds a third prefix, keeps two entries. -/
theorem registry_size_le_max_files_witness :
    (updateLogFilesMap
      [("a", ⟨"a", "f", 0, 0, 10, 10⟩), ("b", ⟨"b", "g", 0, 0, 10, 10⟩)]
      [("a", ⟨"a", "f", 0, 0, 10, 10⟩), ("b", ⟨"b", "g", 0, 0, 10, 10⟩),
       ("c", ⟨"c", "h", 0, 0, 10, 10⟩)] 2 100).1.length ≤ 2 :=
  registry_size_le_max_files.2.2.1 _ _ 2 100 (by decide)

/-- The second loop on a full map: no key is added, every new prefix gets a
notice, and `startWatching` is called only on records of known prefixes. -/
theorem addLoop_at_capacity (max_files : Nat) (now : Int) :
    ∀ (rest : List (String × LogFileInfo)) (m : PrefixLogFileInfoMap),
      max_files ≤ m.length →
      (addLoop max_files now rest m).1.map Prod.fst = m.map Prod.fst ∧
      (addLoop max_files now rest m).2.filter Event.isLimitReached =
        (rest.filter (fun e => decide (e.1 ∉ m.map Prod.fst))).map
          (fun e => Event.limitReached max_files e.2) ∧
      ∀ x rewind, Event.startWatching x rewind ∈ (addLoop max_files now rest m).2 →
        ∃ e ∈ rest, e.2 = x ∧ e.1 ∈ m.map Prod.fst
  | [], m, _ => by simp [addLoop]
  | e :: rest, m, hcap => by
    obtain ⟨rw, hrw⟩ := startWatching_event e.2 now
    rw [addLoop_cons]
    simp only []
    rcases addStep_cases max_files now e m with ⟨_, h2, _⟩ | ⟨h1, _, h3⟩ | ⟨old, h1, _, h3⟩ |
      ⟨old, h1, _, h3⟩
    · omega
    · obtain ⟨ih1, ih2, ih3⟩ := addLoop_at_capacity max_files now rest m hcap
      have hk : e.1 ∉ m.map Prod.fst := (mapFind_eq_none_iff m e.1).1 h1
      rw [h3]
      refine ⟨ih1, ?_, ?_⟩
      · simp only [List.cons_append, List.nil_append]
        rw [List.filter_cons_of_pos (by rfl), ih2, List.filter_cons_of_pos (by simpa using hk)]
        rfl
      · intro x rewind hx
        simp only [List.cons_append, List.nil_append] at hx
        rcases List.mem_cons.1 hx with h | h
        · cases h
        · obtain ⟨e2, he2, h4, h5⟩ := ih3 x rewind h
          exact ⟨e2, List.mem_cons_of_mem _ he2, h4, h5⟩
    · have hkeys := keys_mapInsertOrAssign m e.1 (e.2.startWatching now).1
        (mapFind_mem_keys m e.1 old h1)
      have hlen : max_files ≤ (mapInsertOrAssign m e.1 (e.2.startWatching now).1).length := by
        have := congrArg List.length hkeys
        simp only [List.length_map] at this
        omega
      obtain ⟨ih1, ih2, ih3⟩ := addLoop_at_capacity max_files now rest _ hlen
      have hk : e.1 ∈ m.map Prod.fst := mapFind_mem_keys m e.1 old h1
      rw [h3]
      rw [hkeys] at ih1 ih2 ih3
      refine ⟨ih1, ?_, ?_⟩
      · simp only [List.cons_append, List.nil_append, hrw, LogFileInfo.stopWatching]
        rw [List.filter_cons_of_neg (by simp [Event.isLimitReached]),
          List.filter_cons_of_neg (by simp [Event.isLimitReached]), ih2,
          List.filter_cons_of_neg (by simpa using hk)]
      · intro x rewind hx
        simp only [List.cons_append, List.nil_append, hrw, LogFileInfo.stopWatching] at hx
        rcases List.mem_cons.1 hx with h | h
        · cases h
        · rcases List.mem_cons.1 h with h' | h'
          · have : x = e.2 := by cases h'; rfl
            exact ⟨e, List.mem_cons_self _ _, this.symm, hk⟩
          · obtain ⟨e2, he2, h4, h5⟩ := ih3 x rewind h'
            exact ⟨e2, List.mem_cons_of_mem _ he2, h4, h5⟩
    · obtain ⟨ih1, ih2, ih3⟩ := addLoop_at_capacity max_files now rest m hcap
      have hk : e.1 ∈ m.map Prod.fst := mapFind_mem_keys m e.1 old h1
      rw [h3]
      refine ⟨ih1, ?_, ?_⟩
      · simp only [List.nil_append]
        rw [ih2, List.filter_cons_of_neg (by simpa using hk)]
      · intro x rewind hx
        simp only [List.nil_append] at hx
        obtain ⟨e2, he2, h4, h5⟩ := ih3 x rewind hx
        exact ⟨e2, List.mem_cons_of_mem _ he2, h4, h5⟩

/-- C9: when the registry is at capacity and all its prefixes appear in the
scan result, `updateLogFilesMap` keeps the keys of the registry as they are:
no entry of the scan result with a new prefix is added, `startWatching` is
called on none of their records, and the notices "monitoring limit reached"
are exactly one per such entry, in the order of the scan result. -/
theorem updateLogFilesMap_at_capacity (oldMap newMap : PrefixLogFileInfoMap)
    (max_files : Nat) (now : Int)
    (hcap : oldMap.length = max_files)
    (hkeep : ∀ k ∈ oldMap.map Prod.fst, k ∈ newMap.map Prod.fst)
    (hpn : KeysArePrefixes newMap) :
    (updateLogFilesMap oldMap newMap max_files now).1.map Prod.fst = oldMap.map Prod.fst ∧
    (∀ e ∈ newMap, e.1 ∉ oldMap.map Prod.fst →
      mapFind (updateLogFilesMap oldMap newMap max_files now).1 e.1 = none ∧
      ∀ rewind, Event.startWatching e.2 rewind ∉
        (updateLogFilesMap oldMap newMap max_files now).2) ∧
    (updateLogFilesMap oldMap newMap max_files now).2.filter Event.isLimitReached =
      (newMap.filter (fun e => decide (e.1 ∉ oldMap.map Prod.fst))).map
        (fun e => Event.limitReached max_files e.2) ∧
    ((updateLogFilesMap oldMap newMap max_files now).2.filter Event.isLimitReached).length =
      (newMap.filter (fun e => decide (e.1 ∉ oldMap.map Prod.fst))).length := by
  have hrem : removedKeys oldMap newMap = [] := by
    rw [List.eq_nil_iff_forall_not_mem]
    intro k hk
    rw [mem_removedKeys] at hk
    exact hk.2 (hkeep k hk.1)
  have hupd : updateLogFilesMap oldMap newMap max_files now =
      addLoop max_files now newMap oldMap := by
    unfold updateLogFilesMap
    rw [hrem]
    simp [removeLoop]
  obtain ⟨h1, h2, h3⟩ := addLoop_at_capacity max_files now newMap oldMap (by omega)
  rw [hupd]
  refine ⟨h1, ?_, h2, by rw [h2, List.length_map]⟩
  intro e he hnk
  constructor
  · rw [mapFind_eq_none_iff, h1]; exact hnk
  · intro rewind hmem
    obtain ⟨e2, he2, h4, h5⟩ := h3 e.2 rewind hmem
    have hp1 := hpn e he
    have hp2 := hpn e2 he2
    rw [h4, hp1] at hp2
    rw [hp2] at hnk
    exact hnk h5

/-- C9, witness: `max_files = 2`, a registry with the prefixes "a" and "b", and
a scan result that holds both and the three new prefixes "c", "d" and "e":
the registry is unchanged and three notices are emitted. -/
theorem updateLogFilesMap_at_capacity_witness :
    updateLogFilesMap
      [("a", ⟨"a", "f", 0, 0, 10, 10⟩), ("b", ⟨"b", "g", 0, 0, 10, 10⟩)]
      [("c", ⟨"c", "h", 0, 0, 10, 10⟩), ("a", ⟨"a", "f", 0, 0, 10, 10⟩),
       ("d", ⟨"d", "i", 0, 0, 10, 10⟩), ("b", ⟨"b", "g", 0, 0, 10, 10⟩),
       ("e", ⟨"e", "j", 0, 0, 10, 10⟩)] 2 100 =
      ([("a", ⟨"a", "f", 0, 0, 10, 10⟩), ("b", ⟨"b", "g", 0, 0, 10, 10⟩)],
        [Event.limitReached 2 ⟨"c", "h", 0, 0, 10, 10⟩,
         Event.limitReached 2 ⟨"d", "i", 0, 0, 10, 10⟩,
         Event.limitReached 2 ⟨"e", "j", 0, 0, 10, 10⟩]) ∧
    ((updateLogFilesMap
      [("a", ⟨"a", "f", 0, 0, 10, 10⟩), ("b", ⟨"b", "g", 0, 0, 10, 10⟩)]
      [("c", ⟨"c", "h", 0, 0, 10, 10⟩), ("a", ⟨"a", "f", 0, 0, 10, 10⟩),
       ("d", ⟨"d", "i", 0, 0, 10, 10⟩), ("b", ⟨"b", "g", 0, 0, 10, 10⟩),
       ("e", ⟨"e", "j", 0, 0, 10, 10⟩)] 2 100).2.filter Event.isLimitReached).length = 3 :=
  ⟨by decide,
   (updateLogFilesMap_at_capacity
      [("a", ⟨"a", "f", 0, 0, 10, 10⟩), ("b", ⟨"b", "g", 0, 0, 10, 10⟩)]
      [("c", ⟨"c", "h", 0, 0, 10, 10⟩), ("a", ⟨"a", "f", 0, 0, 10, 10⟩),
       ("d", ⟨"d", "i", 0, 0, 10, 10⟩), ("b", ⟨"b", "g", 0, 0, 10, 10⟩),
       ("e", ⟨"e", "j", 0, 0, 10, 10⟩)] 2 100 (by decide) (by decide) (by decide)).2.2.2.trans
     (by decide)⟩

/-! ## Maps of the program are well formed

The hypotheses `KeysNodup` and `KeysArePrefixes` of the theorems above hold for
every map that the program builds: for the result of a scan, and for the
registry after every reconciliation and every tail pass. -/

theorem construct_pfx_path (prefixStr filePath : String) (fileData : Option FileAttributeData) :
    (LogFileInfo.construct prefixStr filePath fileData).pfx = prefixStr ∧
    (LogFileInfo.construct prefixStr filePath fileData).path = filePath := by
  cases fileData <;> exact ⟨rfl, rfl⟩

theorem groupInsert_members (g : List (String × List LogFileInfo)) (key : String)
    (info : LogFileInfo) (hinfo : info.pfx = key) (h : ∀ e ∈ g, ∀ x ∈ e.2, x.pfx = e.1) :
    ∀ e ∈ groupInsert g key info, ∀ x ∈ e.2, x.pfx = e.1 := by
  induction g with
  | nil =>
    intro e he x hx
    simp [groupInsert] at he
    rw [he] at hx ⊢
    simp at hx
    rw [hx]; exact hinfo
  | cons y rest ih =>
    intro e he x hx
    by_cases hy : y.1 = key
    · simp only [groupInsert, hy, if_true] at he
      rcases List.mem_cons.1 he with h1 | h1
      · rw [h1] at hx ⊢
        simp only [] at hx ⊢
        rcases List.mem_append.1 hx with h2 | h2
        · rw [← hy]; exact h y (List.mem_cons_self _ _) x h2
        · have : x = info := by simpa using h2
          rw [this]; exact hinfo
      · exact h e (List.mem_cons_of_mem _ h1) x hx
    · simp only [groupInsert, hy, if_false] at he
      rcases List.mem_cons.1 he with h1 | h1
      · rw [h1] at hx ⊢; exact h y (List.mem_cons_self _ _) x hx
      · exact ih (fun e he => h e (List.mem_cons_of_mem _ he)) e h1 x hx

theorem collectGroups_members (filename_regex : String → Option String) :
    ∀ (entries : List DirEntry) (g : List (String × List LogFileInfo)),
      (∀ e ∈ g, ∀ x ∈ e.2, x.pfx = e.1) →
      ∀ e ∈ collectGroups filename_regex entries g, ∀ x ∈ e.2, x.pfx = e.1
  | [], g, h => h
  | entry :: rest, g, h => by
    unfold collectGroups
    split
    · split
      · split
        · exact collectGroups_members filename_regex rest _
            (groupInsert_members g _ _ (construct_pfx_path _ _ _).1 h)
        · exact collectGroups_members filename_regex rest g h
      · exact collectGroups_members filename_regex rest g h
    · exact collectGroups_members filename_regex rest g h

theorem mem_mapEmplace {β : Type} (m : List (String × β)) (key : String) (value : β)
    (x : String × β) (h : x ∈ mapEmplace m key value) : x ∈ m ∨ x = (key, value) := by
  unfold mapEmplace at h
  cases hf : mapFind m key with
  | none =>
    rw [hf] at h
    simp only [] at h
    rcases List.mem_append.1 h with h1 | h1
    · exact Or.inl h1
    · exact Or.inr (by simpa using h1)
  | some v => rw [hf] at h; exact Or.inl h

theorem pickNewest_members :
    ∀ (g : List (String × List LogFileInfo)) (pmap : PrefixLogFileInfoMap),
      ∀ y ∈ pickNewest g pmap, y ∈ pmap ∨ ∃ e ∈ g, y.1 = e.1 ∧ y.2 ∈ e.2
  | [], pmap, y, hy => Or.inl hy
  | e :: rest, pmap, y, hy => by
    rw [pickNewest] at hy
    cases hs : sortByCreateTime e.2 with
    | nil =>
      rw [hs] at hy
      rcases pickNewest_members rest pmap y hy with h | ⟨e2, he2, h⟩
      · exact Or.inl h
      · exact Or.inr ⟨e2, List.mem_cons_of_mem _ he2, h⟩
    | cons pinfo tl =>
      rw [hs] at hy
      have hne : e.2 ≠ [] := by
        intro hnil
        rw [hnil] at hs
        simp [sortByCreateTime] at hs
      obtain ⟨cand, tl2, before, after, hs2, hl, _, _⟩ := sortByCreateTime_front e.2 hne
      have hc : cand = pinfo := by
        rw [hs] at hs2
        exact ((List.cons.injEq _ _ _ _).mp hs2).1.symm
      have hmem : pinfo ∈ e.2 := by rw [hl, hc]; simp
      rcases pickNewest_members rest _ y hy with h | ⟨e2, he2, h⟩
      · rcases mem_mapEmplace pmap e.1 pinfo y h with h1 | h1
        · exact Or.inl h1
        · exact Or.inr ⟨e, List.mem_cons_self _ _, by rw [h1], by rw [h1]; exact hmem⟩
      · exact Or.inr ⟨e2, List.mem_cons_of_mem _ he2, h⟩

/-- The result of a scan is a map: no prefix twice, every candidate stored
under its own prefix. -/
theorem collectLogFiles_wellFormed (filename_regex : String → Option String)
    (entries : List DirEntry) :
    KeysNodup (collectLogFiles filename_regex entries) ∧
    KeysArePrefixes (collectLogFiles filename_regex entries) := by
  obtain ⟨hg1, hg2⟩ := collectGroups_inv filename_regex entries []
    (by simp [KeysNodup]) (by simp)
  have hg3 := collectGroups_members filename_regex entries [] (by simp)
  constructor
  · exact (pickNewest_spec (collectGroups filename_regex entries []) [] hg1 hg2
      (by simp [KeysNodup]) (by simp)).1
  · intro y hy
    rcases pickNewest_members _ _ y hy with h | ⟨e, he, h1, h2⟩
    · simp at h
    · rw [h1]; exact hg3 e he y.2 h2

theorem addStep_nodup (max_files : Nat) (now : Int) (e : String × LogFileInfo)
    (m : PrefixLogFileInfoMap) (h : KeysNodup m) : KeysNodup (addStep max_files now e m).1 := by
  unfold KeysNodup at h ⊢
  rcases addStep_keys max_files now e m with h1 | ⟨h0, _, h1⟩
  · rw [h1]; exact h
  · rw [h1, List.nodup_append]
    refine ⟨h, by simp, ?_⟩
    intro a ha hb
    have : a = e.1 := by simpa using hb
    rw [this] at ha
    exact (mapFind_eq_none_iff m e.1).1 h0 ha

theorem addLoop_wellFormed (max_files : Nat) (now : Int) :
    ∀ (rest : List (String × LogFileInfo)) (m : PrefixLogFileInfoMap),
      KeysNodup m → KeysArePrefixes m → KeysArePrefixes rest →
      KeysNodup (addLoop max_files now rest m).1 ∧
      KeysArePrefixes (addLoop max_files now rest m).1
  | [], m, h1, h2, _ => ⟨h1, h2⟩
  | e :: rest, m, h1, h2, h3 => by
    rw [addLoop_cons]
    exact addLoop_wellFormed max_files now rest _ (addStep_nodup max_files now e m h1)
      (addStep_prefixes max_files now e m h2 (h3 e (List.mem_cons_self _ _)))
      (fun y hy => h3 y (List.mem_cons_of_mem _ hy))

/-- Reconciliation keeps the registry a map. -/
theorem updateLogFilesMap_wellFormed (oldMap newMap : PrefixLogFileInfoMap) (max_files : Nat)
    (now : Int) (h1 : KeysNodup oldMap) (h2 : KeysArePrefixes oldMap)
    (h3 : KeysArePrefixes newMap) :
    KeysNodup (updateLogFilesMap oldMap newMap max_files now).1 ∧
    KeysArePrefixes (updateLogFilesMap oldMap newMap max_files now).1 := by
  unfold updateLogFilesMap
  simp only []
  apply addLoop_wellFormed
  · rw [removeLoop_map]
    unfold KeysNodup at h1 ⊢
    exact h1.sublist (List.Sublist.map _ (List.filter_sublist _))
  · rw [removeLoop_map]
    intro e he
    exact h2 e (List.mem_filter.1 he).1
  · exact h3

theorem tailOneFile_pfx_path (info : LogFileInfo) (fileSize : Nat) (writeTime : Int)
    (pbeep_regex : Option (List Char → Bool)) (file : Option (List Char)) :
    (tailOneFile info fileSize writeTime pbeep_regex file).1.pfx = info.pfx ∧
    (tailOneFile info fileSize writeTime pbeep_regex file).1.path = info.path := by
  unfold tailOneFile
  simp only []
  split
  · split
    · exact ⟨rfl, rfl⟩
    · split <;> exact ⟨rfl, rfl⟩
  · exact ⟨rfl, rfl⟩

/-- A tail pass changes neither the keys of the registry nor the prefix and the
path of a record. -/
theorem tailAllFiles_keys (pbeep_regex : Option (List Char → Bool))
    (probe : String → FileProbe) :
    ∀ (m : PrefixLogFileInfoMap),
      (tailAllFiles pbeep_regex probe m).1.map (fun e => (e.1, e.2.pfx, e.2.path)) =
        m.map (fun e => (e.1, e.2.pfx, e.2.path))
  | [] => rfl
  | entry :: rest => by
    have ih := tailAllFiles_keys pbeep_regex probe rest
    unfold tailAllFiles
    simp only []
    split
    · split
      · rename_i fileTime fileSize _ _
        have := tailOneFile_pfx_path entry.2 fileSize (filetime_to_unix_time fileTime)
          pbeep_regex (probe entry.2.path).content
        simp [ih, this.1, this.2]
      · simp [ih]
    · simp [ih]

/-! ## Alerts -/

/-- The events of the read loop are the events of the lines it emits: every
line is followed by a beep exactly when the beep pattern is present and matches
it. -/
theorem tailLoop_events (pfx : String) (pbeep_regex : Option (List Char → Bool)) (fileSize : Nat) :
    ∀ (fuel : Nat) (ifs : IfStream) (pos last : Nat),
      ∃ bufs : List (List Char),
        (tailLoop pfx pbeep_regex fileSize fuel ifs pos last).2 =
          bufs.flatMap (lineEvents pfx pbeep_regex) := by
  intro fuel
  induction fuel with
  | zero => intro ifs pos last; exact ⟨[], rfl⟩
  | succ n ih =>
    intro ifs pos last
    by_cases hp : pos < fileSize
    · by_cases hg : (getline ifs BUFLEN).1.good = true
      · by_cases hpos : pos < (getline ifs BUFLEN).1.gpos
        · rw [tailLoop_line pfx pbeep_regex fileSize n ifs pos last hp hg hpos]
          obtain ⟨bufs, hb⟩ := ih (getline ifs BUFLEN).1 (getline ifs BUFLEN).1.gpos
            (getline ifs BUFLEN).1.gpos
          exact ⟨(getline ifs BUFLEN).2 :: bufs, by simp only [hb, List.flatMap_cons]⟩
        · refine ⟨[], ?_⟩
          rw [tailLoop]
          have ht : ¬ (tellg (getline ifs BUFLEN).1).2 > (pos : Int) := by
            rw [tellg_of_good _ hg]; simp; omega
          simp only [hp, if_true, ht, if_false, List.flatMap_nil]
      · refine ⟨[], ?_⟩
        rw [tailLoop_break pfx pbeep_regex fileSize (n + 1) ifs pos last (by simpa using hg)]
        rfl
    · refine ⟨[], ?_⟩
      rw [tailLoop_done _ _ _ _ _ _ _ hp]
      rfl

/-- The events of `tailOneFile` are the events of the lines it emits. -/
theorem tailOneFile_events (info : LogFileInfo) (fileSize : Nat) (writeTime : Int)
    (pbeep_regex : Option (List Char → Bool)) (file : Option (List Char)) :
    ∃ bufs : List (List Char),
      (tailOneFile info fileSize writeTime pbeep_regex file).2 =
        bufs.flatMap (lineEvents info.pfx pbeep_regex) := by
  unfold tailOneFile
  simp only []
  split
  · split
    · exact ⟨[], rfl⟩
    · split
      · split
        · exact tailLoop_events info.pfx pbeep_regex fileSize _ _ _ _
        · exact ⟨[], rfl⟩
      · exact ⟨[], rfl⟩
  · exact ⟨[], rfl⟩

/-- The number of beeps and the number of matching lines among the events of
some emitted lines are the same. -/
theorem lineEvents_balanced (pfx : String) (rx : List Char → Bool) :
    ∀ (bufs : List (List Char)),
      ((bufs.flatMap (lineEvents pfx (some rx))).filter Event.isBeep).length =
      ((bufs.flatMap (lineEvents pfx (some rx))).filter (Event.isMatchingLine rx)).length
  | [] => rfl
  | l :: bufs => by
    have ih := lineEvents_balanced pfx rx bufs
    rw [List.flatMap_cons, List.filter_append, List.filter_append, List.length_append,
      List.length_append, ih]
    congr 1
    by_cases hm : rx (cString l) = true
    · simp [lineEvents, hm, Event.isBeep, Event.isMatchingLine, List.filter_cons]
    · simp [lineEvents, hm, Event.isBeep, Event.isMatchingLine, List.filter_cons]

/-- Without a beep pattern no emitted line raises a beep. -/
theorem lineEvents_no_beep (pfx : String) :
    ∀ (bufs : List (List Char)),
      (bufs.flatMap (lineEvents pfx none)).filter Event.isBeep = []
  | [] => rfl
  | l :: bufs => by
    rw [List.flatMap_cons, List.filter_append, lineEvents_no_beep pfx bufs]
    simp [lineEvents, Event.isBeep, List.filter_cons]

theorem tailAllFiles_balanced (rx : List Char → Bool) (probe : String → FileProbe) :
    ∀ (m : PrefixLogFileInfoMap),
      ((tailAllFiles (some rx) probe m).2.filter Event.isBeep).length =
      ((tailAllFiles (some rx) probe m).2.filter (Event.isMatchingLine rx)).length
  | [] => rfl
  | entry :: rest => by
    have ih := tailAllFiles_balanced rx probe rest
    unfold tailAllFiles
    simp only []
    split
    · split
      · rename_i fileTime fileSize _ _
        obtain ⟨bufs, hb⟩ := tailOneFile_events entry.2 fileSize
          (filetime_to_unix_time fileTime) (some rx) (probe entry.2.path).content
        simp only []
        rw [hb, List.filter_append, List.filter_append, List.length_append, List.length_append,
          ih, lineEvents_balanced]
      · simpa [List.filter_cons, Event.isBeep, Event.isMatchingLine] using ih
    · simpa [List.filter_cons, Event.isBeep, Event.isMatchingLine] using ih

theorem tailAllFiles_no_beep (probe : String → FileProbe) :
    ∀ (m : PrefixLogFileInfoMap), (tailAllFiles none probe m).2.filter Event.isBeep = []
  | [] => rfl
  | entry :: rest => by
    have ih := tailAllFiles_no_beep probe rest
    unfold tailAllFiles
    simp only []
    split
    · split
      · rename_i fileTime fileSize _ _
        obtain ⟨bufs, hb⟩ := tailOneFile_events entry.2 fileSize
          (filetime_to_unix_time fileTime) none (probe entry.2.path).content
        simp only []
        rw [hb, List.filter_append, ih, lineEvents_no_beep]
        rfl
      · simpa [List.filter_cons, Event.isBeep] using ih
    · simpa [List.filter_cons, Event.isBeep] using ih

theorem removeLoop_quiet : ∀ (ks : List String) (m : PrefixLogFileInfoMap),
    ∀ ev ∈ (removeLoop ks m).2,
      ev.isBeep = false ∧ ∀ rx : List Char → Bool, ev.isMatchingLine rx = false
  | [], m, ev, h => by simp [removeLoop] at h
  | k :: ks, m, ev, h => by
    rw [removeLoop] at h
    simp only [] at h
    rcases List.mem_append.1 h with h1 | h1
    · cases hf : mapFind m k with
      | none => rw [hf] at h1; simp at h1
      | some v =>
        rw [hf] at h1
        have : ev = Event.stopWatching v := by simpa [LogFileInfo.stopWatching] using h1
        rw [this]; exact ⟨rfl, fun _ => rfl⟩
    · exact removeLoop_quiet ks _ ev h1

theorem addStep_quiet (max_files : Nat) (now : Int) (e : String × LogFileInfo)
    (m : PrefixLogFileInfoMap) :
    ∀ ev ∈ (addStep max_files now e m).2,
      ev.isBeep = false ∧ ∀ rx : List Char → Bool, ev.isMatchingLine rx = false := by
  obtain ⟨rw, hrw⟩ := startWatching_event e.2 now
  intro ev h
  rcases addStep_cases max_files now e m with ⟨_, _, h3⟩ | ⟨_, _, h3⟩ | ⟨old, _, _, h3⟩ |
    ⟨old, _, _, h3⟩
  · rw [h3, hrw] at h
    have : ev = Event.startWatching e.2 rw := by simpa using h
    rw [this]; exact ⟨rfl, fun _ => rfl⟩
  · rw [h3] at h
    have : ev = Event.limitReached max_files e.2 := by simpa using h
    rw [this]; exact ⟨rfl, fun _ => rfl⟩
  · rw [h3, hrw] at h
    simp only [LogFileInfo.stopWatching, List.mem_cons, List.mem_singleton, List.not_mem_nil,
      or_false] at h
    rcases h with h | h <;> rw [h] <;> exact ⟨rfl, fun _ => rfl⟩
  · rw [h3] at h; simp at h

theorem addLoop_quiet (max_files : Nat) (now : Int) :
    ∀ (rest : List (String × LogFileInfo)) (m : PrefixLogFileInfoMap),
      ∀ ev ∈ (addLoop max_files now rest m).2,
        ev.isBeep = false ∧ ∀ rx : List Char → Bool, ev.isMatchingLine rx = false
  | [], m, ev, h => by simp [addLoop] at h
  | e :: rest, m, ev, h => by
    rw [addLoop_cons] at h
    rcases List.mem_append.1 h with h1 | h1
    · exact addStep_quiet max_files now e m ev h1
    · exact addLoop_quiet max_files now rest _ ev h1

/-- Reconciliation emits no line and raises no beep. -/
theorem updateLogFilesMap_quiet (oldMap newMap : PrefixLogFileInfoMap) (max_files : Nat)
    (now : Int) :
    ∀ ev ∈ (updateLogFilesMap oldMap newMap max_files now).2,
      ev.isBeep = false ∧ ∀ rx : List Char → Bool, ev.isMatchingLine rx = false := by
  intro ev h
  unfold updateLogFilesMap at h
  simp only [] at h
  rcases List.mem_append.1 h with h1 | h1
  · exact removeLoop_quiet _ _ ev h1
  · exact addLoop_quiet _ _ _ _ ev h1

/-- C11: in every tail cycle the number of `Beep` calls equals the number of
emitted lines that the beep pattern matches when alerting is enabled: the
events of a file are its emitted lines, each followed by one beep exactly when
it matches; with no pattern (alerting disabled: the worker passes a null
pointer) no beep is raised, whatever the files hold. -/
theorem beeps_match_alert_lines :
    (∀ (info : LogFileInfo) (fileSize : Nat) (writeTime : Int)
      (pbeep_regex : Option (List Char → Bool)) (file : Option (List Char)),
      ∃ bufs : List (List Char),
        (tailOneFile info fileSize writeTime pbeep_regex file).2 =
          bufs.flatMap (lineEvents info.pfx pbeep_regex)) ∧
    (∀ (rx : List Char → Bool) (probe : String → FileProbe) (pmap : PrefixLogFileInfoMap),
      ((tailAllFiles (some rx) probe pmap).2.filter Event.isBeep).length =
        ((tailAllFiles (some rx) probe pmap).2.filter (Event.isMatchingLine rx)).length) ∧
    (∀ (probe : String → FileProbe) (pmap : PrefixLogFileInfoMap),
      (tailAllFiles none probe pmap).2.filter Event.isBeep = []) ∧
    (∀ (opts : Options) (env : IterationEnv) (pmap : PrefixLogFileInfoMap),
      opts.beepOnException = true →
      ((workerIteration opts env pmap).events.filter Event.isBeep).length =
        ((workerIteration opts env pmap).events.filter
          (Event.isMatchingLine opts.beep_regex)).length) ∧
    (∀ (opts : Options) (env : IterationEnv) (pmap : PrefixLogFileInfoMap),
      opts.beepOnException = false →
      (workerIteration opts env pmap).events.filter Event.isBeep = []) := by
  refine ⟨tailOneFile_events, tailAllFiles_balanced, tailAllFiles_no_beep, ?_, ?_⟩
  · intro opts env pmap hb
    unfold workerIteration
    split
    · simp only []
      split
      · rfl
      · split
        · have hq := updateLogFilesMap_quiet pmap
            (collectLogFiles opts.filename_regex env.entries) opts.max_files env.now
          have h1 : (updateLogFilesMap pmap (collectLogFiles opts.filename_regex env.entries)
              opts.max_files env.now).2.filter Event.isBeep = [] :=
            List.filter_eq_nil_iff.2 (fun ev hev => by simp [(hq ev hev).1])
          have h2 : (updateLogFilesMap pmap (collectLogFiles opts.filename_regex env.entries)
              opts.max_files env.now).2.filter (Event.isMatchingLine opts.beep_regex) = [] :=
            List.filter_eq_nil_iff.2 (fun ev hev => by simp [(hq ev hev).2 opts.beep_regex])
          simp only [hb, if_true, List.filter_append, h1, h2, List.nil_append]
          exact tailAllFiles_balanced _ _ _
        · simp only [hb, if_true]
          exact tailAllFiles_balanced _ _ _
    · rfl
  · intro opts env pmap hb
    unfold workerIteration
    split
    · simp only []
      split
      · rfl
      · split
        · have hq := updateLogFilesMap_quiet pmap
            (collectLogFiles opts.filename_regex env.entries) opts.max_files env.now
          have h1 : (updateLogFilesMap pmap (collectLogFiles opts.filename_regex env.entries)
              opts.max_files env.now).2.filter Event.isBeep = [] :=
            List.filter_eq_nil_iff.2 (fun ev hev => by simp [(hq ev hev).1])
          simp only [hb, List.filter_append, h1, List.nil_append]
          exact tailAllFiles_no_beep _ _
        · simp only [hb]
          exact tailAllFiles_no_beep _ _
    · rfl

/-- C11, witness: a file gains three lines, of which the first and the last
start with "E"; with the pattern "starts with E" two beeps are raised, one
after each matching line, and with alerting disabled none. -/
theorem beeps_match_alert_lines_witness :
    (tailAllFiles (some (fun l => l.head? == some 'E'))
        (fun _ => ⟨true, some ⟨0, 0⟩, some 9, some "E1\nok\nE2\n".toList⟩)
        [("p", ⟨"p", "f", 0, 0, 0, 0⟩)]).2 =
      [Event.line "p" ['E', '1'], Event.beep, Event.line "p" ['o', 'k'],
       Event.line "p" ['E', '2'], Event.beep] ∧
    ((tailAllFiles (some (fun l => l.head? == some 'E'))
        (fun _ => ⟨true, some ⟨0, 0⟩, some 9, some "E1\nok\nE2\n".toList⟩)
        [("p", ⟨"p", "f", 0, 0, 0, 0⟩)]).2.filter Event.isBeep).length =
      ((tailAllFiles (some (fun l => l.head? == some 'E'))
        (fun _ => ⟨true, some ⟨0, 0⟩, some 9, some "E1\nok\nE2\n".toList⟩)
        [("p", ⟨"p", "f", 0, 0, 0, 0⟩)]).2.filter
          (Event.isMatchingLine (fun l => l.head? == some 'E'))).length ∧
    (tailAllFiles none
        (fun _ => ⟨true, some ⟨0, 0⟩, some 9, some "E1\nok\nE2\n".toList⟩)
        [("p", ⟨"p", "f", 0, 0, 0, 0⟩)]).2 =
      [Event.line "p" ['E', '1'], Event.line "p" ['o', 'k'], Event.line "p" ['E', '2']] :=
  ⟨by decide, beeps_match_alert_lines.2.1 _ _ _, by decide⟩

/-! ## The worker loop -/

/-- C12: one iteration of the worker loop, with `env.signal` the value returned
by the atomic read-and-clear.  When the value has the stop bit the loop ends
with this iteration, with no rescan, no reconciliation and no tail pass, and
the registry is untouched.  Otherwise `collectLogFiles` and
`updateLogFilesMap` run (once each) exactly when the value has the
directory-modified bit, and exactly one `tailAllFiles` pass runs, over the
reconciled registry in that case and over the registry as it was otherwise. -/
theorem workerIteration_protocol (opts : Options) (env : IterationEnv)
    (pmap : PrefixLogFileInfoMap) (hloop : env.globalData = true) :
    (env.signal &&& STOP_MONITORING ≠ 0 →
      (workerIteration opts env pmap).continues = false ∧
      (workerIteration opts env pmap).rescans = 0 ∧
      (workerIteration opts env pmap).reconciliations = 0 ∧
      (workerIteration opts env pmap).tailPasses = 0 ∧
      (workerIteration opts env pmap).pmap = pmap ∧
      (workerIteration opts env pmap).events = [] ∧
      ∀ rest : List IterationEnv,
        workerLoop opts (env :: rest) pmap = [workerIteration opts env pmap]) ∧
    (env.signal &&& STOP_MONITORING = 0 →
      (workerIteration opts env pmap).tailPasses = 1 ∧
      ((workerIteration opts env pmap).rescans = 1 ↔ env.signal &&& DIRECTORY_MODIFIED ≠ 0) ∧
      ((workerIteration opts env pmap).reconciliations = 1 ↔
        env.signal &&& DIRECTORY_MODIFIED ≠ 0) ∧
      (env.signal &&& DIRECTORY_MODIFIED ≠ 0 →
        (workerIteration opts env pmap).pmap =
          (tailAllFiles (if opts.beepOnException then some opts.beep_regex else none) env.probe
            (updateLogFilesMap pmap (collectLogFiles opts.filename_regex env.entries)
              opts.max_files env.now).1).1 ∧
        (workerIteration opts env pmap).events =
          (updateLogFilesMap pmap (collectLogFiles opts.filename_regex env.entries)
              opts.max_files env.now).2 ++
          (tailAllFiles (if opts.beepOnException then some opts.beep_regex else none) env.probe
            (updateLogFilesMap pmap (collectLogFiles opts.filename_regex env.entries)
              opts.max_files env.now).1).2) ∧
      (env.signal &&& DIRECTORY_MODIFIED = 0 →
        (workerIteration opts env pmap).rescans = 0 ∧
        (workerIteration opts env pmap).reconciliations = 0 ∧
        (workerIteration opts env pmap).pmap =
          (tailAllFiles (if opts.beepOnException then some opts.beep_regex else none) env.probe
            pmap).1 ∧
        (workerIteration opts env pmap).events =
          (tailAllFiles (if opts.beepOnException then some opts.beep_regex else none) env.probe
            pmap).2)) := by
  constructor
  · intro hstop
    have hiter : workerIteration opts env pmap =
        { pmap := pmap, events := [], rescans := 0, reconciliations := 0, tailPasses := 0,
          continues := false } := by
      unfold workerIteration
      rw [if_pos hloop]
      simp only []
      rw [if_pos hstop]
    refine ⟨by rw [hiter], by rw [hiter], by rw [hiter], by rw [hiter], by rw [hiter],
      by rw [hiter], ?_⟩
    intro rest
    rw [workerLoop]
    simp only [hiter, Bool.false_eq_true, if_false]
  · intro hgo
    have hgo2 : ¬ env.signal &&& STOP_MONITORING ≠ 0 := by simpa using hgo
    by_cases hdir : env.signal &&& DIRECTORY_MODIFIED ≠ 0
    · have hiter : workerIteration opts env pmap =
          { pmap := (tailAllFiles (if opts.beepOnException then some opts.beep_regex else none)
              env.probe (updateLogFilesMap pmap
                (collectLogFiles opts.filename_regex env.entries) opts.max_files env.now).1).1,
            events := (updateLogFilesMap pmap (collectLogFiles opts.filename_regex env.entries)
                opts.max_files env.now).2 ++
              (tailAllFiles (if opts.beepOnException then some opts.beep_regex else none)
                env.probe (updateLogFilesMap pmap
                  (collectLogFiles opts.filename_regex env.entries) opts.max_files
                  env.now).1).2,
            rescans := 1, reconciliations := 1, tailPasses := 1,
            continues := !env.stopAfter } := by
        unfold workerIteration
        rw [if_pos hloop]
        simp only []
        rw [if_neg hgo2, if_pos hdir]
      rw [hiter]
      refine ⟨rfl, ⟨fun _ => hdir, fun _ => rfl⟩, ⟨fun _ => hdir, fun _ => rfl⟩,
        fun _ => ⟨rfl, rfl⟩, fun h => absurd h hdir⟩
    · have hiter : workerIteration opts env pmap =
          { pmap := (tailAllFiles (if opts.beepOnException then some opts.beep_regex else none)
              env.probe pmap).1,
            events := (tailAllFiles (if opts.beepOnException then some opts.beep_regex else none)
              env.probe pmap).2,
            rescans := 0, reconciliations := 0, tailPasses := 1,
            continues := !env.stopAfter } := by
        unfold workerIteration
        rw [if_pos hloop]
        simp only []
        rw [if_neg hgo2, if_neg hdir]
      rw [hiter]
      refine ⟨rfl, ⟨fun h => absurd h (by simp), fun h => absurd h hdir⟩,
        ⟨fun h => absurd h (by simp), fun h => absurd h hdir⟩,
        fun h => absurd h hdir, fun _ => ⟨rfl, rfl, rfl, rfl⟩⟩

/-- C12, witness: three iterations on an empty registry; the first reads the
directory-modified bit, the second reads nothing, the third reads the stop bit
and ends the loop although the environment offers another iteration. -/
theorem workerIteration_protocol_witness :
    ((workerLoop ⟨fun _ => none, fun _ => false, false, 10⟩
        [⟨true, 0x1000, [], 0, fun _ => ⟨false, none, none, none⟩, false⟩,
         ⟨true, 0, [], 0, fun _ => ⟨false, none, none, none⟩, false⟩,
         ⟨true, 0x4000, [], 0, fun _ => ⟨false, none, none, none⟩, false⟩,
         ⟨true, 0x1000, [], 0, fun _ => ⟨false, none, none, none⟩, false⟩] []).map
      (fun r => (r.rescans, r.reconciliations, r.tailPasses, r.continues))) =
      [(1, 1, 1, true), (0, 0, 1, true), (0, 0, 0, false)] ∧
    (workerIteration ⟨fun _ => none, fun _ => false, false, 10⟩
        ⟨true, 0x4000, [], 0, fun _ => ⟨false, none, none, none⟩, false⟩ []).tailPasses = 0 :=
  ⟨by decide,
   ((workerIteration_protocol ⟨fun _ => none, fun _ => false, false, 10⟩
      ⟨true, 0x4000, [], 0, fun _ => ⟨false, none, none, none⟩, false⟩ [] rfl).1
      (by decide)).2.2.2.1⟩

/-! ## The exit code -/

/-- Whatever the wait loop meets, `mainThreadProc` returns 0 once the directory
handle is valid: the codes 5 and 6 are assigned to the variable that the loop
body declares, and the variable of the function keeps its initial value. -/
theorem mainThreadProc_of_valid_handle (env : MainThreadEnv) (h : env.dirMonitorValid = true) :
    mainThreadProc env = some 0 ∨ mainThreadProc env = none := by
  unfold mainThreadProc
  simp only [h, if_true]
  by_cases ht : env.threadStarted = true
  · simp only [ht, if_true]
    cases waitLoop env.waits with
    | none => right; rfl
    | some v => left; rfl
  · left
    simp only [ht, Bool.false_eq_true, if_false]

/-- The exit codes that `main` does deliver: 1 when the target is not a
directory, 2 when a pattern is refused, 3 when the exit handlers cannot be
installed, 4 when the directory cannot be monitored, and 0 when the worker
thread exits (normal shutdown). -/
theorem main_exit_codes (env : MainEnv) (hargs : env.argsStat = 0) (hhelp : env.help = false)
    (hdir : env.logdirEmpty = false) :
    (env.isDirectory = false → main env = some 1) ∧
    (env.isDirectory = true → (env.filePatternValid = false ∨ env.beepPatternValid = false) →
      main env = some 2) ∧
    (env.isDirectory = true → env.filePatternValid = true → env.beepPatternValid = true →
      env.exitHandlers = false → main env = some 3) ∧
    (env.isDirectory = true → env.filePatternValid = true → env.beepPatternValid = true →
      env.exitHandlers = true → env.mainThread.dirMonitorValid = false → main env = some 4) ∧
    (env.isDirectory = true → env.filePatternValid = true → env.beepPatternValid = true →
      env.exitHandlers = true → env.mainThread.dirMonitorValid = true →
      env.mainThread.threadStarted = true →
      ∀ n, env.mainThread.waits =
        List.replicate n (WaitResult.directoryChanged true) ++ [WaitResult.workerExited] →
      main env = some 0) := by
  refine ⟨?_, ?_, ?_, ?_, ?_⟩
  · intro h
    simp [main, hargs, hhelp, hdir, h]
  · intro h hp
    rcases hp with hp | hp <;> simp [main, hargs, hhelp, hdir, h, hp]
  · intro h h1 h2 h3
    simp [main, hargs, hhelp, hdir, h, h1, h2, h3]
  · intro h h1 h2 h3 h4
    simp [main, hargs, hhelp, hdir, h, h1, h2, h3, mainThreadProc, h4]
  · intro h h1 h2 h3 h4 h5 n hw
    have hloop : ∀ k, waitLoop (List.replicate k (WaitResult.directoryChanged true) ++
        [WaitResult.workerExited]) = some 1 := by
      intro k
      induction k with
      | zero => rfl
      | succ k ih => rw [List.replicate_succ, List.cons_append, waitLoop]; exact ih
    simp [main, hargs, hhelp, hdir, h, h1, h2, h3, mainThreadProc, h4, h5, hw, hloop n]

/-- C13: the exit code of `main` when the wait primitive fails.  The directory
is valid, the patterns are accepted, the exit handlers are installed, the
directory handle is valid and the worker runs.  When
`FindNextChangeNotification` fails, and when `WaitForMultipleObjects` returns
an unexpected value (here `WAIT_FAILED`), `main` returns 0, the code of a
normal shutdown, although the wait loop ends with 5 and with 6 in its own
variable `stat`. -/
theorem main_returns_zero_on_wait_failure :
    waitLoop [WaitResult.directoryChanged true, WaitResult.directoryChanged false] = some 5 ∧
    main ⟨0, false, false, true, true, true, true,
      ⟨true, true, [WaitResult.directoryChanged true, WaitResult.directoryChanged false]⟩⟩ =
      some 0 ∧
    waitLoop [WaitResult.other (-1)] = some 6 ∧
    main ⟨0, false, false, true, true, true, true, ⟨true, true, [WaitResult.other (-1)]⟩⟩ =
      some 0 ∧
    main ⟨0, false, false, true, true, true, true, ⟨true, true, [WaitResult.workerExited]⟩⟩ =
      some 0 := by
  decide

/-! ## The shared signal -/

theorem or_directoryModified (signal : Nat) :
    (signal ||| DIRECTORY_MODIFIED) &&& DIRECTORY_MODIFIED ≠ 0 := by
  have h : DIRECTORY_MODIFIED = 2 ^ 12 := by decide
  rw [h, Nat.and_two_pow, Nat.testBit_or, Nat.testBit_two_pow_self, Bool.or_true]
  decide

theorem runOps_append (signal : Nat) (a b : List SignalOp) :
    runOps signal (a ++ b) = runOps (runOps signal a) b := by
  induction a generalizing signal with
  | nil => rfl
  | cons op rest ih =>
    rw [List.cons_append, runOps, runOps]
    exact ih _

/-- The directory-modified bit, once set, stays set as long as the only
operations are `notify` and `load`. -/
theorem runOps_keeps_bit : ∀ (ops : List SignalOp) (signal : Nat),
    (∀ op ∈ ops, op = SignalOp.notify ∨ op = SignalOp.load) →
    signal &&& DIRECTORY_MODIFIED ≠ 0 → runOps signal ops &&& DIRECTORY_MODIFIED ≠ 0
  | [], _, _, h => h
  | op :: rest, signal, hops, h => by
    rw [runOps]
    apply runOps_keeps_bit rest _ (fun o ho => hops o (List.mem_cons_of_mem _ ho))
    rcases hops op (List.mem_cons_self _ _) with ho | ho
    · rw [ho]; exact or_directoryModified signal
    · rw [ho]; exact h

/-- C14: the operations on `signal` between the read-and-clear of one worker
iteration and the read-and-clear of the next, in any interleaving: the worker
contributes its `load`, the main thread any number of `notify` operations at
any place, and no stop is requested.  If the directory-modified bit is set at
any point after the first read-and-clear, the next read-and-clear returns a
value with the bit; and no operation of the worker in between changes the
signal. -/
theorem signal_not_lost (signal : Nat) (mid : List SignalOp)
    (hworker : mid.filter SignalOp.byWorker = workerOpsBetweenExchanges)
    (hnotifier : ∀ op ∈ mid, op.byWorker = false → op = SignalOp.notify) :
    (∀ pre post, mid = pre ++ post →
      runOps (SignalOp.exchange.apply signal) pre &&& DIRECTORY_MODIFIED ≠ 0 →
      ∃ v, SignalOp.exchange.observed (runOps (SignalOp.exchange.apply signal) mid) = some v ∧
        v &&& DIRECTORY_MODIFIED ≠ 0) ∧
    (SignalOp.notify ∈ mid →
      ∃ v, SignalOp.exchange.observed (runOps (SignalOp.exchange.apply signal) mid) = some v ∧
        v &&& DIRECTORY_MODIFIED ≠ 0) ∧
    (∀ op ∈ mid, op.byWorker = true → ∀ s, op.apply s = s) := by
  have hops : ∀ op ∈ mid, op = SignalOp.notify ∨ op = SignalOp.load := by
    intro op hop
    by_cases hb : op.byWorker = true
    · right
      have : op ∈ mid.filter SignalOp.byWorker := List.mem_filter.2 ⟨hop, hb⟩
      rw [hworker] at this
      simpa [workerOpsBetweenExchanges] using this
    · left
      exact hnotifier op hop (by simpa using hb)
  have hkeep : ∀ pre post, mid = pre ++ post →
      runOps (SignalOp.exchange.apply signal) pre &&& DIRECTORY_MODIFIED ≠ 0 →
      runOps (SignalOp.exchange.apply signal) mid &&& DIRECTORY_MODIFIED ≠ 0 := by
    intro pre post hsplit hset
    rw [hsplit, runOps_append]
    apply runOps_keeps_bit post _ _ hset
    intro op hop
    exact hops op (by rw [hsplit]; exact List.mem_append_right _ hop)
  refine ⟨fun pre post hsplit hset => ⟨_, rfl, hkeep pre post hsplit hset⟩, ?_, ?_⟩
  · intro hmem
    obtain ⟨pre, post, hsplit⟩ := List.append_of_mem hmem
    refine ⟨_, rfl, hkeep (pre ++ [SignalOp.notify]) post (by rw [hsplit]; simp) ?_⟩
    rw [runOps_append]
    exact or_directoryModified _
  · intro op hop hb s
    rcases hops op hop with ho | ho
    · rw [ho] at hb; cases hb
    · rw [ho]; rfl

/-- C14, witness: the worker reads and clears the signal, the main thread sets
the bit during the tail pass, the worker loads the signal, and the main thread
sets the bit again during the sleep: the next read-and-clear returns 0x1000. -/
theorem signal_not_lost_witness :
    SignalOp.exchange.observed
        (runOps (SignalOp.exchange.apply 0x1000)
          [SignalOp.notify, SignalOp.load, SignalOp.notify]) = some 0x1000 ∧
    ∃ v, SignalOp.exchange.observed
        (runOps (SignalOp.exchange.apply 0x1000)
          [SignalOp.notify, SignalOp.load, SignalOp.notify]) = some v ∧
      v &&& DIRECTORY_MODIFIED ≠ 0 :=
  ⟨by decide,
   (signal_not_lost 0x1000 [SignalOp.notify, SignalOp.load, SignalOp.notify]
      (by decide) (by decide)).2.1 (by decide)⟩

/-! ## Reconciliation within the capacity -/

/-- A map without repeated keys whose keys all lie in `S`, and that lacks one
key of `S`, has fewer entries than `S`. -/
theorem length_lt_of_missing_key (m : PrefixLogFileInfoMap) (S : List String) (k : String)
    (hnd : KeysNodup m) (hsub : ∀ x ∈ m.map Prod.fst, x ∈ S) (hk : k ∈ S)
    (hmiss : k ∉ m.map Prod.fst) : m.length < S.length := by
  have hnd2 : (k :: m.map Prod.fst).Nodup := List.nodup_cons.2 ⟨hmiss, hnd⟩
  have hsub2 : (k :: m.map Prod.fst) ⊆ S := by
    intro x hx
    rcases List.mem_cons.1 hx with h | h
    · rw [h]; exact hk
    · exact hsub x h
  have := (List.subperm_of_subset hnd2 hsub2).length_le
  simp only [List.length_cons, List.length_map] at this
  omega

/-- The record that the map holds for the key of an entry after the loop body,
when the map was not full or knew the key. -/
theorem addStep_find_self (max_files : Nat) (now : Int) (e : String × LogFileInfo)
    (m : PrefixLogFileInfoMap) (hroom : mapFind m e.1 = none → m.length < max_files) :
    (∃ v, mapFind (addStep max_files now e m).1 e.1 = some v ∧ v.path = e.2.path) ∧
    ∀ ev ∈ (addStep max_files now e m).2, ev.isLimitReached = false := by
  obtain ⟨rw, hrw⟩ := startWatching_event e.2 now
  have hpath := (startWatching_pfx_path e.2 now).2
  rcases addStep_cases max_files now e m with ⟨h1, _, h3⟩ | ⟨h1, h2, _⟩ | ⟨old, _, _, h3⟩ |
    ⟨old, h1, h2, h3⟩
  · rw [h3]
    refine ⟨⟨(e.2.startWatching now).1, ?_, hpath⟩, ?_⟩
    · rw [mapFind_append, h1]
      simp [mapFind]
    · intro ev hev
      have : ev = Event.startWatching e.2 rw := by simpa [hrw] using hev
      rw [this]; rfl
  · exact absurd (hroom h1) h2
  · rw [h3]
    refine ⟨⟨(e.2.startWatching now).1, ?_, hpath⟩, ?_⟩
    · rw [mapFind_mapInsertOrAssign, if_pos rfl]
    · intro ev hev
      simp only [hrw, LogFileInfo.stopWatching, List.mem_cons, List.mem_singleton,
        List.not_mem_nil, or_false] at hev
      rcases hev with h | h <;> rw [h] <;> rfl
  · rw [h3]
    exact ⟨⟨old, h1, h2⟩, by simp⟩

/-- The second loop on a scan result that fits the capacity: every entry ends
up in the map with its path, no key outside the scan result enters, and no
notice is emitted. -/
theorem addLoop_fits (max_files : Nat) (now : Int) (S : List String)
    (hS : S.length ≤ max_files) :
    ∀ (rest : List (String × LogFileInfo)) (m : PrefixLogFileInfoMap),
      KeysNodup m → (∀ k ∈ m.map Prod.fst, k ∈ S) → (∀ e ∈ rest, e.1 ∈ S) → KeysNodup rest →
      KeysNodup (addLoop max_files now rest m).1 ∧
      (∀ k ∈ (addLoop max_files now rest m).1.map Prod.fst, k ∈ S) ∧
      (∀ e ∈ rest, ∃ v, mapFind (addLoop max_files now rest m).1 e.1 = some v ∧
        v.path = e.2.path) ∧
      ∀ ev ∈ (addLoop max_files now rest m).2, ev.isLimitReached = false
  | [], m, h1, h2, _, _ => ⟨h1, h2, by simp, by simp [addLoop]⟩
  | e :: rest, m, h1, h2, h3, h4 => by
    have hnd : (e.1 ∉ rest.map Prod.fst) ∧ KeysNodup rest := by
      simpa [KeysNodup] using h4
    have heS : e.1 ∈ S := h3 e (List.mem_cons_self _ _)
    have hroom : mapFind m e.1 = none → m.length < max_files := by
      intro hnone
      have := length_lt_of_missing_key m S e.1 h1 h2 heS ((mapFind_eq_none_iff m e.1).1 hnone)
      omega
    obtain ⟨hself, hquiet⟩ := addStep_find_self max_files now e m hroom
    have hkeys : ∀ k ∈ (addStep max_files now e m).1.map Prod.fst, k ∈ S := by
      intro k hk
      rcases addStep_keys max_files now e m with hk1 | ⟨_, _, hk1⟩
      · rw [hk1] at hk; exact h2 k hk
      · rw [hk1] at hk
        rcases List.mem_append.1 hk with h | h
        · exact h2 k h
        · have : k = e.1 := by simpa using h
          rw [this]; exact heS
    obtain ⟨ih1, ih2, ih3, ih4⟩ := addLoop_fits max_files now S hS rest
      (addStep max_files now e m).1 (addStep_nodup max_files now e m h1) hkeys
      (fun x hx => h3 x (List.mem_cons_of_mem _ hx)) hnd.2
    rw [addLoop_cons]
    refine ⟨ih1, ih2, ?_, ?_⟩
    · intro x hx
      rcases List.mem_cons.1 hx with h | h
      · rw [h]
        simp only []
        rw [addLoop_find_other max_files now e.1 rest _ hnd.1]
        exact hself
      · exact ih3 x h
    · intro ev hev
      rcases List.mem_append.1 hev with h | h
      · exact hquiet ev h
      · exact ih4 ev h

/-- C15: when the scan result holds at most `max_files` prefixes,
`updateLogFilesMap` makes the registry agree with it, whatever the size of the
old registry: the keys of the registry are the keys of the scan result, every
record of the registry has the path of the scan candidate of its prefix, and
no "monitoring limit reached" notice is emitted. -/
theorem updateLogFilesMap_within_capacity (oldMap newMap : PrefixLogFileInfoMap)
    (max_files : Nat) (now : Int)
    (hold : KeysNodup oldMap) (hnew : KeysNodup newMap) (hfit : newMap.length ≤ max_files) :
    (∀ k, k ∈ (updateLogFilesMap oldMap newMap max_files now).1.map Prod.fst ↔
      k ∈ newMap.map Prod.fst) ∧
    KeysNodup (updateLogFilesMap oldMap newMap max_files now).1 ∧
    (∀ k v, mapFind (updateLogFilesMap oldMap newMap max_files now).1 k = some v →
      ∃ c, mapFind newMap k = some c ∧ v.path = c.path) ∧
    (∀ ev ∈ (updateLogFilesMap oldMap newMap max_files now).2, ev.isLimitReached = false) := by
  have hmap := removeLoop_map (removedKeys oldMap newMap) oldMap
  have hnd1 : KeysNodup (removeLoop (removedKeys oldMap newMap) oldMap).1 := by
    rw [hmap]
    unfold KeysNodup at hold ⊢
    exact hold.sublist (List.Sublist.map _ (List.filter_sublist _))
  have hsub1 : ∀ k ∈ (removeLoop (removedKeys oldMap newMap) oldMap).1.map Prod.fst,
      k ∈ newMap.map Prod.fst := by
    intro k hk
    rw [hmap] at hk
    obtain ⟨e, he, hek⟩ := List.mem_map.1 hk
    have hf := List.mem_filter.1 he
    have hnr : e.1 ∉ removedKeys oldMap newMap := by simpa using hf.2
    rw [mem_removedKeys] at hnr
    by_contra hc
    exact hnr ⟨List.mem_map.2 ⟨e, hf.1, rfl⟩, by rw [hek]; exact hc⟩
  obtain ⟨a1, a2, a3, a4⟩ := addLoop_fits max_files now (newMap.map Prod.fst)
    (by rw [List.length_map]; exact hfit) newMap _ hnd1 hsub1
    (fun e he => List.mem_map.2 ⟨e, he, rfl⟩) hnew
  have hupd1 : (updateLogFilesMap oldMap newMap max_files now).1 =
      (addLoop max_files now newMap (removeLoop (removedKeys oldMap newMap) oldMap).1).1 := rfl
  have hupd2 : (updateLogFilesMap oldMap newMap max_files now).2 =
      (removeLoop (removedKeys oldMap newMap) oldMap).2 ++
      (addLoop max_files now newMap (removeLoop (removedKeys oldMap newMap) oldMap).1).2 := rfl
  rw [hupd1, hupd2]
  refine ⟨fun k => ⟨a2 k, ?_⟩, a1, ?_, ?_⟩
  · intro hk
    obtain ⟨e, he, hek⟩ := List.mem_map.1 hk
    obtain ⟨v, hv, _⟩ := a3 e he
    rw [← hek]
    exact mapFind_mem_keys _ _ v hv
  · intro k v hv
    have hk := a2 k (mapFind_mem_keys _ _ v hv)
    obtain ⟨e, he, hek⟩ := List.mem_map.1 hk
    obtain ⟨w, hw, hwp⟩ := a3 e he
    rw [hek, hv] at hw
    have hvw : v = w := by simpa using hw
    refine ⟨e.2, ?_, by rw [hvw]; exact hwp⟩
    rw [← hek]
    exact mapFind_of_mem newMap e.1 e.2 hnew he
  · intro ev hev
    rcases List.mem_append.1 hev with h | h
    · have := (removeLoop_events (removedKeys oldMap newMap) oldMap
        (nodup_removedKeys oldMap newMap))
      rw [this] at h
      obtain ⟨k, _, hk⟩ := List.mem_filterMap.1 h
      cases hf : mapFind oldMap k with
      | none => rw [hf] at hk; simp at hk
      | some x =>
        rw [hf] at hk
        have : ev = Event.stopWatching x := by
          simpa [LogFileInfo.stopWatching] using hk.symm
        rw [this]; rfl
    · exact a4 ev h

/-- C15, witness: `max_files = 2`, a full registry with the prefixes "a" and
"b", and a scan result with "b" (under a new path) and the new prefix "c":
"a" is removed first, so "c" finds a free slot in the same reconciliation. -/
theorem updateLogFilesMap_within_capacity_witness :
    updateLogFilesMap
      [("a", ⟨"a", "f", 0, 0, 10, 10⟩), ("b", ⟨"b", "g1", 0, 0, 10, 10⟩)]
      [("c", ⟨"c", "h", 0, 0, 10, 10⟩), ("b", ⟨"b", "g2", 0, 0, 10, 10⟩)] 2 100 =
      ([("b", ⟨"b", "g2", 0, 0, 10, 10⟩), ("c", ⟨"c", "h", 0, 0, 10, 10⟩)],
        [Event.stopWatching ⟨"a", "f", 0, 0, 10, 10⟩,
         Event.startWatching ⟨"c", "h", 0, 0, 10, 10⟩ false,
         Event.stopWatching ⟨"b", "g1", 0, 0, 10, 10⟩,
         Event.startWatching ⟨"b", "g2", 0, 0, 10, 10⟩ false]) ∧
    ∀ ev ∈ (updateLogFilesMap
      [("a", ⟨"a", "f", 0, 0, 10, 10⟩), ("b", ⟨"b", "g1", 0, 0, 10, 10⟩)]
      [("c", ⟨"c", "h", 0, 0, 10, 10⟩), ("b", ⟨"b", "g2", 0, 0, 10, 10⟩)] 2 100).2,
      ev.isLimitReached = false :=
  ⟨by decide,
   (updateLogFilesMap_within_capacity
      [("a", ⟨"a", "f", 0, 0, 10, 10⟩), ("b", ⟨"b", "g1", 0, 0, 10, 10⟩)]
      [("c", ⟨"c", "h", 0, 0, 10, 10⟩), ("b", ⟨"b", "g2", 0, 0, 10, 10⟩)] 2 100
      (by decide) (by decide) (by decide)).2.2.2⟩

end Tailer
